import Mathlib

/-!
Verification development for the University Exam Seat Allocater repository.

The repository contains three variants of an `ExamSeatAllocator` class:
`University_Exam_Seat_Allocater.py` (half-split round-robin with serpentine
placement), `Exam1_Seat_allocator.py` (course round-robin / 2:1:1 packing with
row-major placement and a second placement pass), and
`pdf_reports/University_Exam_Seat_Allocater (copy).py` (course round-robin with
dynamic course-window replacement).  Each variant's `allocate_seats` is embedded
below as a pure Lean function over explicit state.

Python dictionaries are modelled as association lists with insert-or-replace
update (`updA`), which reproduces both dict values and dict insertion order.
Seat grids (`hall_seats` values) are lists of rows of optional registration
numbers.  The numeric expression `int((cap / total_capacity) * total_students)`
of the proportional distributor is modelled as the exact natural floor
`cap * total_students / total_capacity`; for the concrete inputs used in the
theorems below the Python float computation is exact, so both agree there.
-/

set_option linter.unusedVariables false

namespace SeatAlloc

/-- Errors that `allocate_seats` can raise.  The Python sources raise
`ValueError` with distinguishing messages; the spec names them `CapacityError`
(validation), `InsufficientCapacityError` (hall selection) and
`UnallocatedStudentsError` (students left unseated, carrying the count). -/
inductive AllocError where
  | capacityError : AllocError
  | insufficientCapacityError : AllocError
  | unallocatedStudentsError (count : Nat) (regs : List String) : AllocError
deriving Repr, DecidableEq

/-- A hall's seat grid: `rows` lists of `cols` optional registration numbers,
mirroring `[[None for _ in range(cols)] for _ in range(rows)]`. -/
abbrev Grid := List (List (Option String))

/-- The all-empty grid a hall starts with. -/
def emptyGrid (rows cols : Nat) : Grid :=
  List.replicate rows (List.replicate cols none)

/-- Read grid cell `(r, c)` (0-based); out-of-range reads give `none`. -/
def getCell (g : Grid) (r c : Nat) : Option String :=
  (g.getD r []).getD c none

/-- Write grid cell `(r, c)` (0-based), as `hall_seats[code][r][c] = v`. -/
def setCell (g : Grid) (r c : Nat) (v : Option String) : Grid :=
  g.set r ((g.getD r []).set c v)

/-- Registration numbers occupying one row, in column order. -/
def rowRegs (row : List (Option String)) : List String :=
  row.filterMap id

/-- Registration numbers occupying a grid, in row-major order. -/
def gridRegs (g : Grid) : List String :=
  (g.map rowRegs).flatten

/-- Number of occupied cells of a grid. -/
def occupiedCount (g : Grid) : Nat :=
  (gridRegs g).length

/-- Lookup in an association list modelling a Python dict. -/
def findA {α : Type} : List (String × α) → String → Option α
  | [], _ => none
  | p :: rest, k => if p.1 = k then some p.2 else findA rest k

/-- Python dict assignment `m[k] = v`: replace in place if the key is present
(keeping its position), otherwise append. -/
def updA {α : Type} : List (String × α) → String → α → List (String × α)
  | [], k, v => [(k, v)]
  | p :: rest, k, v => if p.1 = k then (k, v) :: rest else p :: updA rest k v

/-- The grid stored for a hall code (defaulting to `[]`, which never happens
for codes of loaded halls). -/
def getGridD (seats : List (String × Grid)) (code : String) : Grid :=
  (findA seats code).getD []

/-- Total number of occupied cells summed over all `hall_seats` grids. -/
def seatsOccupied (seats : List (String × Grid)) : Nat :=
  (seats.map (fun p => occupiedCount p.2)).sum

/-- All registration numbers appearing in any grid cell. -/
def seatsRegs (seats : List (String × Grid)) : List String :=
  (seats.map (fun p => gridRegs p.2)).flatten

/-- Number of `(hall, row, col)` cells over all grids that hold exactly `x`. -/
def regCellCount (seats : List (String × Grid)) (x : String) : Nat :=
  (seats.map (fun p => ((p.2.map (fun row => row.count (some x))).sum))).sum

/-- Lexicographic comparison of character lists by code point, the order
Python uses on strings. -/
def charListLt : List Char → List Char → Bool
  | [], [] => false
  | [], _ :: _ => true
  | _ :: _, [] => false
  | a :: as, b :: bs =>
      if a.toNat < b.toNat then true
      else if b.toNat < a.toNat then false
      else charListLt as bs

/-- Python's `<` on strings: lexicographic by code point. -/
def strLt (a b : String) : Bool := charListLt a.toList b.toList

/-- Insert `a` before the first element `b` with `le a b`.  Building block of
the stable sort below. -/
def insertLE {α : Type} (le : α → α → Bool) (a : α) : List α → List α
  | [] => [a]
  | b :: bs => if le a b then a :: b :: bs else b :: insertLE le a bs

/-- Stable sort by a total preorder `le`, modelling Python's stable
`sorted(...)` / `list.sort(...)`: elements with equal keys keep their original
relative order.  (For a total preorder the stable sorted permutation is
unique, so this insertion sort and CPython's timsort agree.) -/
def pySort {α : Type} (le : α → α → Bool) : List α → List α
  | [] => []
  | a :: l => insertLE le a (pySort le l)

/-- Write a sequence of (position, registration number) pairs into a grid, in
order.  The net grid effect of each variant's placement loop. -/
def placeRegs (g : Grid) (ps : List ((Nat × Nat) × String)) : Grid :=
  ps.foldl (fun g q => setCell g q.1.1 q.1.2 (some q.2)) g

/-- First value paired with a given position, scanning left to right. -/
def lookupPos : List ((Nat × Nat) × String) → Nat × Nat → Option String
  | [], _ => none
  | q :: rest, p => if q.1 = p then some q.2 else lookupPos rest p

/-- Apply a sequence of dict assignments. -/
def updAList {α : Type} (m : List (String × α)) (kvs : List (String × α)) :
    List (String × α) :=
  kvs.foldl (fun m q => updA m q.1 q.2) m

/-- Well-formed grid of the given dimensions. -/
def gridWF (g : Grid) (rows cols : Nat) : Prop :=
  g.length = rows ∧ ∀ row ∈ g, row.length = cols

/-- The registration numbers of occupied cells read in row-major spatial
order over a rows x cols window. -/
def rowMajorRead (g : Grid) (rows cols : Nat) : List String :=
  ((List.range rows).flatMap (fun r => (List.range cols).map (fun c => (r, c)))).filterMap
    (fun p => getCell g p.1 p.2)

end SeatAlloc

namespace Univ

open SeatAlloc

/-- Student record loaded by `University_Exam_Seat_Allocater._load_students`
(no date column in this variant). -/
structure Student where
  reg_no : String
  department : String
  course_code : String
  course_title : String
deriving Repr, DecidableEq

/-- Hall record loaded by `University_Exam_Seat_Allocater._load_halls`. -/
structure Hall where
  hall_code : String
  hall_name : String
  internal_external : String
  block : String
  rows : Nat
  cols : Nat
  total_capacity : Nat
deriving Repr, DecidableEq

/-- One `self.allocations[reg]` ledger entry of the University variant. -/
structure Entry where
  hall_code : String
  hall_name : String
  block : String
  row : Nat
  col : Nat
  course_code : String
  course_title : String
  department : String
deriving Repr, DecidableEq

/-- Grid capacity `rows * cols` of a hall. -/
def hallCap (h : Hall) : Nat := h.rows * h.cols

/-- Sum of grid capacities over a list of halls. -/
def sumCaps (hs : List Hall) : Nat := (hs.map hallCap).sum

/-- The `validate_inputs` method: `CapacityError` when some hall's declared
`total_capacity` exceeds its grid capacity, or when the total grid seat count
is smaller than the number of students. -/
def validate_inputs (students : List Student) (halls : List Hall) :
    Except AllocError Unit :=
  if halls.any (fun h => decide (hallCap h < h.total_capacity)) then
    .error .capacityError
  else if sumCaps halls < students.length then
    .error .capacityError
  else
    .ok ()

/-- The hall-selection loop: walk halls in capacity-descending order, adding
each hall's code to the selected set and accumulating its grid capacity, and
stop as soon as the accumulated capacity reaches `required_capacity`. -/
def selectCodesGo : List Hall → Nat → Nat → List String → List String
  | [], _, _, acc => acc
  | h :: rest, req, capAcc, acc =>
      if req ≤ capAcc + hallCap h then acc.insert h.hall_code
      else selectCodesGo rest req (capAcc + hallCap h) (acc.insert h.hall_code)

/-- Selected hall codes for a required capacity: accumulation order is the
stable capacity-descending order of `sorted(..., reverse=True)`. -/
def selectedCodes (halls : List Hall) (required : Nat) : List String :=
  selectCodesGo (pySort (fun a b => decide (hallCap b ≤ hallCap a)) halls)
    required 0 []

/-- Proportional base target `int((cap / total_capacity) * total_students)`
for one hall (0 when the selected capacity is 0). -/
def baseTarget (T n : Nat) (h : Hall) : Nat :=
  if 0 < T then hallCap h * n / T else 0

/-- The first distributor loop: fill the `students_per_hall` dict with base
targets while accumulating `allocated_count`. -/
def targetsFold (hs : List Hall) (T n : Nat) : List (String × Nat) × Nat :=
  hs.foldl
    (fun acc h => (updA acc.1 h.hall_code (baseTarget T n h),
                   acc.2 + baseTarget T n h))
    ([], 0)

/-- The remainder loop: hand one extra seat to each hall in declared order
until the rounding remainder is exhausted. -/
def remDistribute : List (String × Nat) → Nat → List Hall → List (String × Nat)
  | d, 0, _ => d
  | d, _, [] => d
  | d, r + 1, h :: hs =>
      remDistribute (updA d h.hall_code ((findA d h.hall_code).getD 0 + 1)) r hs

/-- The `students_per_hall` dict computed by the proportional distributor of
`allocate_seats` (lines 140-156). -/
def studentsPerHall (hs : List Hall) (n : Nat) : List (String × Nat) :=
  let T := sumCaps hs
  let p := targetsFold hs T n
  remDistribute p.1 (n - p.2) hs

/-- The round-robin pull loop: while the hall wants more students and either
half is non-empty, take one student from the first half then one from the
second half.  Returns the taken students and the remaining halves. -/
def pullRR : Nat → List Student → List Student →
    List Student × List Student × List Student
  | 0, f, s => ([], f, s)
  | _ + 1, [], [] => ([], [], [])
  | n + 1, a :: f, s =>
      match n, s with
      | 0, s => ([a], f, s)
      | m + 1, [] =>
          let r := pullRR (m + 1) f []
          (a :: r.1, r.2.1, r.2.2)
      | m + 1, b :: s2 =>
          let r := pullRR m f s2
          (a :: b :: r.1, r.2.1, r.2.2)
  | n + 1, [], b :: s2 =>
      let r := pullRR n [] s2
      (b :: r.1, r.2.1, r.2.2)

/-- Serpentine (S-pattern) cell order: even rows left-to-right, odd rows
right-to-left. -/
def serpPositions (rows cols : Nat) : List (Nat × Nat) :=
  (List.range rows).flatMap
    (fun r =>
      (if r % 2 = 0 then List.range cols else (List.range cols).reverse).map
        (fun c => (r, c)))

/-- Allocation state of one run: the two student halves still to be seated and
the `hall_seats`, `allocations` and `hall_courses` dicts. -/
structure UnivState where
  first : List Student
  second : List Student
  seats : List (String × Grid)
  allocs : List (String × Entry)
  courses : List (String × List String)
deriving Repr, DecidableEq

/-- The ledger entry written for a student seated at 0-based position `p`
(rows and columns are recorded 1-based). -/
def univEntry (hall : Hall) (p : Nat × Nat) (stu : Student) : Entry :=
  { hall_code := hall.hall_code, hall_name := hall.hall_name,
    block := hall.block, row := p.1 + 1, col := p.2 + 1,
    course_code := stu.course_code, course_title := stu.course_title,
    department := stu.department }

/-- Place a list of (position, student) pairs into one hall's grid, writing the
grid cell and the ledger entry for each student in order. -/
def placePairs (hall : Hall) :
    List (String × Grid) → List (String × Entry) →
    List ((Nat × Nat) × Student) → List (String × Grid) × List (String × Entry)
  | seats, allocs, [] => (seats, allocs)
  | seats, allocs, (p, stu) :: rest =>
      let g := getGridD seats hall.hall_code
      let seats2 := updA seats hall.hall_code (setCell g p.1 p.2 (some stu.reg_no))
      placePairs hall seats2 (updA allocs stu.reg_no (univEntry hall p stu)) rest

/-- Process one selected hall: pull alternately from the halves up to
`min(grid_capacity, total_capacity, target)` students, record the hall's
courses and place the pulled students in S-pattern order. -/
def univHall (tgts : List (String × Nat)) (st : UnivState) (hall : Hall) :
    UnivState :=
  let target := (findA tgts hall.hall_code).getD 0
  if target = 0 then st
  else
    let usable := min (hallCap hall) (min hall.total_capacity target)
    let pulled := pullRR usable st.first st.second
    if pulled.1 = [] then { st with first := pulled.2.1, second := pulled.2.2 }
    else
      let courses2 :=
        updA st.courses hall.hall_code ((pulled.1.map Student.course_code).eraseDups)
      let pairs := (serpPositions hall.rows hall.cols).zip pulled.1
      let sa := placePairs hall st.seats st.allocs pairs
      { first := pulled.2.1, second := pulled.2.2,
        seats := sa.1, allocs := sa.2, courses := courses2 }

/-- Initial `hall_seats` dict built in `__init__`: one empty grid per hall code
(a duplicated code keeps its first position but the last hall's grid). -/
def initSeats (halls : List Hall) : List (String × Grid) :=
  halls.foldl (fun m h => updA m h.hall_code (emptyGrid h.rows h.cols)) []

/-- Initial `hall_courses` dict built in `__init__`. -/
def initCourses (halls : List Hall) : List (String × List String) :=
  halls.foldl (fun m h => updA m h.hall_code []) []

/-- Embedding of `ExamSeatAllocator.allocate_seats` of
`University_Exam_Seat_Allocater.py` (lines 101-215): validation, 25-seat-block
hall selection, half split, proportional distribution, round-robin pulling and
S-pattern placement, with the final unallocated check. -/
def allocate_seats (students : List Student) (halls : List Hall) :
    Except AllocError UnivState := do
  let _ ← validate_inputs students halls
  let n := students.length
  let required := ((n + 24) / 25) * 25
  let selected := selectedCodes halls required
  let hallsToUse := halls.filter (fun h => selected.contains h.hall_code)
  if sumCaps hallsToUse < n then
    Except.error .insufficientCapacityError
  else
    let half := (n + 1) / 2
    let tgts := studentsPerHall hallsToUse n
    let st0 : UnivState :=
      { first := students.take half, second := students.drop half,
        seats := initSeats halls, allocs := [], courses := initCourses halls }
    let stF := hallsToUse.foldl (univHall tgts) st0
    let remaining := stF.first ++ stF.second
    if remaining = [] then Except.ok stF
    else Except.error (.unallocatedStudentsError remaining.length
      (remaining.map Student.reg_no))

end Univ

namespace Exam1

open SeatAlloc

/-- Student record loaded by `Exam1_Seat_allocator._load_students` (this
variant also loads a date column). -/
structure Student where
  reg_no : String
  department : String
  course_code : String
  course_title : String
  date : String
deriving Repr, DecidableEq

/-- Hall record loaded by `Exam1_Seat_allocator._load_halls`. -/
structure Hall where
  hall_code : String
  hall_name : String
  block : String
  rows : Nat
  cols : Nat
  total_capacity : Nat
deriving Repr, DecidableEq

/-- One `self.allocations[reg]` ledger entry of the Exam1 variant. -/
structure Entry where
  hall_code : String
  hall_name : String
  block : String
  row : Nat
  col : Nat
  course_code : String
  course_title : String
  department : String
  date : String
deriving Repr, DecidableEq

/-- Grid capacity `rows * cols` of a hall. -/
def hallCap (h : Hall) : Nat := h.rows * h.cols

/-- Sum of grid capacities over a list of halls. -/
def sumCaps (hs : List Hall) : Nat := (hs.map hallCap).sum

/-- The `validate_inputs` method of `Exam1_Seat_allocator.py` (lines 68-79),
identical in logic to the University variant. -/
def validate_inputs (students : List Student) (halls : List Hall) :
    Except AllocError Unit :=
  if halls.any (fun h => decide (hallCap h < h.total_capacity)) then
    .error .capacityError
  else if sumCaps halls < students.length then
    .error .capacityError
  else
    .ok ()

/-- Stable comparison for `sorted(..., key=lambda x: (course_code, reg_no))`:
key of `a` is at most key of `b` in lexicographic tuple order. -/
def pairLe (a b : Student) : Bool :=
  strLt a.course_code b.course_code ||
    (a.course_code == b.course_code && !strLt b.reg_no a.reg_no)

/-- The registration-number sort key of `_reg_sort_key`: the concatenated
digits of the identifier as a number when any digit is present (the Python
code strips non-digits with a regular expression), otherwise the raw string.
Digits are modelled as ASCII `0`-`9`. -/
def regKey (reg : String) : Sum Nat String :=
  let ds := reg.toList.filter (fun c => c.isDigit)
  if ds = [] then .inr reg
  else .inl (ds.foldl (fun n c => n * 10 + (c.toNat - 48)) 0)

/-- Comparison induced by `_reg_sort_key`: numeric keys sort before string
keys (Python tuples `(0, int)` before `(1, str)`). -/
def regKeyLe (a b : String) : Bool :=
  match regKey a, regKey b with
  | .inl m, .inl n => decide (m ≤ n)
  | .inl _, .inr _ => true
  | .inr _, .inl _ => false
  | .inr x, .inr y => !strLt y x

/-- `_reg_sort_key` comparison lifted to students. -/
def regLeStu (a b : Student) : Bool := regKeyLe a.reg_no b.reg_no

/-- Comparison for `_reg_sort_key2` of the second pass: course code first,
then the registration-number key. -/
def key2Le (a b : Student) : Bool :=
  strLt a.course_code b.course_code ||
    (a.course_code == b.course_code && regKeyLe a.reg_no b.reg_no)

/-- Students sorted by `(course_code, reg_no)` as in line 86. -/
def sortedStudents (students : List Student) : List Student :=
  pySort pairLe students

/-- Course codes in first-appearance order of the sorted student list: the key
order of the `defaultdict` built in lines 89-91. -/
def courseKeys (students : List Student) : List String :=
  ((sortedStudents students).map Student.course_code).eraseDups

/-- The list `students_by_course[c]`. -/
def courseGroup (students : List Student) (c : String) : List Student :=
  (sortedStudents students).filter (fun s => s.course_code == c)

/-- Courses sorted by student count, largest first (stable, line 94). -/
def coursesBySize (students : List Student) : List String :=
  pySort
    (fun a b =>
      decide ((courseGroup students b).length ≤ (courseGroup students a).length))
    (courseKeys students)

/-- The mutable `remaining_courses` dict, in `courses_by_size` order. -/
abbrev RemD := List (String × List Student)

/-- Initial `remaining_courses` (line 96). -/
def remaining0 (students : List Student) : RemD :=
  (coursesBySize students).map (fun c => (c, courseGroup students c))

/-- Pick up to 4 courses that still have students, scanning `courses_by_size`
in order (lines 111-115). -/
def pickCurrent (rem : RemD) : List String → List String → List String
  | [], acc => acc
  | c :: cs, acc =>
      let acc2 := if ((findA rem c).getD []) = [] then acc else acc ++ [c]
      if acc2.length = 4 then acc2 else pickCurrent rem cs acc2

/-- Guard `any(remaining_courses[c] for c in current_courses)`. -/
def anyRemaining (rem : RemD) (current : List String) : Bool :=
  current.any (fun c => !((findA rem c).getD []).isEmpty)

/-- One run of the 2:1:1 allocation loop (lines 124-133), with explicit fuel:
on each step the course at window index `[0,0,1,2][idx % 4]` is asked for a
student; an empty course merely advances `idx`.  Runs until the hall is full
or all window courses are exhausted; `none` when the fuel runs out. -/
def pack211Go : Nat → List String → Nat → List Student → RemD → Nat →
    Option (List Student × RemD)
  | 0, _, _, _, _, _ => none
  | fuel + 1, current, usable, acc, rem, idx =>
      if acc.length < usable && anyRemaining rem current then
        let ci := [0, 0, 1, 2].getD (idx % 4) 0
        let course := current.getD ci ""
        match (findA rem course).getD [] with
        | [] => pack211Go fuel current usable acc rem (idx + 1)
        | stu :: rest =>
            pack211Go fuel current usable (acc ++ [stu]) (updA rem course rest)
              (idx + 1)
      else some (acc, rem)

/-- The inner `for course in current_courses` sweep of the fallback
round-robin loop (lines 136-139). -/
def rrInner (usable : Nat) (current : List String)
    (p : List Student × RemD) : List Student × RemD :=
  current.foldl
    (fun p c =>
      match (findA p.2 c).getD [] with
      | [] => p
      | stu :: rest =>
          if p.1.length < usable then (p.1 ++ [stu], updA p.2 c rest) else p)
    p

/-- The fallback round-robin while-loop, with explicit fuel. -/
def packRRGo : Nat → List String → Nat → List Student × RemD →
    Option (List Student × RemD)
  | 0, _, _, _ => none
  | fuel + 1, current, usable, p =>
      if p.1.length < usable && anyRemaining p.2 current then
        packRRGo fuel current usable (rrInner usable current p)
      else some p

/-- Row-major cell order used by the first-pass seat assignment and by the
second pass's empty-seat scan. -/
def rowMajorPositions (rows cols : Nat) : List (Nat × Nat) :=
  (List.range rows).flatMap (fun r => (List.range cols).map (fun c => (r, c)))

/-- The ledger entry written for a student seated at 0-based position `p`. -/
def e1Entry (hall : Hall) (p : Nat × Nat) (stu : Student) : Entry :=
  { hall_code := hall.hall_code, hall_name := hall.hall_name,
    block := hall.block, row := p.1 + 1, col := p.2 + 1,
    course_code := stu.course_code, course_title := stu.course_title,
    department := stu.department, date := stu.date }

/-- Place a list of (position, student) pairs into one hall's grid, writing
grid cell and ledger entry for each student in order (lines 157-176). -/
def placePairsE (hall : Hall) :
    List (String × Grid) → List (String × Entry) →
    List ((Nat × Nat) × Student) → List (String × Grid) × List (String × Entry)
  | seats, allocs, [] => (seats, allocs)
  | seats, allocs, (p, stu) :: rest =>
      let g := getGridD seats hall.hall_code
      let seats2 := updA seats hall.hall_code (setCell g p.1 p.2 (some stu.reg_no))
      placePairsE hall seats2 (updA allocs stu.reg_no (e1Entry hall p stu)) rest

/-- First-pass allocation state. -/
structure E1State where
  rem : RemD
  seats : List (String × Grid)
  allocs : List (String × Entry)
  courses : List (String × List String)
deriving Repr, DecidableEq

/-- The packed student list of one hall together with the updated
`remaining_courses`: the 2:1:1 loop when exactly 3 courses are active, the
fallback round-robin otherwise.  The fuel bounds are sufficient (see the
termination theorems below), so the `getD` defaults are never taken. -/
def hallPack (rem : RemD) (current : List String) (usable : Nat) :
    List Student × RemD :=
  if current.length = 3 then
    (pack211Go (4 * usable + 4) current usable [] rem 0).getD ([], rem)
  else
    (packRRGo (usable + 1) current usable ([], rem)).getD ([], rem)

/-- Process one hall in the first pass (lines 99-176): pick the course window,
record it in `hall_courses`, pack students, re-sort them by `_reg_sort_key`,
and place them row-major. -/
def hallStep (cbs : List String) (st : E1State) (hall : Hall) : E1State :=
  let usable := min hall.total_capacity (hallCap hall)
  let current := pickCurrent st.rem cbs []
  let courses2 := updA st.courses hall.hall_code current
  if current = [] then { st with courses := courses2 }
  else
    let packed := hallPack st.rem current usable
    let sorted := pySort regLeStu packed.1
    let pairs := (rowMajorPositions hall.rows hall.cols).zip sorted
    let sa := placePairsE hall st.seats st.allocs pairs
    { rem := packed.2, seats := sa.1, allocs := sa.2, courses := courses2 }

/-- Initial `hall_seats` dict built in `__init__`. -/
def initSeatsE (halls : List Hall) : List (String × Grid) :=
  halls.foldl (fun m h => updA m h.hall_code (emptyGrid h.rows h.cols)) []

/-- Initial `hall_courses` dict built in `__init__`. -/
def initCoursesE (halls : List Hall) : List (String × List String) :=
  halls.foldl (fun m h => updA m h.hall_code []) []

/-- First empty cell of a hall's grid in row-major order (lines 217-235). -/
def firstEmpty (g : Grid) (rows cols : Nat) : Option (Nat × Nat) :=
  ((rowMajorPositions rows cols).filter
    (fun p => (getCell g p.1 p.2).isNone)).head?

/-- Second pass: place one student into the first empty cell of a hall (no-op
when the hall has no empty cell, like the Python for-else). -/
def placeOne (hall : Hall) (seats : List (String × Grid))
    (allocs : List (String × Entry)) (stu : Student) :
    List (String × Grid) × List (String × Entry) :=
  let g := getGridD seats hall.hall_code
  match firstEmpty g hall.rows hall.cols with
  | none => (seats, allocs)
  | some p =>
      (updA seats hall.hall_code (setCell g p.1 p.2 (some stu.reg_no)),
       updA allocs stu.reg_no (e1Entry hall p stu))

/-- Second pass: pop and place `k` students from the unallocated list. -/
def placeLoop (hall : Hall) :
    Nat → List Student → List (String × Grid) → List (String × Entry) →
    List Student × List (String × Grid) × List (String × Entry)
  | 0, un, seats, allocs => (un, seats, allocs)
  | _ + 1, [], seats, allocs => ([], seats, allocs)
  | k + 1, stu :: un, seats, allocs =>
      let sa := placeOne hall seats allocs stu
      placeLoop hall k un sa.1 sa.2

/-- Second pass for one hall (lines 201-235): count the hall's free usable
seats and place that many still-unallocated students into its empty cells. -/
def secondPassHall
    (st : List Student × List (String × Grid) × List (String × Entry))
    (hall : Hall) :
    List Student × List (String × Grid) × List (String × Entry) :=
  let usable := min hall.total_capacity (hallCap hall)
  let allocated := occupiedCount (getGridD st.2.1 hall.hall_code)
  let available := usable - allocated
  if 0 < available && !st.1.isEmpty then
    placeLoop hall (min available st.1.length) st.1 st.2.1 st.2.2
  else st

/-- Both passes of `Exam1_Seat_allocator.allocate_seats` after validation,
returning the final allocator state.  Note that the second pass pops students
from a copy of the `remaining_courses` queues: `rem` itself is left stale. -/
def pipeline (students : List Student) (halls : List Hall) : E1State :=
  let cbs := coursesBySize students
  let st0 : E1State :=
    { rem := remaining0 students, seats := initSeatsE halls, allocs := [],
      courses := initCoursesE halls }
  let st1 := halls.foldl (hallStep cbs) st0
  let unalloc := (st1.rem.map Prod.snd).flatten
  if unalloc = [] then st1
  else
    let sortedUn := pySort key2Le unalloc
    let fin := halls.foldl secondPassHall (sortedUn, st1.seats, st1.allocs)
    { st1 with seats := fin.2.1, allocs := fin.2.2 }

/-- The final check of `allocate_seats` (lines 237-240): it recounts the STALE
`remaining_courses` dict, which the second pass never updated. -/
def staleUnallocated (st : E1State) : Nat :=
  (st.rem.map (fun p => p.2.length)).sum

/-- Embedding of `ExamSeatAllocator.allocate_seats` of
`Exam1_Seat_allocator.py` (lines 81-240).  The raised unallocated error names
only the count (the Python message carries no identifiers). -/
def allocate_seats (students : List Student) (halls : List Hall) :
    Except AllocError E1State :=
  match validate_inputs students halls with
  | .error e => .error e
  | .ok _ =>
      let stF := pipeline students halls
      if staleUnallocated stF = 0 then .ok stF
      else .error (.unallocatedStudentsError (staleUnallocated stF) [])

end Exam1

namespace Inputs

open SeatAlloc

/-- Shorthand student for University-variant concrete inputs. -/
def uS (r c : String) : Univ.Student :=
  { reg_no := r, department := "D", course_code := c, course_title := "T" }

/-- Shorthand hall for University-variant concrete inputs. -/
def uH (code : String) (rows cols cap : Nat) : Univ.Hall :=
  { hall_code := code, hall_name := code, internal_external := "",
    block := "B", rows := rows, cols := cols, total_capacity := cap }

/-- Shorthand student for Exam1-variant concrete inputs. -/
def eS (r c : String) : Exam1.Student :=
  { reg_no := r, department := "D", course_code := c, course_title := "T",
    date := "01-01-2025" }

/-- Shorthand hall for Exam1-variant concrete inputs. -/
def eH (code : String) (rows cols cap : Nat) : Exam1.Hall :=
  { hall_code := code, hall_name := code, block := "B",
    rows := rows, cols := cols, total_capacity := cap }

/-- Twelve distinct students s0..s11 in packing order. -/
def s12 : List Univ.Student :=
  [uS "s0" "C", uS "s1" "C", uS "s2" "C", uS "s3" "C",
   uS "s4" "C", uS "s5" "C", uS "s6" "C", uS "s7" "C",
   uS "s8" "C", uS "s9" "C", uS "s10" "C", uS "s11" "C"]

/-- A 3-row, 4-column hall. -/
def h34 : Univ.Hall := uH "H" 3 4 12

/-- Two halls sharing the code `A` (the loaders never deduplicate codes). -/
def dupH : List Univ.Hall := [uH "A" 1 1 1, uH "A" 1 1 1]

/-- Two students with distinct registration ids. -/
def dupS : List Univ.Student := [uS "r1" "C", uS "r2" "C"]

/-- One hall whose declared capacity (2) is below its grid size (4). -/
def slackH : List Univ.Hall := [uH "A" 2 2 2]

/-- Three students (more than the declared capacities, fewer than the grid). -/
def slackS : List Univ.Student := [uS "x" "C", uS "y" "C", uS "z" "C"]

/-- Distributor counterexample halls: `A` declares capacity 1 on a 2x2 grid. -/
def tgtH : List Univ.Hall := [uH "A" 2 2 1, uH "B" 2 2 4]

/-- Zero-slack counterexample: grid 1x2 but declared capacity 1. -/
def zsH : List Univ.Hall := [uH "A" 1 2 1]

/-- Two students exactly filling the 1x2 grid. -/
def zsS : List Univ.Student := [uS "x" "C", uS "y" "C"]

/-- One 5x6 hall: 30 grid seats. -/
def thrH : List Univ.Hall := [uH "A" 5 6 30]

/-- Twenty-six students: the 25-block threshold becomes 50, unreachable. -/
def thrS : List Univ.Student :=
  [uS "r0" "C", uS "r1" "C", uS "r2" "C", uS "r3" "C", uS "r4" "C",
   uS "r5" "C", uS "r6" "C", uS "r7" "C", uS "r8" "C", uS "r9" "C",
   uS "r10" "C", uS "r11" "C", uS "r12" "C", uS "r13" "C", uS "r14" "C",
   uS "r15" "C", uS "r16" "C", uS "r17" "C", uS "r18" "C", uS "r19" "C",
   uS "r20" "C", uS "r21" "C", uS "r22" "C", uS "r23" "C", uS "r24" "C",
   uS "r25" "C"]

/-- A 1x2 hall for the placement-order counterexample. -/
def ordH : List Univ.Hall := [uH "H" 1 2 2]

/-- Students whose list order ("2" then "1") disagrees with the
registration-number key order. -/
def ordS : List Univ.Student := [uS "2" "C", uS "1" "C"]

/-- Five students in five distinct courses: the first-pass window holds at
most 4 courses, so one student is left for the second pass. -/
def bugS : List Exam1.Student :=
  [eS "1" "c1", eS "2" "c2", eS "3" "c3", eS "4" "c4", eS "5" "c5"]

/-- One hall with 6 grid seats for the five students. -/
def bugH : List Exam1.Hall := [eH "H1" 2 3 6]

/-- A success-path input: two students x, y in one course C and one 1x2 hall
A with declared capacity 2. -/
def okS : List Univ.Student := [uS "x" "C", uS "y" "C"]

def okH : List Univ.Hall := [uH "A" 1 2 2]

/-- The state the University variant returns on the `okS`/`okH` input: x at
cell (1,1) and y at cell (1,2) of hall A. -/
def okSt : Univ.UnivState :=
  { first := [], second := [],
    seats := [("A", [[some "x", some "y"]])],
    allocs := [("x", { hall_code := "A", hall_name := "A", block := "B",
                       row := 1, col := 1, course_code := "C",
                       course_title := "T", department := "D" }),
               ("y", { hall_code := "A", hall_name := "A", block := "B",
                       row := 1, col := 2, course_code := "C",
                       course_title := "T", department := "D" })],
    courses := [("A", ["C"])] }

end Inputs

/-- Modelled from the spec: "total usable seats across all halls" of §4.1,
that is the sum over halls of `min(declared_capacity, rows*cols)`.  The code
itself (both variants, `validate_inputs`) compares the student count against
the plain grid total `Σ rows*cols` instead. -/
def usableSeatsTotalU (halls : List Univ.Hall) : Nat :=
  (halls.map (fun h => min h.total_capacity (Univ.hallCap h))).sum

/-- Add one to each of the first `r` entries of a list (how the distributor's
remainder loop adjusts the base targets, hall by hall in declared order). -/
def addOneFirst : Nat → List Nat → List Nat
  | _, [] => []
  | 0, l => l
  | r + 1, t :: ts => (t + 1) :: addOneFirst r ts

namespace Univ

open SeatAlloc

/-- The halls the University variant keeps after hall selection
(`halls_to_use` in the source): the declared-order filter of the halls by the
selected hall codes, for the block-quantized requirement. -/
def hallsToUse (students : List Student) (halls : List Hall) : List Hall :=
  halls.filter (fun h =>
    (selectedCodes halls
      (((students.length + 24) / 25) * 25)).contains h.hall_code)

/-- The state a University-variant run reaches after the hall fold: the
success path of `allocate_seats` returns exactly this state. -/
def univRun (students : List Student) (halls : List Hall) : UnivState :=
  (hallsToUse students halls).foldl
    (univHall (studentsPerHall (hallsToUse students halls) students.length))
    { first := students.take ((students.length + 1) / 2),
      second := students.drop ((students.length + 1) / 2),
      seats := initSeats halls, allocs := [], courses := initCourses halls }

/-- Ledger-grid consistency of a state: every ledger entry points (1-based)
at a grid cell holding exactly its student, and every occupied cell of every
stored grid has the matching ledger entry. -/
def ledgerMatches (st : UnivState) : Prop :=
  (∀ r e, findA st.allocs r = some e →
    1 ≤ e.row ∧ 1 ≤ e.col ∧
    getCell (getGridD st.seats e.hall_code) (e.row - 1) (e.col - 1) = some r) ∧
  (∀ p ∈ st.seats, ∀ r c x, getCell p.2 r c = some x →
    ∃ e, findA st.allocs x = some e ∧ e.hall_code = p.1 ∧
      e.row = r + 1 ∧ e.col = c + 1)

/-- Invariant carried through the hall fold of the University variant:
ledger-grid consistency, distinct registration numbers among the students
still waiting in the two halves, waiting students absent from the ledger, and
distinct keys in the seats dict. -/
def runInv (st : UnivState) : Prop :=
  ledgerMatches st ∧
  ((st.first ++ st.second).map Student.reg_no).Nodup ∧
  (∀ x ∈ (st.first ++ st.second).map Student.reg_no,
    findA st.allocs x = none) ∧
  (st.seats.map Prod.fst).Nodup

end Univ

namespace CopyVar

open SeatAlloc

/-- The mutable state of the round-robin allocation loop of
`pdf_reports/University_Exam_Seat_Allocater (copy).py` (lines 201-223):
the students packed so far, the per-course queues, the active course window
and the courses waiting to be admitted. -/
structure RRState where
  hall_students : List Univ.Student
  remaining : List (String × List Univ.Student)
  current_courses : List String
  future_courses : List String
deriving Repr, DecidableEq

/-- One `for course in list(current_courses)` sweep (lines 205-219): the
snapshot list is fixed while `current_courses` mutates.  A full hall breaks
out; a course with students gives up its front student; an exhausted course
is replaced by the next future course (appended, then the exhausted course
removed) or simply removed when no future course remains. -/
def innerSweep (usable : Nat) : List String → RRState → RRState
  | [], st => st
  | course :: rest, st =>
      if usable ≤ st.hall_students.length then st
      else
        match (findA st.remaining course).getD [] with
        | stu :: more =>
            innerSweep usable rest
              { st with hall_students := st.hall_students ++ [stu],
                        remaining := updA st.remaining course more }
        | [] =>
            match st.future_courses with
            | next :: future' =>
                innerSweep usable rest
                  { st with
                    current_courses :=
                      (st.current_courses ++ [next]).erase course,
                    future_courses := future' }
            | [] =>
                innerSweep usable rest
                  { st with current_courses :=
                      st.current_courses.erase course }

/-- The outer `while len(hall_students) < usable_capacity` loop (lines
202-223), with explicit fuel: run one sweep over the snapshot of the current
window, stop when the window is empty, `none` when the fuel runs out. -/
def packReplaceGo (usable : Nat) : Nat → RRState → Option RRState
  | 0, _ => none
  | fuel + 1, st =>
      if st.hall_students.length < usable then
        if (innerSweep usable st.current_courses st).current_courses = [] then
          some (innerSweep usable st.current_courses st)
        else packReplaceGo usable fuel (innerSweep usable st.current_courses st)
      else some st

end CopyVar

/-- C7: for a 3x4 hall whose packed list is exactly the 12 distinct students
s0..s11 in that order (all pulled from the first half), the serpentine mapper
places row 0 as s0..s3 left to right, row 1 as s7,s6,s5,s4 (s4..s7 right to
left), and row 2 as s8..s11 left to right. -/
theorem C7_serpentine_3x4 :
    (Univ.pullRR 12 Inputs.s12 []).1 = Inputs.s12 ∧
    (Univ.univHall [("H", 12)]
      { first := Inputs.s12, second := [],
        seats := Univ.initSeats [Inputs.h34], allocs := [],
        courses := Univ.initCourses [Inputs.h34] } Inputs.h34).seats
    = [("H",
        [[some "s0", some "s1", some "s2", some "s3"],
         [some "s7", some "s6", some "s5", some "s4"],
         [some "s8", some "s9", some "s10", some "s11"]])] := by
  constructor
  · rfl
  · rfl

/-- C2 (code bug): on five students in five distinct courses and one hall
with six seats, the first pass seats four students (the course window holds
at most four courses), the second pass seats the fifth, so no student remains
unseated; yet `allocate_seats` still raises the unallocated-students error
with count 1, because the final check recounts the stale `remaining_courses`
dict that the second pass never updated. -/
theorem C2_stale_unallocated_check :
    Inputs.bugS.length = 5 ∧
    SeatAlloc.seatsOccupied (Exam1.pipeline Inputs.bugS Inputs.bugH).seats = 5 ∧
    Exam1.allocate_seats Inputs.bugS Inputs.bugH
      = .error (.unallocatedStudentsError 1 []) := by
  refine ⟨rfl, rfl, rfl⟩

/-- C1 counterexample: with two halls sharing the code `A` (1x1 each) and two
students with distinct registration ids, `allocate_seats` succeeds but both
students were written to the single grid stored under `A`, so only one
occupied cell remains for two students. -/
theorem C1_counterexample :
    (Inputs.dupS.map Univ.Student.reg_no).Nodup ∧
    Inputs.dupS.length = 2 ∧
    (Univ.allocate_seats Inputs.dupS Inputs.dupH).toOption.map
      (fun st => SeatAlloc.seatsOccupied st.seats) = some 1 := by
  refine ⟨by decide, rfl, rfl⟩

/-- C10 counterexample: on the same duplicated-hall-code input, the run
succeeds and the ledger entry of student r1 points at cell (A, 1, 1), but
that grid cell holds r2 (r1's placement was overwritten). -/
theorem C10_counterexample :
    (Inputs.dupS.map Univ.Student.reg_no).Nodup ∧
    (Univ.allocate_seats Inputs.dupS Inputs.dupH).toOption.map
      (fun st => (SeatAlloc.findA st.allocs "r1",
                  SeatAlloc.getCell (SeatAlloc.getGridD st.seats "A") 0 0))
    = some (some { hall_code := "A", hall_name := "A", block := "B",
                   row := 1, col := 1, course_code := "C",
                   course_title := "T", department := "D" },
            some "r2") := by
  refine ⟨by decide, rfl⟩

/-- C3 counterexample: one hall with a 2x2 grid but declared capacity 2, and
three students.  The spec's "total usable seats" `Σ min(declared, rows*cols)`
is 2, below the student count 3, so the claim demands a `CapacityError`; the
validator compares against the grid total `Σ rows*cols = 4` and accepts. -/
theorem C3_counterexample :
    usableSeatsTotalU Inputs.slackH < Inputs.slackS.length ∧
    Univ.validate_inputs Inputs.slackS Inputs.slackH = .ok () := by
  refine ⟨by decide, rfl⟩

/-- C4 counterexample: selected halls A (2x2 grid, declared capacity 1) and B
(2x2 grid, declared capacity 4) with 5 students: total selected capacity is
8 > 0 and 5 <= 8, yet hall A's target is floor(4*5/8) + 1 = 3, which exceeds
min(cap(A), declared_capacity(A)) = 1 — the distributor never consults
declared capacities. -/
theorem C4_counterexample :
    Univ.sumCaps Inputs.tgtH = 8 ∧
    SeatAlloc.findA (Univ.studentsPerHall Inputs.tgtH 5) "A" = some 3 ∧
    min (Univ.hallCap (Inputs.uH "A" 2 2 1))
      (Inputs.uH "A" 2 2 1).total_capacity = 1 := by
  refine ⟨rfl, rfl, by decide⟩

/-- C5 counterexample: one hall with a 1x2 grid but declared capacity 1, and
two students — zero slack (2 students for 2 grid seats) and the data-model
invariant declared <= rows*cols holds, yet the run fails: the hall's usable
count is capped by the declared capacity 1, so one student stays unseated. -/
theorem C5_counterexample :
    Inputs.zsS.length = Univ.sumCaps Inputs.zsH ∧
    (∀ h ∈ Inputs.zsH, h.total_capacity ≤ Univ.hallCap h) ∧
    Univ.allocate_seats Inputs.zsS Inputs.zsH
      = .error (.unallocatedStudentsError 1 ["y"]) := by
  refine ⟨rfl, by decide, rfl⟩

/-- C6 counterexample: one 5x6 hall (30 grid seats) and 26 students.  The
block-quantized requirement is 50 seats, which the accumulated halls can
never reach, yet the run raises no `InsufficientCapacityError` (it checks the
selected capacity against the student count, not the rounded threshold) and
in fact succeeds. -/
theorem C6_counterexample :
    ((Inputs.thrS.length + 24) / 25) * 25 = 50 ∧
    Univ.sumCaps Inputs.thrH < 50 ∧
    (Univ.allocate_seats Inputs.thrS Inputs.thrH).toOption.isSome = true := by
  refine ⟨rfl, by decide, rfl⟩

/-- C8 counterexample: in the University variant, a 1x2 hall receiving the
students with registration ids "2" then "1" (in packed pull order) places
them in exactly that order — the row-major readout is ["2", "1"] although the
registration-number key orders "1" before "2": this variant never re-sorts
the packed list before placement. -/
theorem C8_counterexample :
    (Univ.allocate_seats Inputs.ordS Inputs.ordH).toOption.map
      (fun st => SeatAlloc.gridRegs (SeatAlloc.getGridD st.seats "H"))
      = some ["2", "1"] ∧
    Exam1.regKeyLe "2" "1" = false := by
  refine ⟨rfl, by decide⟩

namespace SeatAlloc

theorem except_bind_error {α β : Type} (e : AllocError)
    (f : α → Except AllocError β) :
    (Except.error e >>= f) = Except.error e := rfl

end SeatAlloc

/-- C3 (amended): each variant's `validate_inputs` raises `CapacityError` if
and only if some hall's declared capacity exceeds its grid size rows*cols, or
the total GRID seats `Σ rows*cols` (not the spec's `Σ min(declared_capacity,
rows*cols)`) is less than the student count; and whenever validation fails,
`allocate_seats` stops with that `CapacityError` before any seat is
assigned. -/
theorem C3_validator_characterization (us : List Univ.Student)
    (uh : List Univ.Hall) (es : List Exam1.Student) (eh : List Exam1.Hall) :
    (Univ.validate_inputs us uh = .error .capacityError ↔
      (∃ h ∈ uh, Univ.hallCap h < h.total_capacity) ∨
        Univ.sumCaps uh < us.length) ∧
    (Exam1.validate_inputs es eh = .error .capacityError ↔
      (∃ h ∈ eh, Exam1.hallCap h < h.total_capacity) ∨
        Exam1.sumCaps eh < es.length) ∧
    (Univ.validate_inputs us uh ≠ .ok () →
      Univ.allocate_seats us uh = .error .capacityError) ∧
    (Exam1.validate_inputs es eh ≠ .ok () →
      Exam1.allocate_seats es eh = .error .capacityError) := by
  have hu : Univ.validate_inputs us uh = .error .capacityError ↔
      (∃ h ∈ uh, Univ.hallCap h < h.total_capacity) ∨
        Univ.sumCaps uh < us.length := by
    unfold Univ.validate_inputs
    split_ifs with h1 h2
    · simp only [List.any_eq_true, decide_eq_true_eq] at h1
      simp only [true_iff]
      exact Or.inl h1
    · simp only [true_iff]
      exact Or.inr h2
    · simp only [List.any_eq_true, decide_eq_true_eq] at h1
      constructor
      · intro h; cases h
      · intro h
        cases h with
        | inl h => exact absurd h h1
        | inr h => exact absurd h h2
  have he : Exam1.validate_inputs es eh = .error .capacityError ↔
      (∃ h ∈ eh, Exam1.hallCap h < h.total_capacity) ∨
        Exam1.sumCaps eh < es.length := by
    unfold Exam1.validate_inputs
    split_ifs with h1 h2
    · simp only [List.any_eq_true, decide_eq_true_eq] at h1
      simp only [true_iff]
      exact Or.inl h1
    · simp only [true_iff]
      exact Or.inr h2
    · simp only [List.any_eq_true, decide_eq_true_eq] at h1
      constructor
      · intro h; cases h
      · intro h
        cases h with
        | inl h => exact absurd h h1
        | inr h => exact absurd h h2
  have hu2 : Univ.validate_inputs us uh ≠ .ok () →
      Univ.allocate_seats us uh = .error .capacityError := by
    intro hne
    have : Univ.validate_inputs us uh = .error .capacityError := by
      unfold Univ.validate_inputs at hne ⊢
      split_ifs at hne ⊢ with h1 h2
      · rfl
      · rfl
      · exact absurd rfl hne
    unfold Univ.allocate_seats
    rw [this]
    rfl
  have he2 : Exam1.validate_inputs es eh ≠ .ok () →
      Exam1.allocate_seats es eh = .error .capacityError := by
    intro hne
    have hv : Exam1.validate_inputs es eh = .error .capacityError := by
      unfold Exam1.validate_inputs at hne ⊢
      split_ifs at hne ⊢ with h1 h2
      · rfl
      · rfl
      · exact absurd rfl hne
    unfold Exam1.allocate_seats
    rw [hv]
  exact ⟨hu, he, hu2, he2⟩

/-- Witness for C3: the amended characterization applied to a concrete input
(one 2x2 hall declaring capacity 5 and zero students: validation fails on the
first clause). -/
theorem C3_validator_characterization_witness :
    Univ.validate_inputs [] [Inputs.uH "A" 2 2 5] = .error .capacityError ↔
      (∃ h ∈ [Inputs.uH "A" 2 2 5],
        Univ.hallCap h < h.total_capacity) ∨
        Univ.sumCaps [Inputs.uH "A" 2 2 5] < ([] : List Univ.Student).length :=
  (C3_validator_characterization [] [Inputs.uH "A" 2 2 5] [] []).1

namespace SeatAlloc

theorem findA_updA_self {α : Type} (m : List (String × α)) (k : String) (v : α) :
    findA (updA m k v) k = some v := by
  induction m with
  | nil => simp [updA, findA]
  | cons p rest ih =>
      by_cases h : p.1 = k
      · simp [updA, h, findA]
      · simp [updA, h, findA, ih]

theorem findA_updA_ne {α : Type} (m : List (String × α)) {k k' : String} (v : α)
    (h : k' ≠ k) : findA (updA m k v) k' = findA m k' := by
  induction m with
  | nil => simp [updA, findA, Ne.symm h]
  | cons p rest ih =>
      by_cases hp : p.1 = k
      · simp [updA, hp, findA, Ne.symm h]
      · simp [updA, hp, findA, ih]

theorem updA_of_not_mem {α : Type} (m : List (String × α)) {k : String} (v : α)
    (h : k ∉ m.map Prod.fst) : updA m k v = m ++ [(k, v)] := by
  induction m with
  | nil => simp [updA]
  | cons p rest ih =>
      simp only [List.map_cons, List.mem_cons, not_or] at h
      simp [updA, Ne.symm h.1, ih h.2]

theorem findA_append_of_not_mem {α : Type} (pre l : List (String × α))
    {k : String} (h : k ∉ pre.map Prod.fst) :
    findA (pre ++ l) k = findA l k := by
  induction pre with
  | nil => simp
  | cons p rest ih =>
      simp only [List.map_cons, List.mem_cons, not_or] at h
      simp [findA, Ne.symm h.1, ih h.2]

theorem updA_append_of_not_mem {α : Type} (pre l : List (String × α))
    {k : String} (v : α) (h : k ∉ pre.map Prod.fst) :
    updA (pre ++ l) k v = pre ++ updA l k v := by
  induction pre with
  | nil => simp
  | cons p rest ih =>
      simp only [List.map_cons, List.mem_cons, not_or] at h
      simp [updA, Ne.symm h.1, ih h.2]

theorem addOneFirst_zero (l : List Nat) : addOneFirst 0 l = l := by
  cases l <;> rfl

theorem addOneFirst_length (r : Nat) (l : List Nat) :
    (addOneFirst r l).length = l.length := by
  induction l generalizing r with
  | nil => cases r <;> rfl
  | cons t ts ih =>
      cases r with
      | zero => rfl
      | succ r => simp [addOneFirst, ih]

theorem addOneFirst_sum (r : Nat) (l : List Nat) :
    (addOneFirst r l).sum = l.sum + min r l.length := by
  induction l generalizing r with
  | nil => cases r <;> simp [addOneFirst]
  | cons t ts ih =>
      cases r with
      | zero => simp [addOneFirst_zero]
      | succ r =>
          simp only [addOneFirst, List.sum_cons, ih, List.length_cons]
          omega

theorem sum_div_le (T : Nat) (l : List Nat) :
    (l.map (fun a => a / T)).sum ≤ l.sum / T := by
  induction l with
  | nil => simp
  | cons a l ih =>
      rcases Nat.eq_zero_or_pos T with hT | hT
      · simp [hT]
      · simp only [List.map_cons, List.sum_cons]
        calc a / T + (l.map (fun a => a / T)).sum
            ≤ a / T + l.sum / T := by omega
          _ ≤ (a + l.sum) / T := by
              rw [Nat.le_div_iff_mul_le hT, Nat.add_mul]
              exact Nat.add_le_add (Nat.div_mul_le_self a T)
                (Nat.div_mul_le_self l.sum T)

theorem lt_div_add_one_mul (a T : Nat) (hT : 0 < T) :
    a + 1 ≤ (a / T + 1) * T := by
  have h1 := Nat.div_add_mod a T
  have h2 := Nat.mod_lt a hT
  rw [Nat.succ_mul]
  rw [Nat.mul_comm] at h1
  omega

theorem sum_map_add_one {α : Type} (l : List α) (f : α → Nat) :
    (l.map (fun x => f x + 1)).sum = (l.map f).sum + l.length := by
  induction l with
  | nil => simp
  | cons a l ih => simp [ih]; omega

end SeatAlloc

namespace Univ

open SeatAlloc

theorem targetsFold_go (T n : Nat) (hs : List Hall) :
    ∀ (m : List (String × Nat)) (a : Nat),
      (∀ h ∈ hs, h.hall_code ∉ m.map Prod.fst) →
      (hs.map Hall.hall_code).Nodup →
      hs.foldl (fun acc h => (updA acc.1 h.hall_code (baseTarget T n h),
                   acc.2 + baseTarget T n h)) (m, a)
        = (m ++ hs.map (fun h => (h.hall_code, baseTarget T n h)),
           a + (hs.map (baseTarget T n)).sum) := by
  induction hs with
  | nil => intro m a _ _; simp
  | cons h hs ih =>
      intro m a hdisj hnd
      simp only [List.foldl_cons]
      rw [updA_of_not_mem m _ (hdisj h (by simp))]
      rw [ih (m ++ [(h.hall_code, baseTarget T n h)]) (a + baseTarget T n h)
        ?_ ?_]
      · simp only [List.map_cons, List.sum_cons, List.append_assoc,
          List.cons_append, List.nil_append, Nat.add_assoc]
      · intro h' hh'
        simp only [List.map_append, List.mem_append, not_or]
        refine ⟨hdisj h' (by simp [hh']), ?_⟩
        simp only [List.map_cons, List.map_nil, List.mem_singleton]
        have hnd2 : (h.hall_code :: hs.map Hall.hall_code).Nodup := by
          simpa only [List.map_cons] using hnd
        intro hc
        exact (List.nodup_cons.mp hnd2).1 (hc ▸ List.mem_map_of_mem Hall.hall_code hh')
      · have hnd2 : (h.hall_code :: hs.map Hall.hall_code).Nodup := by
          simpa only [List.map_cons] using hnd
        exact (List.nodup_cons.mp hnd2).2

theorem targetsFold_eq (T n : Nat) (hs : List Hall)
    (hnd : (hs.map Hall.hall_code).Nodup) :
    targetsFold hs T n
      = (hs.map (fun h => (h.hall_code, baseTarget T n h)),
         (hs.map (baseTarget T n)).sum) := by
  unfold targetsFold
  rw [targetsFold_go T n hs [] 0 (by simp) hnd]
  simp

theorem remDistribute_zip (hs : List Hall) :
    ∀ (ts : List Nat) (r : Nat) (pre : List (String × Nat)),
      (hs.map Hall.hall_code).Nodup →
      (∀ h ∈ hs, h.hall_code ∉ pre.map Prod.fst) →
      ts.length = hs.length →
      remDistribute (pre ++ (hs.map Hall.hall_code).zip ts) r hs
        = pre ++ (hs.map Hall.hall_code).zip (addOneFirst r ts) := by
  induction hs with
  | nil =>
      intro ts r pre _ _ hlen
      have : ts = [] := List.eq_nil_of_length_eq_zero hlen
      subst this
      cases r <;> simp [remDistribute, addOneFirst]
  | cons h hs ih =>
      intro ts r pre hnd hdisj hlen
      rcases ts with _ | ⟨t, ts⟩
      · simp at hlen
      cases r with
      | zero => simp [remDistribute, addOneFirst_zero]
      | succ r =>
          simp only [List.map_cons, List.zip_cons_cons, remDistribute]
          have hnd2 : (h.hall_code :: hs.map Hall.hall_code).Nodup := by
            simpa only [List.map_cons] using hnd
          have hpre : h.hall_code ∉ pre.map Prod.fst := hdisj h (by simp)
          have hfind : findA (pre ++ (h.hall_code, t) ::
              (hs.map Hall.hall_code).zip ts) h.hall_code = some t := by
            rw [findA_append_of_not_mem pre _ hpre]
            simp [findA]
          rw [show pre ++ (h.hall_code, t) :: (hs.map Hall.hall_code).zip ts
              = pre ++ ((h.hall_code, t) :: (hs.map Hall.hall_code).zip ts) from rfl]
          rw [updA_append_of_not_mem pre _ _ hpre]
          rw [findA_append_of_not_mem pre _ hpre]
          simp only [findA, if_pos rfl, Option.getD_some, updA, if_pos rfl]
          have hnd' := (List.nodup_cons.mp hnd2).2
          have hnotin : h.hall_code ∉ hs.map Hall.hall_code :=
            (List.nodup_cons.mp hnd2).1
          have := ih ts r (pre ++ [(h.hall_code, t + 1)]) hnd' ?_ (by simpa using hlen)
          · calc remDistribute (pre ++ (h.hall_code, t + 1) ::
                  (hs.map Hall.hall_code).zip ts) r hs
                = remDistribute ((pre ++ [(h.hall_code, t + 1)]) ++
                  (hs.map Hall.hall_code).zip ts) r hs := by
                  simp [List.append_assoc]
              _ = (pre ++ [(h.hall_code, t + 1)]) ++
                  (hs.map Hall.hall_code).zip (addOneFirst r ts) := this
              _ = pre ++ (h.hall_code, t + 1) ::
                  (hs.map Hall.hall_code).zip (addOneFirst r ts) := by
                  simp [List.append_assoc]
          · intro h' hh'
            simp only [List.map_append, List.mem_append, not_or]
            refine ⟨hdisj h' (by simp [hh']), ?_⟩
            simp only [List.map_cons, List.map_nil, List.mem_singleton]
            intro hc
            exact hnotin (hc ▸ List.mem_map_of_mem Hall.hall_code hh')

theorem zip_map_pair (hs : List Hall) (f : Hall → Nat) :
    (hs.map Hall.hall_code).zip (hs.map f)
      = hs.map (fun h => (h.hall_code, f h)) := by
  induction hs with
  | nil => rfl
  | cons h hs ih => simp [ih]

theorem studentsPerHall_eq (hs : List Hall) (n : Nat)
    (hnd : (hs.map Hall.hall_code).Nodup) :
    studentsPerHall hs n
      = (hs.map Hall.hall_code).zip
          (addOneFirst (n - (hs.map (baseTarget (sumCaps hs) n)).sum)
            (hs.map (baseTarget (sumCaps hs) n))) := by
  have h0 : studentsPerHall hs n
      = remDistribute (targetsFold hs (sumCaps hs) n).1
          (n - (targetsFold hs (sumCaps hs) n).2) hs := rfl
  rw [h0, targetsFold_eq _ _ _ hnd, ← zip_map_pair hs (baseTarget (sumCaps hs) n)]
  simpa using remDistribute_zip hs (hs.map (baseTarget (sumCaps hs) n))
    (n - (hs.map (baseTarget (sumCaps hs) n)).sum) [] hnd (by simp) (by simp)

theorem map_findA_zip (hs : List Hall) :
    ∀ (ts : List Nat), ts.length = hs.length →
      (hs.map Hall.hall_code).Nodup →
      hs.map (fun h =>
        (findA ((hs.map Hall.hall_code).zip ts) h.hall_code).getD 0) = ts := by
  induction hs with
  | nil =>
      intro ts hlen _
      have : ts = [] := List.eq_nil_of_length_eq_zero hlen
      simp [this]
  | cons h hs ih =>
      intro ts hlen hnd
      rcases ts with _ | ⟨t, ts⟩
      · simp at hlen
      simp only [List.map_cons, List.zip_cons_cons]
      have hnd2 : (h.hall_code :: hs.map Hall.hall_code).Nodup := by
        simpa only [List.map_cons] using hnd
      have hnotin : h.hall_code ∉ hs.map Hall.hall_code :=
        (List.nodup_cons.mp hnd2).1
      have hnd' := (List.nodup_cons.mp hnd2).2
      have hhead : (findA ((h.hall_code, t) ::
          (hs.map Hall.hall_code).zip ts) h.hall_code).getD 0 = t := by
        simp [findA]
      have htail : hs.map (fun h' =>
          (findA ((h.hall_code, t) ::
            (hs.map Hall.hall_code).zip ts) h'.hall_code).getD 0)
          = hs.map (fun h' =>
            (findA ((hs.map Hall.hall_code).zip ts) h'.hall_code).getD 0) := by
        apply List.map_congr_left
        intro h' hh'
        have hne : h.hall_code ≠ h'.hall_code := by
          intro hc
          exact hnotin (hc ▸ List.mem_map_of_mem Hall.hall_code hh')
        simp [findA, hne]
      rw [hhead, htail, ih ts (by simpa using hlen) hnd']

theorem forall₂_map_self (f : Hall → Nat) :
    ∀ hs : List Hall, List.Forall₂ (fun h t => t = f h) hs (hs.map f)
  | [] => List.Forall₂.nil
  | h :: hs => List.Forall₂.cons rfl (forall₂_map_self f hs)

theorem forall₂_addOneFirst (f : Hall → Nat) :
    ∀ (hs : List Hall) (r : Nat),
      List.Forall₂ (fun h t => t = f h ∨ t = f h + 1) hs
        (addOneFirst r (hs.map f))
  | [], r => by
      cases r <;> exact List.Forall₂.nil
  | h :: hs, 0 => by
      rw [addOneFirst_zero]
      exact (forall₂_map_self f (h :: hs)).imp (fun _ _ hab => Or.inl hab)
  | h :: hs, r + 1 =>
      List.Forall₂.cons (Or.inr rfl) (forall₂_addOneFirst f hs r)

theorem findA_zip_forall {P : Hall → Nat → Prop} :
    ∀ {hs : List Hall} {ts : List Nat}, List.Forall₂ P hs ts →
      (hs.map Hall.hall_code).Nodup →
      ∀ h ∈ hs, P h ((findA ((hs.map Hall.hall_code).zip ts) h.hall_code).getD 0) := by
  intro hs ts hf
  induction hf with
  | nil => intro _ h hh; cases hh
  | @cons h t hs ts hP hf ih =>
      intro hnd h' hh'
      have hnd2 : (h.hall_code :: hs.map Hall.hall_code).Nodup := by
        simpa only [List.map_cons] using hnd
      rcases List.mem_cons.mp hh' with rfl | hh'
      · simpa [findA] using hP
      · have hne : h.hall_code ≠ h'.hall_code := by
          intro hc
          exact (List.nodup_cons.mp hnd2).1
            (hc ▸ List.mem_map_of_mem Hall.hall_code hh')
        simp only [List.map_cons, List.zip_cons_cons, findA, if_neg hne]
        exact ih (List.nodup_cons.mp hnd2).2 h' hh'

theorem baseTarget_sum_le (hs : List Hall) (n : Nat) :
    (hs.map (baseTarget (sumCaps hs) n)).sum ≤ n := by
  rcases Nat.eq_zero_or_pos (sumCaps hs) with hT | hT
  · have h0 : hs.map (baseTarget (sumCaps hs) n) = hs.map (fun _ => 0) := by
      apply List.map_congr_left
      intro h _
      simp [baseTarget, hT]
    rw [h0]
    simp
  · have h1 : hs.map (baseTarget (sumCaps hs) n)
        = (hs.map (fun h => hallCap h * n)).map (fun a => a / sumCaps hs) := by
      rw [List.map_map]
      apply List.map_congr_left
      intro h _
      simp [baseTarget, hT, Function.comp]
    rw [h1]
    calc ((hs.map (fun h => hallCap h * n)).map (fun a => a / sumCaps hs)).sum
        ≤ (hs.map (fun h => hallCap h * n)).sum / sumCaps hs :=
          sum_div_le _ _
      _ = (hs.map hallCap).sum * n / sumCaps hs := by
          rw [← List.sum_map_mul_right]
      _ = n := by
          rw [show (hs.map hallCap).sum = sumCaps hs from rfl]
          rw [Nat.mul_comm]
          exact Nat.mul_div_cancel n hT

theorem baseTarget_sum_lt (hs : List Hall) (n : Nat) (hT : 0 < sumCaps hs) :
    n < (hs.map (baseTarget (sumCaps hs) n)).sum + hs.length := by
  have hlen : 0 < hs.length := by
    rcases hs with _ | ⟨h, hs⟩
    · simp [sumCaps] at hT
    · simp
  have hpoint : ∀ h ∈ hs, hallCap h * n + 1
      ≤ (baseTarget (sumCaps hs) n h + 1) * sumCaps hs := by
    intro h _
    have := lt_div_add_one_mul (hallCap h * n) (sumCaps hs) hT
    simpa [baseTarget, hT] using this
  have hsum : (hs.map (fun h => hallCap h * n + 1)).sum
      ≤ (hs.map (fun h => (baseTarget (sumCaps hs) n h + 1) * sumCaps hs)).sum :=
    List.sum_le_sum hpoint
  have hL : (hs.map (fun h => hallCap h * n + 1)).sum
      = (hs.map hallCap).sum * n + hs.length := by
    rw [sum_map_add_one hs (fun h => hallCap h * n), List.sum_map_mul_right]
  have hR : (hs.map (fun h => (baseTarget (sumCaps hs) n h + 1) * sumCaps hs)).sum
      = ((hs.map (baseTarget (sumCaps hs) n)).sum + hs.length) * sumCaps hs := by
    rw [List.sum_map_mul_right, sum_map_add_one hs (baseTarget (sumCaps hs) n)]
  rw [hL, hR] at hsum
  have h3 : sumCaps hs * n + hs.length ≤ sumCaps hs *
      ((hs.map (baseTarget (sumCaps hs) n)).sum + hs.length) :=
    calc sumCaps hs * n + hs.length
        = (hs.map hallCap).sum * n + hs.length := rfl
      _ ≤ ((hs.map (baseTarget (sumCaps hs) n)).sum + hs.length) * sumCaps hs :=
          hsum
      _ = sumCaps hs *
          ((hs.map (baseTarget (sumCaps hs) n)).sum + hs.length) :=
          Nat.mul_comm _ _
  have h4 : sumCaps hs * n < sumCaps hs *
      ((hs.map (baseTarget (sumCaps hs) n)).sum + hs.length) := by omega
  exact Nat.lt_of_mul_lt_mul_left h4

end Univ

/-- C4 (amended): for selected halls with distinct codes, positive total
capacity and student count at most that capacity, the per-hall targets sum to
exactly the student count; and every hall with positive grid capacity gets a
target of at most its grid capacity cap(h).  The original bound
`min(cap(h), declared_capacity(h))` is false: the distributor never consults
declared capacities, and a zero-capacity hall can even receive a remainder
seat. -/
theorem C4_distributor_targets (hs : List Univ.Hall) (n : Nat)
    (hnd : (hs.map Univ.Hall.hall_code).Nodup)
    (hT : 0 < Univ.sumCaps hs) (hn : n ≤ Univ.sumCaps hs) :
    ((hs.map (fun h =>
        (SeatAlloc.findA (Univ.studentsPerHall hs n) h.hall_code).getD 0)).sum
      = n)
    ∧ ∀ h ∈ hs, 0 < Univ.hallCap h →
        (SeatAlloc.findA (Univ.studentsPerHall hs n) h.hall_code).getD 0
          ≤ Univ.hallCap h := by
  have hble := Univ.baseTarget_sum_le hs n
  have hblt := Univ.baseTarget_sum_lt hs n hT
  have hrlen : n - (hs.map (Univ.baseTarget (Univ.sumCaps hs) n)).sum
      ≤ hs.length := by omega
  constructor
  · rw [Univ.studentsPerHall_eq hs n hnd]
    rw [Univ.map_findA_zip hs _ (by rw [SeatAlloc.addOneFirst_length]; simp) hnd]
    rw [SeatAlloc.addOneFirst_sum]
    simp only [List.length_map]
    omega
  · intro h hh hcap
    rcases Nat.lt_or_ge n (Univ.sumCaps hs) with hlt | hge
    · have hb : Univ.baseTarget (Univ.sumCaps hs) n h + 1 ≤ Univ.hallCap h := by
        have : Univ.hallCap h * n / Univ.sumCaps hs < Univ.hallCap h := by
          rw [Nat.div_lt_iff_lt_mul hT]
          exact mul_lt_mul_of_pos_left hlt hcap
        simpa [Univ.baseTarget, hT] using this
      have hP := Univ.findA_zip_forall
        (Univ.forall₂_addOneFirst (Univ.baseTarget (Univ.sumCaps hs) n) hs
          (n - (hs.map (Univ.baseTarget (Univ.sumCaps hs) n)).sum)) hnd h hh
      rw [Univ.studentsPerHall_eq hs n hnd]
      rcases hP with hP | hP <;> omega
    · have hEq : n = Univ.sumCaps hs := Nat.le_antisymm hn hge
      have hbase : ∀ h' ∈ hs,
          Univ.baseTarget (Univ.sumCaps hs) n h' = Univ.hallCap h' := by
        intro h' _
        simp only [Univ.baseTarget, if_pos hT, hEq]
        exact Nat.mul_div_cancel (Univ.hallCap h') hT
      have hbsum : (hs.map (Univ.baseTarget (Univ.sumCaps hs) n)).sum
          = Univ.sumCaps hs := by
        rw [List.map_congr_left hbase]
        rfl
      have hr0 : n - (hs.map (Univ.baseTarget (Univ.sumCaps hs) n)).sum = 0 := by
        omega
      have hP := Univ.findA_zip_forall
        (Univ.forall₂_map_self (Univ.baseTarget (Univ.sumCaps hs) n) hs) hnd h hh
      rw [Univ.studentsPerHall_eq hs n hnd, hr0, SeatAlloc.addOneFirst_zero]
      rw [hP, hbase h hh]

/-- Witness for C4: the amended distributor invariant applied to the concrete
halls A (2x2) and B (2x2) with 5 students. -/
theorem C4_distributor_targets_witness :
    ((Inputs.tgtH.map (fun h =>
        (SeatAlloc.findA (Univ.studentsPerHall Inputs.tgtH 5) h.hall_code).getD 0)).sum
      = 5)
    ∧ ∀ h ∈ Inputs.tgtH, 0 < Univ.hallCap h →
        (SeatAlloc.findA (Univ.studentsPerHall Inputs.tgtH 5) h.hall_code).getD 0
          ≤ Univ.hallCap h :=
  C4_distributor_targets Inputs.tgtH 5 (by decide) (by decide) (by decide)

namespace SeatAlloc

theorem insertLE_perm {α : Type} (le : α → α → Bool) (a : α) (l : List α) :
    List.Perm (insertLE le a l) (a :: l) := by
  induction l with
  | nil => simp [insertLE]
  | cons b bs ih =>
      by_cases h : le a b
      · simp [insertLE, h]
      · simp only [insertLE, if_neg h]
        exact (List.Perm.cons b ih).trans (List.Perm.swap a b bs)

theorem pySort_perm {α : Type} (le : α → α → Bool) (l : List α) :
    List.Perm (pySort le l) l := by
  induction l with
  | nil => simp [pySort]
  | cons a l ih =>
      exact (insertLE_perm le a (pySort le l)).trans (List.Perm.cons a ih)

end SeatAlloc

namespace Univ

open SeatAlloc

theorem req_le_blocks (n : Nat) : n ≤ ((n + 24) / 25) * 25 := by omega

theorem mem_selectCodesGo_of_mem (l : List Hall) :
    ∀ (req capAcc : Nat) (acc : List String) {c : String}, c ∈ acc →
      c ∈ selectCodesGo l req capAcc acc := by
  induction l with
  | nil => intro req capAcc acc c hc; simpa [selectCodesGo] using hc
  | cons h rest ih =>
      intro req capAcc acc c hc
      by_cases hle : req ≤ capAcc + hallCap h
      · simp only [selectCodesGo, if_pos hle]
        exact List.mem_insert_iff.mpr (Or.inr hc)
      · simp only [selectCodesGo, if_neg hle]
        exact ih req (capAcc + hallCap h) (acc.insert h.hall_code)
          (List.mem_insert_iff.mpr (Or.inr hc))

theorem selectCodesGo_spec (l : List Hall) :
    ∀ (req capAcc : Nat) (acc : List String),
      (∃ p q, l = p ++ q ∧ req ≤ capAcc + sumCaps p ∧
        ∀ h ∈ p, h.hall_code ∈ selectCodesGo l req capAcc acc)
      ∨ (∀ h ∈ l, h.hall_code ∈ selectCodesGo l req capAcc acc) := by
  induction l with
  | nil =>
      intro req capAcc acc
      right
      intro h hh
      cases hh
  | cons h rest ih =>
      intro req capAcc acc
      by_cases hle : req ≤ capAcc + hallCap h
      · left
        refine ⟨[h], rest, rfl, ?_, ?_⟩
        · simpa [sumCaps] using hle
        · intro h' hh'
          have : h' = h := by simpa using hh'
          subst this
          simp only [selectCodesGo, if_pos hle]
          exact List.mem_insert_self _ _
      · rcases ih req (capAcc + hallCap h) (acc.insert h.hall_code) with
          ⟨p, q, hpq, hcap, hmem⟩ | hall
        · left
          refine ⟨h :: p, q, by simp [hpq], ?_, ?_⟩
          · simp only [sumCaps, List.map_cons, List.sum_cons]
            simp only [sumCaps] at hcap
            omega
          · intro h' hh'
            rcases List.mem_cons.mp hh' with rfl | hh'
            · simp only [selectCodesGo, if_neg hle]
              exact mem_selectCodesGo_of_mem rest req (capAcc + hallCap h')
                (acc.insert h'.hall_code) (List.mem_insert_self _ _)
            · simp only [selectCodesGo, if_neg hle]
              exact hmem h' hh'
        · right
          intro h' hh'
          rcases List.mem_cons.mp hh' with rfl | hh'
          · simp only [selectCodesGo, if_neg hle]
            exact mem_selectCodesGo_of_mem rest req (capAcc + hallCap h')
              (acc.insert h'.hall_code) (List.mem_insert_self _ _)
          · simp only [selectCodesGo, if_neg hle]
            exact hall h' hh'

theorem selected_capacity (halls : List Hall) (req n : Nat)
    (hreq : n ≤ req) (htot : n ≤ sumCaps halls) :
    n ≤ sumCaps (halls.filter
      (fun h => (selectedCodes halls req).contains h.hall_code)) := by
  unfold selectedCodes
  set sorted := pySort (fun a b => decide (hallCap b ≤ hallCap a)) halls with hsorted
  have hperm : List.Perm sorted halls := pySort_perm _ halls
  rcases selectCodesGo_spec sorted req 0 [] with ⟨p, q, hpq, hcap, hmem⟩ | hall
  · set S := selectCodesGo sorted req 0 []
    set pred := fun h : Hall => S.contains h.hall_code with hpred
    have hp2 : p.filter pred = p := by
      rw [List.filter_eq_self]
      intro h hh
      exact List.elem_iff.mpr (hmem h hh)
    have hsub : List.Sublist p sorted := (List.IsPrefix.sublist ⟨q, hpq.symm⟩)
    have hsub2 : List.Sublist (p.filter pred) (sorted.filter pred) :=
      List.Sublist.filter pred hsub
    rw [hp2] at hsub2
    have hsum1 : sumCaps p ≤ sumCaps (sorted.filter pred) :=
      List.Sublist.sum_le_sum (List.Sublist.map hallCap hsub2)
        (fun a _ => Nat.zero_le a)
    have hsum2 : sumCaps (sorted.filter pred) = sumCaps (halls.filter pred) :=
      List.Perm.sum_eq (List.Perm.map hallCap (List.Perm.filter pred hperm))
    simp only [sumCaps] at hsum1 hsum2 hcap ⊢
    omega
  · have hfe : halls.filter
        (fun h => (selectCodesGo sorted req 0 []).contains h.hall_code) = halls := by
      rw [List.filter_eq_self]
      intro h hh
      exact List.elem_iff.mpr (hall h ((List.Perm.mem_iff hperm).mpr hh))
    rw [hfe]
    exact htot

theorem validate_cases (students : List Student) (halls : List Hall) :
    validate_inputs students halls = .ok () ∨
      validate_inputs students halls = .error .capacityError := by
  unfold validate_inputs
  split_ifs
  · right; rfl
  · right; rfl
  · left; rfl

theorem validate_ok_count (students : List Student) (halls : List Hall)
    (h : validate_inputs students halls = .ok ()) :
    students.length ≤ sumCaps halls := by
  unfold validate_inputs at h
  split_ifs at h with h1 h2
  · omega

theorem never_insufficient (students : List Student) (halls : List Hall) :
    allocate_seats students halls ≠ .error .insufficientCapacityError := by
  rcases validate_cases students halls with hv | hv
  · have hn : students.length ≤ sumCaps halls := validate_ok_count _ _ hv
    have hsel := selected_capacity halls (((students.length + 24) / 25) * 25)
      students.length (req_le_blocks students.length) hn
    unfold allocate_seats
    rw [hv]
    show (if sumCaps (halls.filter (fun h =>
        (selectedCodes halls (((students.length + 24) / 25) * 25)).contains
          h.hall_code)) < students.length then
        (Except.error .insufficientCapacityError : Except AllocError UnivState)
      else _) ≠ _
    rw [if_neg (by omega)]
    split
    · intro hcon; cases hcon
    · intro hcon
      rw [Except.error.injEq] at hcon
      cases hcon
  · unfold allocate_seats
    rw [hv]
    intro hcon
    rw [show ((Except.error AllocError.capacityError : Except AllocError Unit)
        >>= fun _ => _) = (Except.error AllocError.capacityError :
          Except AllocError UnivState) from rfl] at hcon
    rw [Except.error.injEq] at hcon
    cases hcon

end Univ

/-- C6 (amended): the `InsufficientCapacityError` branch of the University
variant is unreachable: `allocate_seats` never raises it.  When the
accumulated halls cannot reach the block-quantized threshold, the selection
loop simply selects every hall, and validation has already guaranteed that
all halls together hold at least the student count; when the threshold is
reached, the selected capacity is at least the threshold, which is at least
the student count.  The claimed failure mode therefore never occurs. -/
theorem C6_insufficient_unreachable (students : List Univ.Student)
    (halls : List Univ.Hall) :
    Univ.allocate_seats students halls ≠ .error .insufficientCapacityError :=
  Univ.never_insufficient students halls

/-- Witness for C6: the amended statement at the concrete threshold
counterexample input. -/
theorem C6_insufficient_unreachable_witness :
    Univ.allocate_seats Inputs.thrS Inputs.thrH
      ≠ .error .insufficientCapacityError :=
  C6_insufficient_unreachable Inputs.thrS Inputs.thrH

namespace SeatAlloc

theorem updA_updA {α : Type} (m : List (String × α)) (k : String) (v w : α) :
    updA (updA m k v) k w = updA m k w := by
  induction m with
  | nil => simp [updA]
  | cons p rest ih =>
      by_cases h : p.1 = k
      · simp [updA, h]
      · simp [updA, h, ih]

theorem updA_self_of_findA {α : Type} (m : List (String × α)) {k : String}
    {v : α} (h : findA m k = some v) : updA m k v = m := by
  induction m with
  | nil => simp [findA] at h
  | cons p rest ih =>
      by_cases hp : p.1 = k
      · simp only [findA, if_pos hp] at h
        injection h with hv
        simp only [updA, if_pos hp]
        rw [← hv, ← hp]
      · simp only [findA, if_neg hp] at h
        simp [updA, hp, ih h]

theorem getD_eq_getElem? {α : Type} (l : List α) (i : Nat) (d : α) :
    l.getD i d = l[i]?.getD d := by
  simp [List.getD]

theorem getCell_setCell_self (g : Grid) (r c : Nat) (v : Option String)
    (hr : r < g.length) (hc : c < (g.getD r []).length) :
    getCell (setCell g r c v) r c = v := by
  unfold getCell setCell
  simp only [List.getD] at hc ⊢
  rw [List.get?_eq_getElem?, List.getElem?_eq_getElem hr] at hc
  simp only [Option.getD_some] at hc
  simp [List.getElem?_set, hr, hc]

theorem getCell_setCell_ne (g : Grid) (r c r' c' : Nat) (v : Option String)
    (h : ¬(r = r' ∧ c = c')) :
    getCell (setCell g r c v) r' c' = getCell g r' c' := by
  unfold getCell setCell
  simp only [List.getD]
  by_cases hr : r = r'
  · subst hr
    have hc : ¬ c = c' := fun hc => h ⟨rfl, hc⟩
    by_cases hlen : r < g.length
    · simp [List.getElem?_set, hlen, hc, List.get?_eq_getElem?]
    · have hnone : g[r]? = none := List.getElem?_eq_none_iff.mpr (by omega)
      simp [List.getElem?_set, hlen, List.get?_eq_getElem?, hnone]
  · simp [List.getElem?_set, hr, List.get?_eq_getElem?]

theorem length_setCell (g : Grid) (r c : Nat) (v : Option String) :
    (setCell g r c v).length = g.length := by
  simp [setCell]

theorem rowLen_setCell (g : Grid) (r c : Nat) (v : Option String) (r' : Nat) :
    ((setCell g r c v).getD r' []).length = ((g.getD r' []).length) := by
  unfold setCell
  simp only [List.getD]
  by_cases hr : r = r'
  · subst hr
    by_cases hlen : r < g.length
    · simp [List.getElem?_set, hlen, List.get?_eq_getElem?]
    · have hnone : g[r]? = none := List.getElem?_eq_none_iff.mpr (by omega)
      simp [List.getElem?_set, hlen, List.get?_eq_getElem?, hnone]
  · simp [List.getElem?_set, hr, List.get?_eq_getElem?]

theorem getCell_emptyGrid (rows cols r c : Nat) :
    getCell (emptyGrid rows cols) r c = none := by
  unfold getCell emptyGrid
  simp only [List.getD, List.get?_eq_getElem?, List.getElem?_replicate]
  by_cases hr : r < rows
  · simp only [if_pos hr, Option.getD_some, List.getElem?_replicate]
    by_cases hc : c < cols
    · simp [hc]
    · simp [hc]
  · simp [hr]

theorem rowRegs_set_perm (row : List (Option String)) (c : Nat) (x : String)
    (hc : c < row.length) (hnone : row.getD c none = none) :
    List.Perm (rowRegs (row.set c (some x))) (x :: rowRegs row) := by
  have hrow : row = row.take c ++ row[c] :: row.drop (c + 1) := by
    conv_lhs => rw [← List.take_append_drop c row]
    rw [List.drop_eq_getElem_cons hc]
  have hcell : row[c] = none := by
    rw [getD_eq_getElem?] at hnone
    rw [List.getElem?_eq_getElem hc] at hnone
    simpa using hnone
  rw [List.set_eq_take_cons_drop (some x) hc]
  conv_rhs => rw [hrow]
  unfold rowRegs
  rw [List.filterMap_append, List.filterMap_append]
  simp only [List.filterMap_cons, hcell, id]
  exact List.perm_middle

theorem flatten_set_perm {α : Type} (L : List (List α)) (i : Nat)
    (R2 : List α) (x : α) (hi : i < L.length)
    (hperm : List.Perm R2 (x :: L[i])) :
    List.Perm (L.set i R2).flatten (x :: L.flatten) := by
  have hL : L = L.take i ++ L[i] :: L.drop (i + 1) := by
    conv_lhs => rw [← List.take_append_drop i L]
    rw [List.drop_eq_getElem_cons hi]
  rw [List.set_eq_take_cons_drop R2 hi]
  conv_rhs => rw [hL]
  rw [List.flatten_append, List.flatten_cons, List.flatten_append,
    List.flatten_cons]
  refine (List.Perm.append_left _ (List.Perm.append_right _ hperm)).trans ?_
  have h2 : (L.take i).flatten ++ ((x :: L[i]) ++ (L.drop (i + 1)).flatten)
      = (L.take i).flatten ++ x :: (L[i] ++ (L.drop (i + 1)).flatten) := by
    simp
  rw [h2]
  exact List.perm_middle

theorem gridRegs_setCell_perm (g : Grid) (r c : Nat) (x : String)
    (hr : r < g.length) (hc : c < (g.getD r []).length)
    (hnone : getCell g r c = none) :
    List.Perm (gridRegs (setCell g r c (some x))) (x :: gridRegs g) := by
  unfold gridRegs setCell
  rw [List.map_set]
  have hrow : g.getD r [] = g[r] := by
    rw [getD_eq_getElem?, List.getElem?_eq_getElem hr]
    rfl
  have hmaplen : r < (g.map rowRegs).length := by simpa using hr
  have hperm : List.Perm (rowRegs ((g.getD r []).set c (some x)))
      (x :: (g.map rowRegs)[r]) := by
    have h1 := rowRegs_set_perm (g.getD r []) c x hc (by
      unfold getCell at hnone
      exact hnone)
    have h2 : (g.map rowRegs)[r] = rowRegs (g.getD r []) := by
      rw [List.getElem_map, hrow]
    rw [h2]
    exact h1
  exact flatten_set_perm (g.map rowRegs) r _ x hmaplen hperm

end SeatAlloc

namespace SeatAlloc

theorem lookupPos_eq_none (pairs : List ((Nat × Nat) × String)) (p : Nat × Nat)
    (h : p ∉ pairs.map Prod.fst) : lookupPos pairs p = none := by
  induction pairs with
  | nil => rfl
  | cons q rest ih =>
      simp only [List.map_cons, List.mem_cons, not_or] at h
      simp [lookupPos, Ne.symm h.1, ih h.2]

theorem placeRegs_nil (g : Grid) : placeRegs g [] = g := rfl

theorem placeRegs_cons (g : Grid) (q : (Nat × Nat) × String)
    (rest : List ((Nat × Nat) × String)) :
    placeRegs g (q :: rest) = placeRegs (setCell g q.1.1 q.1.2 (some q.2)) rest :=
  rfl

theorem placeRegs_spec (pairs : List ((Nat × Nat) × String)) :
    ∀ (g : Grid),
    (∀ q ∈ pairs, q.1.1 < g.length ∧ q.1.2 < (g.getD q.1.1 []).length ∧
      getCell g q.1.1 q.1.2 = none) →
    (pairs.map Prod.fst).Nodup →
    (placeRegs g pairs).length = g.length ∧
    (∀ r', ((placeRegs g pairs).getD r' []).length = (g.getD r' []).length) ∧
    (∀ r c, getCell (placeRegs g pairs) r c
      = ((lookupPos pairs (r, c)).or (getCell g r c))) ∧
    List.Perm (gridRegs (placeRegs g pairs)) ((pairs.map Prod.snd) ++ gridRegs g) := by
  induction pairs with
  | nil =>
      intro g _ _
      refine ⟨rfl, fun _ => rfl, fun r c => rfl, by simp [placeRegs_nil]⟩
  | cons q rest ih =>
      intro g hq hnd
      obtain ⟨hr0, hc0, hnone0⟩ := hq q (by simp)
      have hnd2 : (q.1 :: rest.map Prod.fst).Nodup := by
        simpa only [List.map_cons] using hnd
      have hnotin := (List.nodup_cons.mp hnd2).1
      have hndrest := (List.nodup_cons.mp hnd2).2
      set g2 := setCell g q.1.1 q.1.2 (some q.2) with hg2
      have hq2 : ∀ q' ∈ rest, q'.1.1 < g2.length ∧
          q'.1.2 < (g2.getD q'.1.1 []).length ∧
          getCell g2 q'.1.1 q'.1.2 = none := by
        intro q' hq'
        obtain ⟨h1, h2, h3⟩ := hq q' (by simp [hq'])
        have hne : ¬(q.1.1 = q'.1.1 ∧ q.1.2 = q'.1.2) := by
          intro hcon
          apply hnotin
          have : q.1 = q'.1 := Prod.ext hcon.1 hcon.2
          rw [this]
          exact List.mem_map_of_mem Prod.fst hq'
        refine ⟨by rw [hg2, length_setCell]; exact h1,
          by rw [hg2, rowLen_setCell]; exact h2, ?_⟩
        rw [hg2, getCell_setCell_ne g _ _ _ _ _ hne]
        exact h3
      obtain ⟨ihlen, ihrow, ihcell, ihperm⟩ := ih g2 hq2 hndrest
      refine ⟨?_, ?_, ?_, ?_⟩
      · rw [placeRegs_cons, ihlen, hg2, length_setCell]
      · intro r'
        rw [placeRegs_cons, ihrow r', hg2, rowLen_setCell]
      · intro r c
        rw [placeRegs_cons, ihcell r c]
        by_cases hp : q.1 = (r, c)
        · have hrest : lookupPos rest (r, c) = none :=
            lookupPos_eq_none rest (r, c) (hp ▸ hnotin)
          have hcell2 : getCell g2 r c = some q.2 := by
            rw [hg2, show r = q.1.1 from by rw [hp], show c = q.1.2 from by rw [hp]]
            exact getCell_setCell_self g _ _ _ hr0 hc0
          simp [lookupPos, hp, hrest, hcell2]
        · have hcell2 : getCell g2 r c = getCell g r c := by
            rw [hg2]
            apply getCell_setCell_ne
            intro hcon
            exact hp (Prod.ext hcon.1 hcon.2)
          simp [lookupPos, hp, hcell2]
      · rw [placeRegs_cons]
        refine ihperm.trans ?_
        have hgperm : List.Perm (gridRegs g2) (q.2 :: gridRegs g) := by
          rw [hg2]
          exact gridRegs_setCell_perm g _ _ _ hr0 hc0 hnone0
        refine (List.Perm.append_left _ hgperm).trans ?_
        simp only [List.map_cons, List.cons_append]
        exact (List.perm_middle).trans (List.Perm.refl _)

theorem findA_eq_none_of_not_mem {α : Type} (m : List (String × α))
    {k : String} (h : k ∉ m.map Prod.fst) : findA m k = none := by
  induction m with
  | nil => rfl
  | cons p rest ih =>
      simp only [List.map_cons, List.mem_cons, not_or] at h
      simp [findA, Ne.symm h.1, ih h.2]

theorem findA_updAList {α : Type} (kvs : List (String × α)) :
    ∀ (m : List (String × α)), (kvs.map Prod.fst).Nodup → ∀ k,
      findA (updAList m kvs) k = (findA kvs k).or (findA m k) := by
  induction kvs with
  | nil => intro m _ k; simp [updAList, findA]
  | cons q rest ih =>
      intro m hnd k
      have hnd2 : (q.1 :: rest.map Prod.fst).Nodup := by
        simpa only [List.map_cons] using hnd
      have hnotin := (List.nodup_cons.mp hnd2).1
      have hndrest := (List.nodup_cons.mp hnd2).2
      have hstep : updAList m (q :: rest) = updAList (updA m q.1 q.2) rest := rfl
      rw [hstep, ih (updA m q.1 q.2) hndrest k]
      by_cases hk : q.1 = k
      · subst hk
        have hrest : findA rest q.1 = none :=
          findA_eq_none_of_not_mem rest hnotin
        rw [hrest, findA_updA_self]
        simp [findA, Option.or]
      · have h2 : findA (updA m q.1 q.2) k = findA m k :=
          findA_updA_ne m q.2 (Ne.symm hk)
        rw [h2]
        simp [findA, hk]

end SeatAlloc

namespace SeatAlloc

theorem zip_map_fst {α β : Type} :
    ∀ (l1 : List α) (l2 : List β), (l1.zip l2).map Prod.fst = l1.take l2.length
  | [], _ => by simp
  | _ :: _, [] => by simp
  | a :: l1, b :: l2 => by
      simp only [List.zip_cons_cons, List.map_cons, List.length_cons,
        List.take_succ_cons]
      rw [zip_map_fst l1 l2]

theorem zip_map_snd {α β : Type} :
    ∀ (l1 : List α) (l2 : List β), (l1.zip l2).map Prod.snd = l2.take l1.length
  | [], _ => by simp
  | _ :: _, [] => by simp
  | a :: l1, b :: l2 => by
      simp only [List.zip_cons_cons, List.map_cons, List.length_cons,
        List.take_succ_cons]
      rw [zip_map_snd l1 l2]

theorem filterMap_lookupPos_zip :
    ∀ (pos : List (Nat × Nat)) (regs : List String), pos.Nodup →
      pos.filterMap (lookupPos (pos.zip regs)) = regs.take pos.length
  | [], regs, _ => by simp
  | p :: ps, [], _ => by
      simp only [List.zip_nil_right]
      have : ∀ q ∈ p :: ps, lookupPos [] q = none := by
        intro q _; rfl
      rw [List.filterMap_congr this]
      simp
  | p :: ps, v :: vs, hnd => by
      have hnotin := (List.nodup_cons.mp hnd).1
      have hndrest := (List.nodup_cons.mp hnd).2
      have hhead : lookupPos ((p, v) :: ps.zip vs) p = some v := by
        simp [lookupPos]
      have hcongr : ∀ q ∈ ps, lookupPos ((p, v) :: ps.zip vs) q
          = lookupPos (ps.zip vs) q := by
        intro q hq
        have hne : p ≠ q := fun hc => hnotin (hc ▸ hq)
        simp [lookupPos, hne]
      rw [show (p :: ps).zip (v :: vs) = (p, v) :: ps.zip vs from rfl,
        List.filterMap_cons_some hhead,
        List.filterMap_congr hcongr, filterMap_lookupPos_zip ps vs hndrest]
      simp

theorem mem_insertLE {α : Type} (le : α → α → Bool) (a x : α) (l : List α) :
    x ∈ insertLE le a l ↔ x = a ∨ x ∈ l := by
  rw [List.Perm.mem_iff (insertLE_perm le a l)]
  simp

theorem insertLE_pairwise {α : Type} (le : α → α → Bool)
    (htrans : ∀ a b c, le a b = true → le b c = true → le a c = true)
    (htotal : ∀ a b, le a b = true ∨ le b a = true) (a : α) (l : List α)
    (hl : l.Pairwise (fun x y => le x y = true)) :
    (insertLE le a l).Pairwise (fun x y => le x y = true) := by
  induction l with
  | nil => simp [insertLE]
  | cons b bs ih =>
      rcases List.pairwise_cons.mp hl with ⟨hb, hbs⟩
      by_cases h : le a b = true
      · simp only [insertLE, if_pos h]
        refine List.pairwise_cons.mpr ⟨?_, hl⟩
        intro x hx
        rcases List.mem_cons.mp hx with rfl | hx
        · exact h
        · exact htrans a b x h (hb x hx)
      · simp only [insertLE, if_neg h]
        have hba : le b a = true := (htotal a b).resolve_left h
        refine List.pairwise_cons.mpr ⟨?_, ih hbs⟩
        intro x hx
        rcases (mem_insertLE le a x bs).mp hx with rfl | hx
        · exact hba
        · exact hb x hx

theorem pySort_pairwise {α : Type} (le : α → α → Bool)
    (htrans : ∀ a b c, le a b = true → le b c = true → le a c = true)
    (htotal : ∀ a b, le a b = true ∨ le b a = true) (l : List α) :
    (pySort le l).Pairwise (fun x y => le x y = true) := by
  induction l with
  | nil => simp [pySort]
  | cons a l ih =>
      exact insertLE_pairwise le htrans htotal a (pySort le l) ih

theorem charListLt_asymm :
    ∀ as bs, charListLt as bs = true → charListLt bs as = false
  | [], [] => by simp [charListLt]
  | [], b :: bs => by simp [charListLt]
  | a :: as, [] => by simp [charListLt]
  | a :: as, b :: bs => by
      intro h
      simp only [charListLt] at h ⊢
      by_cases h1 : a.toNat < b.toNat
      · rw [if_neg (by omega), if_pos h1]
      · by_cases h2 : b.toNat < a.toNat
        · rw [if_neg h1, if_pos h2] at h
          exact absurd h (by simp)
        · rw [if_neg h1, if_neg h2] at h
          rw [if_neg h2, if_neg h1]
          exact charListLt_asymm as bs h

theorem charListLt_comparison :
    ∀ bs as cs, charListLt bs as = true →
      charListLt bs cs = true ∨ charListLt cs as = true
  | [], [], cs => by simp [charListLt]
  | [], a :: as, [] => by
      intro _
      right
      simp [charListLt]
  | [], a :: as, c :: cs => by
      intro _
      left
      simp [charListLt]
  | b :: bs, [], cs => by simp [charListLt]
  | b :: bs, a :: as, [] => by
      intro _
      right
      simp [charListLt]
  | b :: bs, a :: as, c :: cs => by
      intro h
      simp only [charListLt] at h ⊢
      by_cases hbc : b.toNat < c.toNat
      · left
        rw [if_pos hbc]
      · by_cases hcb : c.toNat < b.toNat
        · right
          by_cases hba : b.toNat < a.toNat
          · rw [if_pos (show c.toNat < a.toNat by omega)]
          · by_cases hab : a.toNat < b.toNat
            · rw [if_neg hba, if_pos hab] at h
              exact absurd h (by simp)
            · rw [if_pos (show c.toNat < a.toNat by omega)]
        · by_cases hba : b.toNat < a.toNat
          · right
            rw [if_pos (show c.toNat < a.toNat by omega)]
          · by_cases hab : a.toNat < b.toNat
            · rw [if_neg hba, if_pos hab] at h
              exact absurd h (by simp)
            · rw [if_neg hba, if_neg hab] at h
              rcases charListLt_comparison bs as cs h with h3 | h3
              · left
                rw [if_neg hbc, if_neg hcb]
                exact h3
              · right
                rw [if_neg (show ¬ c.toNat < a.toNat by omega),
                  if_neg (show ¬ a.toNat < c.toNat by omega)]
                exact h3

theorem strLt_asymm (x y : String) (h : strLt x y = true) :
    strLt y x = false :=
  charListLt_asymm x.toList y.toList h

theorem strLt_comparison (x y z : String) (h : strLt x y = true) :
    strLt x z = true ∨ strLt z y = true :=
  charListLt_comparison x.toList y.toList z.toList h

end SeatAlloc

namespace Exam1

open SeatAlloc

theorem regKeyLe_total (a b : String) :
    regKeyLe a b = true ∨ regKeyLe b a = true := by
  unfold regKeyLe
  rcases ha : regKey a with m | x <;> rcases hb : regKey b with n | y <;>
    dsimp only
  · rcases Nat.le_total m n with h | h
    · left; simpa using h
    · right; simpa using h
  · left; rfl
  · right; rfl
  · by_cases h : strLt y x = true
    · right
      simp [strLt_asymm _ _ h]
    · left
      simp [h]

theorem regKeyLe_trans (a b c : String) (h1 : regKeyLe a b = true)
    (h2 : regKeyLe b c = true) : regKeyLe a c = true := by
  unfold regKeyLe at h1 h2 ⊢
  rcases ha : regKey a with m | x <;> rcases hb : regKey b with n | y <;>
    rcases hc : regKey c with p2 | z <;>
    rw [ha, hb] at h1 <;> rw [hb, hc] at h2 <;> dsimp only at h1 h2 ⊢
  all_goals first
    | rfl
    | exact Bool.noConfusion h1
    | exact Bool.noConfusion h2
    | (simp only [decide_eq_true_eq] at h1 h2 ⊢; omega)
    | (by_cases hzx : strLt z x = true
       · rcases strLt_comparison z x y hzx with h3 | h3
         · simp only [h3] at h2
           exact absurd h2 (by simp)
         · simp only [h3] at h1
           exact absurd h1 (by simp)
       · simp [hzx])

theorem regLeStu_total (a b : Student) :
    regLeStu a b = true ∨ regLeStu b a = true :=
  regKeyLe_total a.reg_no b.reg_no

theorem regLeStu_trans (a b c : Student) (h1 : regLeStu a b = true)
    (h2 : regLeStu b c = true) : regLeStu a c = true :=
  regKeyLe_trans a.reg_no b.reg_no c.reg_no h1 h2

end Exam1

namespace SeatAlloc

theorem emptyGrid_length (rows cols : Nat) :
    (emptyGrid rows cols).length = rows := by
  simp [emptyGrid]

theorem emptyGrid_row (rows cols r : Nat) (hr : r < rows) :
    (emptyGrid rows cols).getD r [] = List.replicate cols none := by
  unfold emptyGrid
  rw [getD_eq_getElem?, List.getElem?_replicate]
  simp [hr]

theorem gridRegs_emptyGrid (rows cols : Nat) :
    gridRegs (emptyGrid rows cols) = [] := by
  unfold gridRegs emptyGrid rowRegs
  induction rows with
  | zero => simp
  | succ n ih => simpa [List.replicate_succ] using ih

end SeatAlloc

namespace Exam1

open SeatAlloc

theorem mem_rowMajorPositions (rows cols : Nat) (p : Nat × Nat) :
    p ∈ rowMajorPositions rows cols ↔ p.1 < rows ∧ p.2 < cols := by
  unfold rowMajorPositions
  simp only [List.mem_flatMap, List.mem_map, List.mem_range]
  constructor
  · rintro ⟨r, hr, c, hc, rfl⟩
    exact ⟨hr, hc⟩
  · rintro ⟨h1, h2⟩
    exact ⟨p.1, h1, p.2, h2, rfl⟩

theorem rowMajorPositions_nodup (rows cols : Nat) :
    (rowMajorPositions rows cols).Nodup := by
  unfold rowMajorPositions
  rw [List.nodup_flatMap]
  constructor
  · intro r _
    exact (List.nodup_range cols).map
      (fun c1 c2 hc => by simpa using hc)
  · have hnd := List.nodup_range rows
    refine hnd.imp ?_
    intro r1 r2 hne p hp1 hp2
    simp only [List.mem_map, List.mem_range] at hp1 hp2
    rcases hp1 with ⟨c1, _, rfl⟩
    rcases hp2 with ⟨c2, _, hc⟩
    exact hne (by simpa using congrArg Prod.fst hc.symm)

theorem rowMajorPositions_length (rows cols : Nat) :
    (rowMajorPositions rows cols).length = rows * cols := by
  unfold rowMajorPositions
  rw [List.length_flatMap]
  have h1 : List.map (List.length ∘ fun r => (List.range cols).map (fun c => (r, c)))
      (List.range rows) = List.replicate rows cols := by
    rw [show (List.length ∘ fun r => (List.range cols).map (fun c => (r, c)))
        = Function.const Nat cols from ?_]
    · rw [List.map_const, List.length_range]
    · funext r
      simp [Function.comp]
  rw [h1, List.sum_replicate]
  simp [Nat.mul_comm]

end Exam1

namespace Univ

open SeatAlloc

theorem serpRow_mem (r cols c : Nat) :
    c ∈ (if r % 2 = 0 then List.range cols else (List.range cols).reverse)
      ↔ c < cols := by
  split <;> simp

theorem mem_serpPositions (rows cols : Nat) (p : Nat × Nat) :
    p ∈ serpPositions rows cols ↔ p.1 < rows ∧ p.2 < cols := by
  unfold serpPositions
  simp only [List.mem_flatMap, List.mem_map, List.mem_range]
  constructor
  · rintro ⟨r, hr, c, hc, rfl⟩
    exact ⟨hr, (serpRow_mem r cols c).mp hc⟩
  · rintro ⟨h1, h2⟩
    exact ⟨p.1, h1, p.2, (serpRow_mem p.1 cols p.2).mpr h2, rfl⟩

theorem serpPositions_nodup (rows cols : Nat) :
    (serpPositions rows cols).Nodup := by
  unfold serpPositions
  rw [List.nodup_flatMap]
  constructor
  · intro r _
    have hnd : (if r % 2 = 0 then List.range cols
        else (List.range cols).reverse).Nodup := by
      split
      · exact List.nodup_range cols
      · exact List.nodup_reverse.mpr (List.nodup_range cols)
    exact hnd.map (fun c1 c2 hc => by simpa using hc)
  · have hnd := List.nodup_range rows
    refine hnd.imp ?_
    intro r1 r2 hne p hp1 hp2
    simp only [List.mem_map] at hp1 hp2
    rcases hp1 with ⟨c1, _, rfl⟩
    rcases hp2 with ⟨c2, _, hc⟩
    exact hne (by simpa using congrArg Prod.fst hc.symm)

theorem serpPositions_length (rows cols : Nat) :
    (serpPositions rows cols).length = rows * cols := by
  unfold serpPositions
  rw [List.length_flatMap]
  have h1 : List.map (List.length ∘ fun r =>
      (if r % 2 = 0 then List.range cols else (List.range cols).reverse).map
        (fun c => (r, c)))
      (List.range rows) = List.replicate rows cols := by
    rw [show (List.length ∘ fun r =>
        (if r % 2 = 0 then List.range cols else (List.range cols).reverse).map
          (fun c => (r, c))) = Function.const Nat cols from ?_]
    · rw [List.map_const, List.length_range]
    · funext r
      simp only [Function.comp, Function.const]
      split <;> simp
  rw [h1, List.sum_replicate]
  simp [Nat.mul_comm]

end Univ

namespace Exam1

open SeatAlloc

theorem pack211Go_len :
    ∀ (fuel : Nat) (current : List String) (usable : Nat) (acc : List Student)
      (rem : RemD) (idx : Nat) (r : List Student × RemD),
      acc.length ≤ usable →
      pack211Go fuel current usable acc rem idx = some r →
      r.1.length ≤ usable := by
  intro fuel
  induction fuel with
  | zero => intro _ _ _ _ _ r _ h; cases h
  | succ fuel ih =>
      intro current usable acc rem idx r hacc h
      unfold pack211Go at h
      by_cases hg : acc.length < usable && anyRemaining rem current
      · rw [if_pos hg] at h
        dsimp only at h
        rcases hl : (findA rem (current.getD ([0, 0, 1, 2].getD (idx % 4) 0) "")).getD [] with
          _ | ⟨stu, rest⟩
        · rw [hl] at h
          exact ih _ _ _ _ _ _ hacc h
        · rw [hl] at h
          have hlt : acc.length < usable := by
            simp only [Bool.and_eq_true, decide_eq_true_eq] at hg
            exact hg.1
          refine ih _ _ _ _ _ _ ?_ h
          simp only [List.length_append, List.length_singleton]
          omega
      · rw [if_neg hg] at h
        injection h with h2
        rw [← h2]
        exact hacc

theorem rrInner_len (usable : Nat) :
    ∀ (current : List String) (p : List Student × RemD), p.1.length ≤ usable →
      (rrInner usable current p).1.length ≤ usable := by
  intro current
  induction current with
  | nil => intro p hp; exact hp
  | cons c cs ih =>
      intro p hp
      have hstep : rrInner usable (c :: cs) p = rrInner usable cs
          (match (findA p.2 c).getD [] with
           | [] => p
           | stu :: rest =>
               if p.1.length < usable then (p.1 ++ [stu], updA p.2 c rest)
               else p) := rfl
      rw [hstep]
      rcases hl : (findA p.2 c).getD [] with _ | ⟨stu, rest⟩
      · exact ih p hp
      · dsimp only
        split_ifs with hlt
        · refine ih _ ?_
          simp only [List.length_append, List.length_singleton]
          omega
        · exact ih p hp

theorem packRRGo_len :
    ∀ (fuel : Nat) (current : List String) (usable : Nat)
      (p : List Student × RemD) (r : List Student × RemD),
      p.1.length ≤ usable →
      packRRGo fuel current usable p = some r →
      r.1.length ≤ usable := by
  intro fuel
  induction fuel with
  | zero => intro _ _ _ r _ h; cases h
  | succ fuel ih =>
      intro current usable p r hp h
      unfold packRRGo at h
      by_cases hg : p.1.length < usable && anyRemaining p.2 current
      · rw [if_pos hg] at h
        exact ih _ _ _ _ (rrInner_len usable current p hp) h
      · rw [if_neg hg] at h
        injection h with h2
        rw [← h2]
        exact hp

theorem hallPack_len (rem : RemD) (current : List String) (usable : Nat) :
    (hallPack rem current usable).1.length ≤ usable := by
  unfold hallPack
  split_ifs
  · rcases h : pack211Go (4 * usable + 4) current usable [] rem 0 with _ | r
    · simp [h]
    · simp only [h, Option.getD_some]
      exact pack211Go_len _ _ _ _ _ _ _ (by simp) h
  · rcases h : packRRGo (usable + 1) current usable ([], rem) with _ | r
    · simp [h]
    · simp only [h, Option.getD_some]
      exact packRRGo_len _ _ _ _ _ (by simp) h

end Exam1

namespace Exam1

open SeatAlloc

theorem rowMajorRead_eq_filterMap (g : Grid) (rows cols : Nat) :
    rowMajorRead g rows cols
      = (rowMajorPositions rows cols).filterMap
          (fun p => getCell g p.1 p.2) := rfl

theorem rowMajorRead_empty (rows cols : Nat) :
    rowMajorRead (emptyGrid rows cols) rows cols = [] := by
  rw [rowMajorRead_eq_filterMap]
  rw [List.filterMap_congr
    (fun p _ => (getCell_emptyGrid rows cols p.1 p.2 :
      getCell (emptyGrid rows cols) p.1 p.2 = (fun _ => (none : Option String)) p))]
  simp

theorem rowMajorRead_place (rows cols : Nat) (regs : List String)
    (hlen : regs.length ≤ rows * cols) :
    rowMajorRead (placeRegs (emptyGrid rows cols)
        ((rowMajorPositions rows cols).zip regs)) rows cols = regs := by
  have hpos := rowMajorPositions_nodup rows cols
  have hposlen := rowMajorPositions_length rows cols
  have hbounds : ∀ q ∈ (rowMajorPositions rows cols).zip regs,
      q.1.1 < (emptyGrid rows cols).length ∧
      q.1.2 < ((emptyGrid rows cols).getD q.1.1 []).length ∧
      getCell (emptyGrid rows cols) q.1.1 q.1.2 = none := by
    intro q hq
    have hq1 : q.1 ∈ rowMajorPositions rows cols :=
      (List.of_mem_zip hq).1
    rcases (mem_rowMajorPositions rows cols q.1).mp hq1 with ⟨h1, h2⟩
    refine ⟨by rw [emptyGrid_length]; exact h1, ?_,
      getCell_emptyGrid _ _ _ _⟩
    rw [emptyGrid_row rows cols q.1.1 h1]
    simpa using h2
  have hndfst : (((rowMajorPositions rows cols).zip regs).map Prod.fst).Nodup := by
    rw [zip_map_fst]
    exact (List.take_sublist _ _).nodup hpos
  obtain ⟨_, _, hcell, _⟩ := placeRegs_spec _ _ hbounds hndfst
  rw [rowMajorRead_eq_filterMap]
  have hcongr : ∀ p ∈ rowMajorPositions rows cols,
      getCell (placeRegs (emptyGrid rows cols)
        ((rowMajorPositions rows cols).zip regs)) p.1 p.2
      = lookupPos ((rowMajorPositions rows cols).zip regs) p := by
    intro p hp
    rw [hcell p.1 p.2, getCell_emptyGrid, Option.or_none]
  rw [List.filterMap_congr hcongr]
  rw [filterMap_lookupPos_zip _ _ hpos, hposlen]
  exact List.take_of_length_le hlen

theorem placePairsE_fst (hall : Hall) :
    ∀ (pairs : List ((Nat × Nat) × Student)) (seats : List (String × Grid))
      (allocs : List (String × Entry)) (g : Grid),
      findA seats hall.hall_code = some g →
      (placePairsE hall seats allocs pairs).1
        = updA seats hall.hall_code
            (placeRegs g (pairs.map (fun q => (q.1, q.2.reg_no)))) := by
  intro pairs
  induction pairs with
  | nil =>
      intro seats allocs g h
      show seats = updA seats hall.hall_code (placeRegs g [])
      rw [placeRegs_nil]
      exact (updA_self_of_findA seats h).symm
  | cons q rest ih =>
      intro seats allocs g h
      rcases q with ⟨p, stu⟩
      have hgrid : getGridD seats hall.hall_code = g := by
        rw [getGridD, h]
        rfl
      show (placePairsE hall
        (updA seats hall.hall_code
          (setCell (getGridD seats hall.hall_code) p.1 p.2 (some stu.reg_no)))
        (updA allocs stu.reg_no (e1Entry hall p stu)) rest).1 = _
      rw [hgrid]
      rw [ih (updA seats hall.hall_code (setCell g p.1 p.2 (some stu.reg_no)))
        _ (setCell g p.1 p.2 (some stu.reg_no)) (findA_updA_self _ _ _)]
      rw [updA_updA]
      rfl

theorem placePairsE_snd (hall : Hall) :
    ∀ (pairs : List ((Nat × Nat) × Student)) (seats : List (String × Grid))
      (allocs : List (String × Entry)),
      (placePairsE hall seats allocs pairs).2
        = updAList allocs
            (pairs.map (fun q => (q.2.reg_no, e1Entry hall q.1 q.2))) := by
  intro pairs
  induction pairs with
  | nil => intro seats allocs; rfl
  | cons q rest ih =>
      intro seats allocs
      rcases q with ⟨p, stu⟩
      show (placePairsE hall _ (updA allocs stu.reg_no (e1Entry hall p stu)) rest).2 = _
      rw [ih]
      rfl

theorem hallStep_eq (cbs : List String) (st : E1State) (hall : Hall) :
    hallStep cbs st hall =
      if pickCurrent st.rem cbs [] = [] then
        { st with
          courses := updA st.courses hall.hall_code (pickCurrent st.rem cbs []) }
      else
        { rem := (hallPack st.rem (pickCurrent st.rem cbs [])
            (min hall.total_capacity (hallCap hall))).2,
          seats := (placePairsE hall st.seats st.allocs
            ((rowMajorPositions hall.rows hall.cols).zip
              (pySort regLeStu (hallPack st.rem (pickCurrent st.rem cbs [])
                (min hall.total_capacity (hallCap hall))).1))).1,
          allocs := (placePairsE hall st.seats st.allocs
            ((rowMajorPositions hall.rows hall.cols).zip
              (pySort regLeStu (hallPack st.rem (pickCurrent st.rem cbs [])
                (min hall.total_capacity (hallCap hall))).1))).2,
          courses := updA st.courses hall.hall_code (pickCurrent st.rem cbs []) } :=
  rfl

end Exam1

/-- C8 (amended): in the Exam1 variant, each hall's packed student list is
re-sorted by the registration-number key (numeric on the extracted digits,
string fallback) before any student is placed, so the hall grid's row-major
spatial readout after the first-pass hall step equals the packed list sorted
by that key, and is in particular ordered by the key.  The University variant
has no such re-sort: it places in packed pull order (see the
counterexample). -/
theorem C8_resort_before_placement (cbs : List String) (st : Exam1.E1State)
    (hall : Exam1.Hall)
    (hgrid : SeatAlloc.findA st.seats hall.hall_code
      = some (SeatAlloc.emptyGrid hall.rows hall.cols)) :
    SeatAlloc.rowMajorRead
        (SeatAlloc.getGridD (Exam1.hallStep cbs st hall).seats hall.hall_code)
        hall.rows hall.cols
      = (SeatAlloc.pySort Exam1.regLeStu
          (Exam1.hallPack st.rem (Exam1.pickCurrent st.rem cbs [])
            (min hall.total_capacity (Exam1.hallCap hall))).1).map
          Exam1.Student.reg_no
    ∧ List.Pairwise (fun a b => Exam1.regKeyLe a b = true)
        (SeatAlloc.rowMajorRead
          (SeatAlloc.getGridD (Exam1.hallStep cbs st hall).seats hall.hall_code)
          hall.rows hall.cols) := by
  by_cases hcur : Exam1.pickCurrent st.rem cbs [] = []
  · have hpack : (Exam1.hallPack st.rem (Exam1.pickCurrent st.rem cbs [])
        (min hall.total_capacity (Exam1.hallCap hall))).1 = [] := by
      rw [hcur]
      unfold Exam1.hallPack
      rw [if_neg (by simp)]
      unfold Exam1.packRRGo
      rw [if_neg (by simp [Exam1.anyRemaining])]
      rfl
    have hseats : (Exam1.hallStep cbs st hall).seats = st.seats := by
      rw [Exam1.hallStep_eq, if_pos hcur]
    have hread : SeatAlloc.rowMajorRead
        (SeatAlloc.getGridD (Exam1.hallStep cbs st hall).seats hall.hall_code)
        hall.rows hall.cols = [] := by
      rw [hseats, SeatAlloc.getGridD, hgrid]
      exact Exam1.rowMajorRead_empty hall.rows hall.cols
    rw [hread, hpack]
    exact ⟨rfl, List.Pairwise.nil⟩
  · have hseats : (Exam1.hallStep cbs st hall).seats
        = (Exam1.placePairsE hall st.seats st.allocs
            ((Exam1.rowMajorPositions hall.rows hall.cols).zip
              (SeatAlloc.pySort Exam1.regLeStu
                (Exam1.hallPack st.rem (Exam1.pickCurrent st.rem cbs [])
                  (min hall.total_capacity (Exam1.hallCap hall))).1))).1 := by
      rw [Exam1.hallStep_eq, if_neg hcur]
    set packed := (Exam1.hallPack st.rem (Exam1.pickCurrent st.rem cbs [])
      (min hall.total_capacity (Exam1.hallCap hall))).1 with hpackdef
    set sorted := SeatAlloc.pySort Exam1.regLeStu packed with hsorteddef
    have hmapzip : ((Exam1.rowMajorPositions hall.rows hall.cols).zip sorted).map
        (fun q => (q.1, q.2.reg_no))
        = (Exam1.rowMajorPositions hall.rows hall.cols).zip
            (sorted.map Exam1.Student.reg_no) := by
      rw [List.zip_map_right]
      apply List.map_congr_left
      intro q _
      rfl
    have hfst : (Exam1.placePairsE hall st.seats st.allocs
        ((Exam1.rowMajorPositions hall.rows hall.cols).zip sorted)).1
        = SeatAlloc.updA st.seats hall.hall_code
            (SeatAlloc.placeRegs (SeatAlloc.emptyGrid hall.rows hall.cols)
              ((Exam1.rowMajorPositions hall.rows hall.cols).zip
                (sorted.map Exam1.Student.reg_no))) := by
      rw [Exam1.placePairsE_fst hall _ st.seats st.allocs _ hgrid, hmapzip]
    have hlen : (sorted.map Exam1.Student.reg_no).length
        ≤ hall.rows * hall.cols := by
      have h1 : sorted.length = packed.length :=
        (SeatAlloc.pySort_perm Exam1.regLeStu packed).length_eq
      have h2 : packed.length ≤ min hall.total_capacity (Exam1.hallCap hall) :=
        Exam1.hallPack_len st.rem (Exam1.pickCurrent st.rem cbs []) _
      have h3 : min hall.total_capacity (Exam1.hallCap hall)
          ≤ hall.rows * hall.cols := Nat.min_le_right _ _
      simp only [List.length_map]
      omega
    have hread : SeatAlloc.rowMajorRead
        (SeatAlloc.getGridD (Exam1.hallStep cbs st hall).seats hall.hall_code)
        hall.rows hall.cols = sorted.map Exam1.Student.reg_no := by
      rw [hseats, hfst, SeatAlloc.getGridD, SeatAlloc.findA_updA_self]
      exact Exam1.rowMajorRead_place hall.rows hall.cols _ hlen
    refine ⟨hread, ?_⟩
    rw [hread]
    rw [List.pairwise_map]
    exact SeatAlloc.pySort_pairwise Exam1.regLeStu Exam1.regLeStu_trans
      Exam1.regLeStu_total packed

/-- Witness for C8: the amended re-sort statement applied to a concrete state
(one course with students regs "b2", "a1" and a 1x2 hall). -/
theorem C8_resort_before_placement_witness :
    SeatAlloc.findA
      (Exam1.E1State.seats
        { rem := [("c1", [Inputs.eS "b2" "c1", Inputs.eS "a1" "c1"])],
          seats := Exam1.initSeatsE [Inputs.eH "H" 1 2 2], allocs := [],
          courses := Exam1.initCoursesE [Inputs.eH "H" 1 2 2] })
      (Inputs.eH "H" 1 2 2).hall_code
      = some (SeatAlloc.emptyGrid (Inputs.eH "H" 1 2 2).rows
          (Inputs.eH "H" 1 2 2).cols)
    ∧ List.Pairwise (fun a b => Exam1.regKeyLe a b = true)
        (SeatAlloc.rowMajorRead
          (SeatAlloc.getGridD
            (Exam1.hallStep ["c1"]
              { rem := [("c1", [Inputs.eS "b2" "c1", Inputs.eS "a1" "c1"])],
                seats := Exam1.initSeatsE [Inputs.eH "H" 1 2 2], allocs := [],
                courses := Exam1.initCoursesE [Inputs.eH "H" 1 2 2] }
              (Inputs.eH "H" 1 2 2)).seats
            (Inputs.eH "H" 1 2 2).hall_code)
          (Inputs.eH "H" 1 2 2).rows (Inputs.eH "H" 1 2 2).cols) :=
  ⟨rfl, (C8_resort_before_placement ["c1"]
    { rem := [("c1", [Inputs.eS "b2" "c1", Inputs.eS "a1" "c1"])],
      seats := Exam1.initSeatsE [Inputs.eH "H" 1 2 2], allocs := [],
      courses := Exam1.initCoursesE [Inputs.eH "H" 1 2 2] }
    (Inputs.eH "H" 1 2 2) rfl).2⟩

namespace Univ

open SeatAlloc

/-- The selection loop visits every hall when all grid capacities are positive
and the accumulated capacity cannot reach the requirement before the end. -/
theorem selectCodesGo_all (l : List Hall) :
    ∀ (req capAcc : Nat) (acc : List String),
      (∀ h ∈ l, 0 < hallCap h) → capAcc + sumCaps l ≤ req →
      ∀ h ∈ l, h.hall_code ∈ selectCodesGo l req capAcc acc := by
  induction l with
  | nil => intro req capAcc acc _ _ h hh; cases hh
  | cons h rest ih =>
      intro req capAcc acc hpos hle h' hh'
      have hsums : sumCaps (h :: rest) = hallCap h + sumCaps rest := by
        simp [sumCaps]
      rw [hsums] at hle
      by_cases hstop : req ≤ capAcc + hallCap h
      · have hrest0 : sumCaps rest = 0 := by omega
        rcases rest with _ | ⟨r, rest'⟩
        · have : h' = h := by simpa using hh'
          subst this
          simp only [selectCodesGo, if_pos hstop]
          exact List.mem_insert_self _ _
        · exfalso
          have hr : 0 < hallCap r := hpos r (by simp)
          have hrle : hallCap r ≤ sumCaps (r :: rest') := by
            simp only [sumCaps, List.map_cons, List.sum_cons]
            omega
          omega
      · simp only [selectCodesGo, if_neg hstop]
        rcases List.mem_cons.mp hh' with rfl | hh'
        · exact mem_selectCodesGo_of_mem rest req (capAcc + hallCap h')
            (acc.insert h'.hall_code) (List.mem_insert_self _ _)
        · exact ih req (capAcc + hallCap h) (acc.insert h.hall_code)
            (fun x hx => hpos x (List.mem_cons_of_mem h hx)) (by omega) h' hh'

/-- When every hall has a nonempty grid and the total capacity is at most the
block-quantized requirement, the selection keeps every hall. -/
theorem filter_selected_eq (halls : List Hall) (req : Nat)
    (hpos : ∀ h ∈ halls, 0 < hallCap h) (hle : sumCaps halls ≤ req) :
    halls.filter (fun h => (selectedCodes halls req).contains h.hall_code)
      = halls := by
  rw [List.filter_eq_self]
  intro h hh
  have hperm : List.Perm
      (pySort (fun a b => decide (hallCap b ≤ hallCap a)) halls) halls :=
    pySort_perm _ halls
  have hsum : sumCaps (pySort (fun a b => decide (hallCap b ≤ hallCap a)) halls)
      = sumCaps halls :=
    List.Perm.sum_eq (List.Perm.map hallCap hperm)
  exact List.elem_iff.mpr (selectCodesGo_all _ req 0 []
    (fun x hx => hpos x ((List.Perm.mem_iff hperm).mp hx))
    (by omega) h ((List.Perm.mem_iff hperm).mpr hh))

/-- Length accounting for the alternating pull loop: it takes exactly
`min slots (|first| + |second|)` students and leaves the rest. -/
theorem pullRR_lengths : ∀ (k : Nat) (f s : List Student),
    (pullRR k f s).1.length = min k (f.length + s.length) ∧
    (pullRR k f s).2.1.length + (pullRR k f s).2.2.length
      = f.length + s.length - min k (f.length + s.length) := by
  intro k
  induction k using Nat.strong_induction_on with
  | _ k ih =>
    intro f s
    rcases k with _ | n
    · have e : pullRR 0 f s = ([], f, s) := rfl
      rw [e]
      simp only [List.length_nil]
      omega
    rcases f with _ | ⟨a, f'⟩
    · rcases s with _ | ⟨b, s2⟩
      · have e : pullRR (n + 1) [] ([] : List Student) = ([], [], []) := rfl
        rw [e]
        simp only [List.length_nil]
        omega
      · have e : pullRR (n + 1) [] (b :: s2)
            = (b :: (pullRR n [] s2).1, (pullRR n [] s2).2.1,
               (pullRR n [] s2).2.2) := rfl
        obtain ⟨h1, h2⟩ := ih n (by omega) [] s2
        rw [e]
        simp only [List.length_cons, List.length_nil] at *
        omega
    · rcases n with _ | m
      · rcases s with _ | ⟨b, s2⟩
        · have e : pullRR 1 (a :: f') ([] : List Student) = ([a], f', []) := rfl
          rw [e]
          simp only [List.length_cons, List.length_nil]
          omega
        · have e : pullRR 1 (a :: f') (b :: s2) = ([a], f', b :: s2) := rfl
          rw [e]
          simp only [List.length_cons, List.length_nil]
          omega
      · rcases s with _ | ⟨b, s2⟩
        · have e : pullRR (m + 2) (a :: f') ([] : List Student)
              = (a :: (pullRR (m + 1) f' []).1, (pullRR (m + 1) f' []).2.1,
                 (pullRR (m + 1) f' []).2.2) := rfl
          obtain ⟨h1, h2⟩ := ih (m + 1) (by omega) f' []
          rw [e]
          simp only [List.length_cons, List.length_nil] at *
          omega
        · have e : pullRR (m + 2) (a :: f') (b :: s2)
              = (a :: b :: (pullRR m f' s2).1, (pullRR m f' s2).2.1,
                 (pullRR m f' s2).2.2) := rfl
          obtain ⟨h1, h2⟩ := ih m (by omega) f' s2
          rw [e]
          simp only [List.length_cons, List.length_nil] at *
          omega

/-- The halves left by one hall step are the leftovers of its pull, whenever
the hall's target is nonzero. -/
theorem univHall_first_second (tgts : List (String × Nat)) (st : UnivState)
    (h : Hall) (htgt : (findA tgts h.hall_code).getD 0 ≠ 0) :
    (univHall tgts st h).first
      = (pullRR (min (hallCap h) (min h.total_capacity
          ((findA tgts h.hall_code).getD 0))) st.first st.second).2.1 ∧
    (univHall tgts st h).second
      = (pullRR (min (hallCap h) (min h.total_capacity
          ((findA tgts h.hall_code).getD 0))) st.first st.second).2.2 := by
  unfold univHall
  dsimp only
  rw [if_neg htgt]
  refine ⟨?_, ?_⟩ <;> split <;> rfl

/-- When each hall's target equals its grid capacity, its declared capacity is
at least its grid capacity, every grid is nonempty and the two halves hold
exactly the total grid capacity, the hall fold consumes both halves fully. -/
theorem univFold_empties (tgts : List (String × Nat)) :
    ∀ (hs : List Hall) (st : UnivState),
      (∀ h ∈ hs, (findA tgts h.hall_code).getD 0 = hallCap h ∧
        hallCap h ≤ h.total_capacity ∧ 0 < hallCap h) →
      st.first.length + st.second.length = sumCaps hs →
      (hs.foldl (univHall tgts) st).first = [] ∧
      (hs.foldl (univHall tgts) st).second = [] := by
  intro hs
  induction hs with
  | nil =>
      intro st _ hlen
      have h0 : sumCaps ([] : List Hall) = 0 := rfl
      rw [h0] at hlen
      simp only [List.foldl_nil]
      exact ⟨List.eq_nil_of_length_eq_zero (by omega),
        List.eq_nil_of_length_eq_zero (by omega)⟩
  | cons h hs ih =>
      intro st hprops hlen
      obtain ⟨hfind, hcle, hcpos⟩ := hprops h (by simp)
      have htgt : (findA tgts h.hall_code).getD 0 ≠ 0 := by omega
      obtain ⟨hfs, hss⟩ := univHall_first_second tgts st h htgt
      obtain ⟨hp1, hp2⟩ := pullRR_lengths (min (hallCap h)
        (min h.total_capacity ((findA tgts h.hall_code).getD 0)))
        st.first st.second
      have hsums : sumCaps (h :: hs) = hallCap h + sumCaps hs := by
        simp [sumCaps]
      simp only [List.foldl_cons]
      apply ih (univHall tgts st h)
      · intro h' hh'
        exact hprops h' (List.mem_cons_of_mem h hh')
      · rw [hfs, hss, hp2]
        omega

/-- In the exact-fit case (student count equal to the total grid capacity),
every hall's proportional target is exactly its grid capacity: the floor is
exact and the rounding remainder is zero. -/
theorem studentsPerHall_exact (hs : List Hall)
    (hnd : (hs.map Hall.hall_code).Nodup) (hT : 0 < sumCaps hs) :
    ∀ h ∈ hs, (findA (studentsPerHall hs (sumCaps hs)) h.hall_code).getD 0
      = hallCap h := by
  have hbase : ∀ h ∈ hs, baseTarget (sumCaps hs) (sumCaps hs) h = hallCap h := by
    intro h _
    unfold baseTarget
    rw [if_pos hT]
    exact Nat.mul_div_cancel (hallCap h) hT
  have hmapeq : hs.map (baseTarget (sumCaps hs) (sumCaps hs)) = hs.map hallCap :=
    List.map_congr_left hbase
  intro h hh
  rw [studentsPerHall_eq hs (sumCaps hs) hnd, hmapeq]
  rw [show sumCaps hs - (hs.map hallCap).sum = 0 from by
    have he : (hs.map hallCap).sum = sumCaps hs := rfl
    omega]
  rw [SeatAlloc.addOneFirst_zero]
  exact findA_zip_forall (forall₂_map_self hallCap hs) hnd h hh

end Univ

/-- C5 (amended): in the University variant, an exact-fit input succeeds when
every hall's declared capacity equals its grid size rows*cols, hall codes are
distinct and every grid is nonempty: validation passes, the selection keeps
every hall, each hall's proportional target is exactly its grid capacity, the
halves are fully consumed and `allocate_seats` returns `ok`.  A zero-slack
input where some hall's declared capacity is merely at most its grid size can
fail (see the counterexample): the per-hall pull is capped by the declared
capacity while the targets are computed from grid capacities. -/
theorem C5_zero_slack_success (students : List Univ.Student)
    (halls : List Univ.Hall)
    (hnd : (halls.map Univ.Hall.hall_code).Nodup)
    (hdecl : ∀ h ∈ halls, h.total_capacity = Univ.hallCap h)
    (hpos : ∀ h ∈ halls, 0 < Univ.hallCap h)
    (hslack : students.length = Univ.sumCaps halls) :
    ∃ st, Univ.allocate_seats students halls = Except.ok st := by
  have hval : Univ.validate_inputs students halls = Except.ok () := by
    have h1 : (halls.any fun h =>
        decide (Univ.hallCap h < h.total_capacity)) = false := by
      simp only [List.any_eq_false, decide_eq_true_eq]
      intro h hh
      rw [hdecl h hh]
      omega
    unfold Univ.validate_inputs
    rw [h1, if_neg (by simp), if_neg (by omega)]
  have hfilter : halls.filter (fun h =>
      (Univ.selectedCodes halls
        (((students.length + 24) / 25) * 25)).contains h.hall_code) = halls :=
    Univ.filter_selected_eq halls _ hpos
      (by have := Univ.req_le_blocks students.length; omega)
  have hprops : ∀ h ∈ halls,
      (SeatAlloc.findA (Univ.studentsPerHall halls students.length)
        h.hall_code).getD 0 = Univ.hallCap h ∧
      Univ.hallCap h ≤ h.total_capacity ∧ 0 < Univ.hallCap h := by
    intro h hh
    have hcap : Univ.hallCap h ≤ Univ.sumCaps halls :=
      List.single_le_sum (fun _ _ => Nat.zero_le _) _
        (List.mem_map_of_mem Univ.hallCap hh)
    have hT : 0 < Univ.sumCaps halls := by
      have := hpos h hh
      omega
    refine ⟨?_, (hdecl h hh).ge, hpos h hh⟩
    rw [hslack]
    exact Univ.studentsPerHall_exact halls hnd hT h hh
  have hlen0 : (students.take ((students.length + 1) / 2)).length
      + (students.drop ((students.length + 1) / 2)).length
      = Univ.sumCaps halls := by
    rw [List.length_take, List.length_drop]
    omega
  obtain ⟨hf1, hf2⟩ := Univ.univFold_empties
    (Univ.studentsPerHall halls students.length) halls
    { first := students.take ((students.length + 1) / 2),
      second := students.drop ((students.length + 1) / 2),
      seats := Univ.initSeats halls, allocs := [],
      courses := Univ.initCourses halls } hprops hlen0
  refine ⟨halls.foldl
      (Univ.univHall (Univ.studentsPerHall halls students.length))
      { first := students.take ((students.length + 1) / 2),
        second := students.drop ((students.length + 1) / 2),
        seats := Univ.initSeats halls, allocs := [],
        courses := Univ.initCourses halls }, ?_⟩
  unfold Univ.allocate_seats
  rw [hval]
  show (if Univ.sumCaps (halls.filter (fun h =>
      (Univ.selectedCodes halls
        (((students.length + 24) / 25) * 25)).contains h.hall_code))
      < students.length then
      Except.error SeatAlloc.AllocError.insufficientCapacityError
    else _) = _
  rw [hfilter, if_neg (by omega)]
  show (if ((halls.foldl
      (Univ.univHall (Univ.studentsPerHall halls students.length))
      { first := students.take ((students.length + 1) / 2),
        second := students.drop ((students.length + 1) / 2),
        seats := Univ.initSeats halls, allocs := [],
        courses := Univ.initCourses halls }).first
      ++ (halls.foldl
      (Univ.univHall (Univ.studentsPerHall halls students.length))
      { first := students.take ((students.length + 1) / 2),
        second := students.drop ((students.length + 1) / 2),
        seats := Univ.initSeats halls, allocs := [],
        courses := Univ.initCourses halls }).second) = [] then
      Except.ok (halls.foldl
      (Univ.univHall (Univ.studentsPerHall halls students.length))
      { first := students.take ((students.length + 1) / 2),
        second := students.drop ((students.length + 1) / 2),
        seats := Univ.initSeats halls, allocs := [],
        courses := Univ.initCourses halls })
    else _) = _
  rw [hf1, hf2]
  rfl

/-- Witness for C5: the amended exact-fit statement at one 1x2 hall with
declared capacity 2 and two students. -/
theorem C5_zero_slack_success_witness :
    ∃ st, Univ.allocate_seats [Inputs.uS "x" "C", Inputs.uS "y" "C"]
      [Inputs.uH "A" 1 2 2] = Except.ok st :=
  C5_zero_slack_success [Inputs.uS "x" "C", Inputs.uS "y" "C"]
    [Inputs.uH "A" 1 2 2] (by decide) (by decide) (by decide) (by decide)

namespace SeatAlloc

theorem mem_updA {α : Type} : ∀ (m : List (String × α)) (k : String) (v : α)
    (p : String × α), p ∈ updA m k v → p ∈ m ∨ p = (k, v)
  | [], k, v, p => by
      intro h
      simp only [updA, List.mem_singleton] at h
      exact Or.inr h
  | q :: rest, k, v, p => by
      intro h
      by_cases hq : q.1 = k
      · simp only [updA, if_pos hq, List.mem_cons] at h
        rcases h with h | h
        · exact Or.inr h
        · exact Or.inl (List.mem_cons_of_mem q h)
      · simp only [updA, if_neg hq, List.mem_cons] at h
        rcases h with h | h
        · exact Or.inl (h ▸ List.mem_cons_self q rest)
        · rcases mem_updA rest k v p h with h2 | h2
          · exact Or.inl (List.mem_cons_of_mem q h2)
          · exact Or.inr h2

theorem mem_updA_cases {α : Type} : ∀ (m : List (String × α)) (k : String)
    (v : α) (p : String × α), (m.map Prod.fst).Nodup → p ∈ updA m k v →
    (p ∈ m ∧ p.1 ≠ k) ∨ p = (k, v)
  | [], k, v, p => by
      intro _ h
      simp only [updA, List.mem_singleton] at h
      exact Or.inr h
  | q :: rest, k, v, p => by
      intro hnd h
      have hnd2 : (q.1 :: rest.map Prod.fst).Nodup := by
        simpa only [List.map_cons] using hnd
      have hnotin := (List.nodup_cons.mp hnd2).1
      have hndrest := (List.nodup_cons.mp hnd2).2
      by_cases hq : q.1 = k
      · simp only [updA, if_pos hq, List.mem_cons] at h
        rcases h with h | h
        · exact Or.inr h
        · refine Or.inl ⟨List.mem_cons_of_mem q h, ?_⟩
          intro hc
          apply hnotin
          rw [hq, ← hc]
          exact List.mem_map_of_mem Prod.fst h
      · simp only [updA, if_neg hq, List.mem_cons] at h
        rcases h with h | h
        · exact Or.inl ⟨h ▸ List.mem_cons_self q rest, by rw [h]; exact hq⟩
        · rcases mem_updA_cases rest k v p hndrest h with ⟨h2, h3⟩ | h2
          · exact Or.inl ⟨List.mem_cons_of_mem q h2, h3⟩
          · exact Or.inr h2

theorem keys_updA {α : Type} : ∀ (m : List (String × α)) (k : String) (v : α),
    (updA m k v).map Prod.fst
      = if k ∈ m.map Prod.fst then m.map Prod.fst
        else m.map Prod.fst ++ [k]
  | [], k, v => by simp [updA]
  | q :: rest, k, v => by
      by_cases hq : q.1 = k
      · simp [updA, hq]
      · have ih := keys_updA rest k v
        by_cases hk : k ∈ rest.map Prod.fst
        · simp [updA, hq, hk, ih, Ne.symm hq]
        · simp [updA, hq, hk, ih, Ne.symm hq]

theorem keys_updA_nodup {α : Type} (m : List (String × α)) (k : String)
    (v : α) (hnd : (m.map Prod.fst).Nodup) :
    ((updA m k v).map Prod.fst).Nodup := by
  rw [keys_updA]
  by_cases hk : k ∈ m.map Prod.fst
  · rwa [if_pos hk]
  · rw [if_neg hk]
    simp only [List.nodup_append, List.nodup_singleton]
    exact ⟨hnd, trivial, by simpa using hk⟩

theorem findA_mem {α : Type} : ∀ (m : List (String × α)) (k : String) (v : α),
    findA m k = some v → (k, v) ∈ m
  | [], k, v => by intro h; cases h
  | q :: rest, k, v => by
      intro h
      by_cases hq : q.1 = k
      · simp only [findA, if_pos hq] at h
        injection h with h2
        refine List.mem_cons.mpr (Or.inl ?_)
        rw [← hq, ← h2]
      · simp only [findA, if_neg hq] at h
        exact List.mem_cons_of_mem q (findA_mem rest k v h)

theorem seatsRegs_cons (p : String × Grid) (rest : List (String × Grid)) :
    seatsRegs (p :: rest) = gridRegs p.2 ++ seatsRegs rest := rfl

theorem seatsRegs_updA_perm :
    ∀ (seats : List (String × Grid)) (code : String) (g g' : Grid),
    findA seats code = some g →
    List.Perm (seatsRegs (updA seats code g') ++ gridRegs g)
      (seatsRegs seats ++ gridRegs g')
  | [], code, g, g' => by intro h; cases h
  | p :: rest, code, g, g' => by
      intro h
      by_cases hp : p.1 = code
      · simp only [findA, if_pos hp] at h
        injection h with h2
        refine List.perm_iff_count.mpr (fun a => ?_)
        simp only [updA, if_pos hp, seatsRegs_cons, List.count_append, h2]
        omega
      · simp only [findA, if_neg hp] at h
        have ih := (seatsRegs_updA_perm rest code g g' h).count_eq
        refine List.perm_iff_count.mpr (fun a => ?_)
        have iha := ih a
        simp only [updA, if_neg hp, seatsRegs_cons, List.count_append] at *
        omega

theorem seatsOccupied_eq : ∀ (seats : List (String × Grid)),
    seatsOccupied seats = (seatsRegs seats).length
  | [] => rfl
  | p :: rest => by
      have ih := seatsOccupied_eq rest
      simp only [seatsOccupied, seatsRegs, occupiedCount, List.map_cons,
        List.sum_cons, List.flatten_cons, List.length_append] at *
      omega

theorem count_filterMap_id (x : String) : ∀ (row : List (Option String)),
    row.count (some x) = (row.filterMap id).count x
  | [] => rfl
  | a :: row => by
      have ih := count_filterMap_id x row
      rcases a with _ | v
      · simpa [List.count_cons] using ih
      · by_cases hv : v = x
        · subst hv
          simp [List.count_cons, ih]
        · simp [List.count_cons, hv, ih]

theorem count_gridRegs (x : String) : ∀ (g : Grid),
    (gridRegs g).count x = (g.map (fun row => row.count (some x))).sum
  | [] => rfl
  | row :: g => by
      have ih := count_gridRegs x g
      have hrow : (rowRegs row).count x = row.count (some x) :=
        (count_filterMap_id x row).symm
      simp only [gridRegs, List.map_cons, List.flatten_cons, List.count_append,
        List.sum_cons] at *
      omega

theorem regCellCount_eq (x : String) : ∀ (seats : List (String × Grid)),
    regCellCount seats x = (seatsRegs seats).count x
  | [] => rfl
  | p :: rest => by
      have ih := regCellCount_eq x rest
      have hg := count_gridRegs x p.2
      simp only [regCellCount, seatsRegs, List.map_cons, List.sum_cons,
        List.flatten_cons, List.count_append] at *
      omega

theorem lookupPos_mem : ∀ (pairs : List ((Nat × Nat) × String))
    (p : Nat × Nat) (v : String), lookupPos pairs p = some v → (p, v) ∈ pairs
  | [], p, v => by intro h; cases h
  | q :: rest, p, v => by
      intro h
      by_cases hq : q.1 = p
      · simp only [lookupPos, if_pos hq] at h
        injection h with h2
        refine List.mem_cons.mpr (Or.inl ?_)
        rw [← hq, ← h2]
      · simp only [lookupPos, if_neg hq] at h
        exact List.mem_cons_of_mem q (lookupPos_mem rest p v h)

theorem lookupPos_of_mem : ∀ (pairs : List ((Nat × Nat) × String)),
    (pairs.map Prod.fst).Nodup → ∀ q ∈ pairs, lookupPos pairs q.1 = some q.2
  | [], _, q, hq => by cases hq
  | r :: rest, hnd, q, hq => by
      have hnd2 : (r.1 :: rest.map Prod.fst).Nodup := by
        simpa only [List.map_cons] using hnd
      have hnotin := (List.nodup_cons.mp hnd2).1
      have hndrest := (List.nodup_cons.mp hnd2).2
      rcases List.mem_cons.mp hq with rfl | hq
      · simp [lookupPos]
      · have hne : r.1 ≠ q.1 := by
          intro hc
          exact hnotin (hc ▸ List.mem_map_of_mem Prod.fst hq)
        simp only [lookupPos, if_neg hne]
        exact lookupPos_of_mem rest hndrest q hq

theorem findA_map_some {α β : Type} (key : α → String) (val : α → β) :
    ∀ (l : List α) (k : String) (v : β),
      findA (l.map (fun q => (key q, val q))) k = some v →
      ∃ q, q ∈ l ∧ key q = k ∧ val q = v
  | [], k, v => by intro h; cases h
  | a :: l, k, v => by
      intro h
      by_cases ha : key a = k
      · simp only [List.map_cons, findA, if_pos ha] at h
        injection h with h2
        exact ⟨a, by simp, ha, h2⟩
      · simp only [List.map_cons, findA, if_neg ha] at h
        rcases findA_map_some key val l k v h with ⟨q, hq1, hq2, hq3⟩
        exact ⟨q, List.mem_cons_of_mem a hq1, hq2, hq3⟩

theorem findA_map_of_mem {α β : Type} (key : α → String) (val : α → β) :
    ∀ (l : List α), (l.map key).Nodup → ∀ q ∈ l,
      findA (l.map (fun x => (key x, val x))) (key q) = some (val q)
  | [], _, q, hq => by cases hq
  | a :: l, hnd, q, hq => by
      have hnd2 : (key a :: l.map key).Nodup := by
        simpa only [List.map_cons] using hnd
      have hnotin := (List.nodup_cons.mp hnd2).1
      have hndrest := (List.nodup_cons.mp hnd2).2
      rcases List.mem_cons.mp hq with rfl | hq
      · simp [findA]
      · have hne : key a ≠ key q := by
          intro hc
          exact hnotin (hc ▸ List.mem_map_of_mem key hq)
        simp only [List.map_cons, findA, if_neg hne]
        exact findA_map_of_mem key val l hndrest q hq

theorem mem_gridRegs_of_getCell (g : Grid) (r c : Nat) (x : String)
    (h : getCell g r c = some x) : x ∈ gridRegs g := by
  unfold getCell at h
  by_cases hr : r < g.length
  · have hrow : g.getD r [] = g[r] := by
      rw [getD_eq_getElem?, List.getElem?_eq_getElem hr]
      rfl
    rw [hrow] at h
    by_cases hc : c < g[r].length
    · have hcell : g[r][c] = some x := by
        rw [getD_eq_getElem?, List.getElem?_eq_getElem hc] at h
        simpa using h
      have hxrow : some x ∈ g[r] := by
        rw [← hcell]
        exact List.getElem_mem hc
      have hx : x ∈ rowRegs g[r] := by
        unfold rowRegs
        exact List.mem_filterMap.mpr ⟨some x, hxrow, rfl⟩
      unfold gridRegs
      exact List.mem_flatten.mpr
        ⟨rowRegs g[r], List.mem_map_of_mem rowRegs (List.getElem_mem hr), hx⟩
    · rw [getD_eq_getElem?, List.getElem?_eq_none_iff.mpr (by omega)] at h
      cases h
  · have hnone : g.getD r [] = [] := by
      rw [getD_eq_getElem?, List.getElem?_eq_none_iff.mpr (by omega)]
      rfl
    rw [hnone] at h
    cases h

end SeatAlloc

namespace Univ

open SeatAlloc

theorem placePairs_fst (hall : Hall) :
    ∀ (pairs : List ((Nat × Nat) × Student)) (seats : List (String × Grid))
      (allocs : List (String × Entry)) (g : Grid),
      findA seats hall.hall_code = some g →
      (placePairs hall seats allocs pairs).1
        = updA seats hall.hall_code
            (placeRegs g (pairs.map (fun q => (q.1, q.2.reg_no)))) := by
  intro pairs
  induction pairs with
  | nil =>
      intro seats allocs g h
      show seats = updA seats hall.hall_code (placeRegs g [])
      rw [placeRegs_nil]
      exact (updA_self_of_findA seats h).symm
  | cons q rest ih =>
      intro seats allocs g h
      rcases q with ⟨p, stu⟩
      have hgrid : getGridD seats hall.hall_code = g := by
        rw [getGridD, h]
        rfl
      show (placePairs hall
        (updA seats hall.hall_code
          (setCell (getGridD seats hall.hall_code) p.1 p.2 (some stu.reg_no)))
        (updA allocs stu.reg_no (univEntry hall p stu)) rest).1 = _
      rw [hgrid]
      rw [ih (updA seats hall.hall_code (setCell g p.1 p.2 (some stu.reg_no)))
        _ (setCell g p.1 p.2 (some stu.reg_no)) (findA_updA_self _ _ _)]
      rw [updA_updA]
      rfl

theorem placePairs_snd (hall : Hall) :
    ∀ (pairs : List ((Nat × Nat) × Student)) (seats : List (String × Grid))
      (allocs : List (String × Entry)),
      (placePairs hall seats allocs pairs).2
        = updAList allocs
            (pairs.map (fun q => (q.2.reg_no, univEntry hall q.1 q.2))) := by
  intro pairs
  induction pairs with
  | nil => intro seats allocs; rfl
  | cons q rest ih =>
      intro seats allocs
      rcases q with ⟨p, stu⟩
      show (placePairs hall _ (updA allocs stu.reg_no (univEntry hall p stu))
        rest).2 = _
      rw [ih]
      rfl

theorem placePairs_findA_ne (hall : Hall) :
    ∀ (pairs : List ((Nat × Nat) × Student)) (seats : List (String × Grid))
      (allocs : List (String × Entry)) (code : String),
      code ≠ hall.hall_code →
      findA (placePairs hall seats allocs pairs).1 code = findA seats code := by
  intro pairs
  induction pairs with
  | nil => intro seats allocs code _; rfl
  | cons q rest ih =>
      intro seats allocs code hne
      rcases q with ⟨p, stu⟩
      show findA (placePairs hall
        (updA seats hall.hall_code
          (setCell (getGridD seats hall.hall_code) p.1 p.2 (some stu.reg_no)))
        (updA allocs stu.reg_no (univEntry hall p stu)) rest).1 code = _
      rw [ih _ _ code hne]
      exact findA_updA_ne seats _ hne

theorem univHall_eq (tgts : List (String × Nat)) (st : UnivState)
    (hall : Hall) :
    univHall tgts st hall =
      if (findA tgts hall.hall_code).getD 0 = 0 then st
      else if (pullRR (min (hallCap hall) (min hall.total_capacity
          ((findA tgts hall.hall_code).getD 0))) st.first st.second).1 = [] then
        { st with
          first := (pullRR (min (hallCap hall) (min hall.total_capacity
            ((findA tgts hall.hall_code).getD 0))) st.first st.second).2.1,
          second := (pullRR (min (hallCap hall) (min hall.total_capacity
            ((findA tgts hall.hall_code).getD 0))) st.first st.second).2.2 }
      else
        { first := (pullRR (min (hallCap hall) (min hall.total_capacity
            ((findA tgts hall.hall_code).getD 0))) st.first st.second).2.1,
          second := (pullRR (min (hallCap hall) (min hall.total_capacity
            ((findA tgts hall.hall_code).getD 0))) st.first st.second).2.2,
          seats := (placePairs hall st.seats st.allocs
            ((serpPositions hall.rows hall.cols).zip
              (pullRR (min (hallCap hall) (min hall.total_capacity
                ((findA tgts hall.hall_code).getD 0)))
                st.first st.second).1)).1,
          allocs := (placePairs hall st.seats st.allocs
            ((serpPositions hall.rows hall.cols).zip
              (pullRR (min (hallCap hall) (min hall.total_capacity
                ((findA tgts hall.hall_code).getD 0)))
                st.first st.second).1)).2,
          courses := updA st.courses hall.hall_code
            (((pullRR (min (hallCap hall) (min hall.total_capacity
              ((findA tgts hall.hall_code).getD 0)))
              st.first st.second).1.map Student.course_code).eraseDups) } :=
  rfl

theorem univHall_findA_ne (tgts : List (String × Nat)) (st : UnivState)
    (hall : Hall) (code : String) (hne : code ≠ hall.hall_code) :
    findA (univHall tgts st hall).seats code = findA st.seats code := by
  rw [univHall_eq]
  split
  · rfl
  split
  · rfl
  · exact placePairs_findA_ne hall _ st.seats st.allocs code hne

theorem pullRR_perm : ∀ (k : Nat) (f s : List Student),
    List.Perm ((pullRR k f s).1 ++ (pullRR k f s).2.1 ++ (pullRR k f s).2.2)
      (f ++ s) := by
  intro k
  induction k using Nat.strong_induction_on with
  | _ k ih =>
    intro f s
    rcases k with _ | n
    · have e : pullRR 0 f s = ([], f, s) := rfl
      rw [e]
      simp
    rcases f with _ | ⟨a, f'⟩
    · rcases s with _ | ⟨b, s2⟩
      · have e : pullRR (n + 1) [] ([] : List Student) = ([], [], []) := rfl
        rw [e]
        simp
      · have e : pullRR (n + 1) [] (b :: s2)
            = (b :: (pullRR n [] s2).1, (pullRR n [] s2).2.1,
               (pullRR n [] s2).2.2) := rfl
        have ih2 := ih n (by omega) [] s2
        rw [e]
        simp only [List.cons_append, List.append_assoc, List.nil_append] at *
        exact ih2.cons b
    · rcases n with _ | m
      · rcases s with _ | ⟨b, s2⟩
        · have e : pullRR 1 (a :: f') ([] : List Student) = ([a], f', []) := rfl
          rw [e]
          simp
        · have e : pullRR 1 (a :: f') (b :: s2) = ([a], f', b :: s2) := rfl
          rw [e]
          simp
      · rcases s with _ | ⟨b, s2⟩
        · have e : pullRR (m + 2) (a :: f') ([] : List Student)
              = (a :: (pullRR (m + 1) f' []).1, (pullRR (m + 1) f' []).2.1,
                 (pullRR (m + 1) f' []).2.2) := rfl
          have ih2 := ih (m + 1) (by omega) f' []
          rw [e]
          simp only [List.cons_append, List.append_assoc, List.append_nil] at *
          exact ih2.cons a
        · have e : pullRR (m + 2) (a :: f') (b :: s2)
              = (a :: b :: (pullRR m f' s2).1, (pullRR m f' s2).2.1,
                 (pullRR m f' s2).2.2) := rfl
          have ih2 := ih m (by omega) f' s2
          rw [e]
          simp only [List.cons_append, List.append_assoc] at *
          exact ((ih2.cons b).trans List.perm_middle.symm).cons a

theorem findA_foldl_updA_ne : ∀ (halls : List Hall)
    (m : List (String × Grid)) (k : String),
    k ∉ halls.map Hall.hall_code →
    findA (halls.foldl
      (fun m h => updA m h.hall_code (emptyGrid h.rows h.cols)) m) k
      = findA m k
  | [], m, k, _ => rfl
  | h :: hs, m, k, hnotin => by
      simp only [List.map_cons, List.mem_cons, not_or] at hnotin
      simp only [List.foldl_cons]
      rw [findA_foldl_updA_ne hs _ k hnotin.2]
      exact findA_updA_ne m _ hnotin.1

theorem findA_foldl_updA : ∀ (halls : List Hall)
    (m : List (String × Grid)), (halls.map Hall.hall_code).Nodup →
    ∀ h ∈ halls,
      findA (halls.foldl
        (fun m h => updA m h.hall_code (emptyGrid h.rows h.cols)) m)
        h.hall_code = some (emptyGrid h.rows h.cols)
  | [], m, _, h, hh => by cases hh
  | h :: hs, m, hnd, h', hh' => by
      have hnd2 : (h.hall_code :: hs.map Hall.hall_code).Nodup := by
        simpa only [List.map_cons] using hnd
      have hnotin := (List.nodup_cons.mp hnd2).1
      have hndrest := (List.nodup_cons.mp hnd2).2
      simp only [List.foldl_cons]
      rcases List.mem_cons.mp hh' with rfl | hh'
      · rw [findA_foldl_updA_ne hs _ h'.hall_code hnotin]
        exact findA_updA_self m _ _
      · exact findA_foldl_updA hs _ hndrest h' hh'

theorem findA_initSeats (halls : List Hall)
    (hnd : (halls.map Hall.hall_code).Nodup) :
    ∀ h ∈ halls, findA (initSeats halls) h.hall_code
      = some (emptyGrid h.rows h.cols) :=
  findA_foldl_updA halls [] hnd

theorem gridRegs_foldl_init : ∀ (halls : List Hall)
    (m : List (String × Grid)), (∀ p ∈ m, gridRegs p.2 = []) →
    ∀ p ∈ halls.foldl
      (fun m h => updA m h.hall_code (emptyGrid h.rows h.cols)) m,
      gridRegs p.2 = []
  | [], m, hm, p, hp => hm p hp
  | h :: hs, m, hm, p, hp => by
      simp only [List.foldl_cons] at hp
      refine gridRegs_foldl_init hs _ ?_ p hp
      intro q hq
      rcases mem_updA m h.hall_code (emptyGrid h.rows h.cols) q hq with h2 | h2
      · exact hm q h2
      · rw [h2]
        exact gridRegs_emptyGrid h.rows h.cols

theorem seatsRegs_eq_nil : ∀ (m : List (String × Grid)),
    (∀ p ∈ m, gridRegs p.2 = []) → seatsRegs m = []
  | [], _ => rfl
  | p :: rest, h => by
      rw [seatsRegs_cons, h p (by simp), seatsRegs_eq_nil rest
        (fun q hq => h q (List.mem_cons_of_mem p hq))]
      rfl

theorem seatsRegs_initSeats (halls : List Hall) :
    seatsRegs (initSeats halls) = [] :=
  seatsRegs_eq_nil _ (gridRegs_foldl_init halls [] (by intro p hp; cases hp))

theorem keys_foldl_init : ∀ (halls : List Hall)
    (m : List (String × Grid)), (m.map Prod.fst).Nodup →
    ((halls.foldl
      (fun m h => updA m h.hall_code (emptyGrid h.rows h.cols)) m).map
        Prod.fst).Nodup
  | [], m, hm => hm
  | h :: hs, m, hm => by
      simp only [List.foldl_cons]
      exact keys_foldl_init hs _ (keys_updA_nodup m _ _ hm)

theorem keys_initSeats (halls : List Hall) :
    ((initSeats halls).map Prod.fst).Nodup :=
  keys_foldl_init halls [] (by simp)

theorem allocate_eq_of_validate_ok (students : List Student)
    (halls : List Hall)
    (hv : validate_inputs students halls = Except.ok ()) :
    allocate_seats students halls
      = if sumCaps (hallsToUse students halls) < students.length then
          Except.error .insufficientCapacityError
        else if (univRun students halls).first ++ (univRun students halls).second
            = [] then
          Except.ok (univRun students halls)
        else Except.error (.unallocatedStudentsError
          ((univRun students halls).first
            ++ (univRun students halls).second).length
          (((univRun students halls).first
            ++ (univRun students halls).second).map Student.reg_no)) := by
  unfold allocate_seats
  rw [hv]
  rfl

theorem allocate_ok_run (students : List Student) (halls : List Hall)
    (st : UnivState) (hok : allocate_seats students halls = Except.ok st) :
    st = univRun students halls ∧ (univRun students halls).first = [] ∧
      (univRun students halls).second = [] := by
  rcases validate_cases students halls with hv | hv
  · rw [allocate_eq_of_validate_ok students halls hv] at hok
    by_cases h1 : sumCaps (hallsToUse students halls) < students.length
    · rw [if_pos h1] at hok
      cases hok
    · rw [if_neg h1] at hok
      by_cases h2 : (univRun students halls).first
          ++ (univRun students halls).second = []
      · rw [if_pos h2] at hok
        injection hok with h3
        rcases List.append_eq_nil.mp h2 with ⟨h4, h5⟩
        exact ⟨h3.symm, h4, h5⟩
      · rw [if_neg h2] at hok
        cases hok
  · unfold allocate_seats at hok
    rw [hv, SeatAlloc.except_bind_error] at hok
    cases hok

end Univ

namespace Univ

open SeatAlloc

theorem univHall_inv (tgts : List (String × Nat)) (st : UnivState) (h : Hall)
    (hempty : findA st.seats h.hall_code = some (emptyGrid h.rows h.cols))
    (hinv : runInv st) : runInv (univHall tgts st h) := by
  obtain ⟨⟨hA, hB⟩, hC, hD, hE⟩ := hinv
  rw [univHall_eq]
  by_cases h0 : (findA tgts h.hall_code).getD 0 = 0
  · rw [if_pos h0]
    exact ⟨⟨hA, hB⟩, hC, hD, hE⟩
  rw [if_neg h0]
  set U := min (hallCap h) (min h.total_capacity
    ((findA tgts h.hall_code).getD 0)) with hU
  set pulled := pullRR U st.first st.second with hpulled
  by_cases hp : pulled.1 = []
  · rw [if_pos hp]
    have hperm := pullRR_perm U st.first st.second
    rw [← hpulled, hp] at hperm
    simp only [List.nil_append] at hperm
    have hmap := hperm.map Student.reg_no
    refine ⟨⟨hA, hB⟩, ?_, ?_, hE⟩
    · exact hmap.nodup_iff.mpr hC
    · intro x hx
      exact hD x (hmap.subset hx)
  rw [if_neg hp]
  set pairs := (serpPositions h.rows h.cols).zip pulled.1 with hpairs
  have hfst : (placePairs h st.seats st.allocs pairs).1
      = updA st.seats h.hall_code (placeRegs (emptyGrid h.rows h.cols)
          (pairs.map (fun q => (q.1, q.2.reg_no)))) :=
    placePairs_fst h pairs st.seats st.allocs _ hempty
  have hsnd : (placePairs h st.seats st.allocs pairs).2
      = updAList st.allocs
          (pairs.map (fun q => (q.2.reg_no, univEntry h q.1 q.2))) :=
    placePairs_snd h pairs st.seats st.allocs
  rw [hfst, hsnd]
  set prs := pairs.map (fun q => (q.1, q.2.reg_no)) with hprs
  set KV := pairs.map (fun q => (q.2.reg_no, univEntry h q.1 q.2)) with hKV
  set G := placeRegs (emptyGrid h.rows h.cols) prs with hG
  have hcap : hallCap h = h.rows * h.cols := rfl
  have hlenpull := (pullRR_lengths U st.first st.second).1
  rw [← hpulled] at hlenpull
  have hserplen := serpPositions_length h.rows h.cols
  have hserpnd := serpPositions_nodup h.rows h.cols
  have hlen1 : pulled.1.length ≤ (serpPositions h.rows h.cols).length := by
    rw [hserplen]
    omega
  have hprsfst : prs.map Prod.fst
      = (serpPositions h.rows h.cols).take pulled.1.length := by
    have h1 : prs.map Prod.fst = pairs.map Prod.fst := by
      rw [hprs, List.map_map]
      rfl
    rw [h1, hpairs, zip_map_fst]
  have hndprs : (prs.map Prod.fst).Nodup := by
    rw [hprsfst]
    exact (List.take_sublist _ _).nodup hserpnd
  have hbounds : ∀ q ∈ prs, q.1.1 < (emptyGrid h.rows h.cols).length ∧
      q.1.2 < ((emptyGrid h.rows h.cols).getD q.1.1 []).length ∧
      getCell (emptyGrid h.rows h.cols) q.1.1 q.1.2 = none := by
    intro q hq
    have hq1 : q.1 ∈ serpPositions h.rows h.cols := by
      have h2 : q.1 ∈ prs.map Prod.fst := List.mem_map_of_mem Prod.fst hq
      rw [hprsfst] at h2
      exact (List.take_sublist _ _).subset h2
    rcases (mem_serpPositions h.rows h.cols q.1).mp hq1 with ⟨hr, hcc⟩
    refine ⟨by rw [emptyGrid_length]; exact hr, ?_, getCell_emptyGrid _ _ _ _⟩
    rw [emptyGrid_row h.rows h.cols q.1.1 hr]
    simpa using hcc
  obtain ⟨hGlen, hGrow, hGcell, hGperm⟩ :=
    placeRegs_spec prs (emptyGrid h.rows h.cols) hbounds hndprs
  rw [← hG] at hGcell hGperm
  have hpairssnd : pairs.map (fun q => q.2.reg_no)
      = pulled.1.map Student.reg_no := by
    have h1 : pairs.map (fun q => q.2.reg_no)
        = (pairs.map Prod.snd).map Student.reg_no := by
      rw [List.map_map]
      rfl
    rw [h1, hpairs, zip_map_snd, List.take_of_length_le hlen1]
  have hKVkeys : KV.map Prod.fst = pulled.1.map Student.reg_no := by
    have h1 : KV.map Prod.fst = pairs.map (fun q => q.2.reg_no) := by
      rw [hKV, List.map_map]
      rfl
    rw [h1, hpairssnd]
  have hperm := pullRR_perm U st.first st.second
  rw [← hpulled] at hperm
  have hmapperm := hperm.map Student.reg_no
  have hndall := hmapperm.nodup_iff.mpr hC
  simp only [List.map_append, List.append_assoc] at hndall
  have hnd1 : (pulled.1.map Student.reg_no).Nodup := hndall.of_append_left
  have hndrest2 : ((pulled.2.1.map Student.reg_no)
      ++ (pulled.2.2.map Student.reg_no)).Nodup := hndall.of_append_right
  have hdisj := List.disjoint_of_nodup_append hndall
  have hsub : ∀ y ∈ pulled.1 ++ pulled.2.1 ++ pulled.2.2,
      y ∈ st.first ++ st.second := fun y hy => hperm.subset hy
  have hpullD : ∀ x ∈ pulled.1.map Student.reg_no,
      findA st.allocs x = none := by
    intro x hx
    apply hD
    rcases List.mem_map.mp hx with ⟨stu, hstu, rfl⟩
    exact List.mem_map_of_mem Student.reg_no
      (hsub stu (by simp only [List.append_assoc, List.mem_append]; tauto))
  have hrestD : ∀ x ∈ (pulled.2.1 ++ pulled.2.2).map Student.reg_no,
      findA st.allocs x = none := by
    intro x hx
    apply hD
    rcases List.mem_map.mp hx with ⟨stu, hstu, rfl⟩
    refine List.mem_map_of_mem Student.reg_no (hsub stu ?_)
    simp only [List.append_assoc, List.mem_append] at hstu ⊢
    tauto
  have hfindA' := findA_updAList KV st.allocs (by rw [hKVkeys]; exact hnd1)
  unfold runInv ledgerMatches
  dsimp only
  refine ⟨⟨?_, ?_⟩, ?_, ?_, ?_⟩
  · intro r e hre
    rw [hfindA' r] at hre
    rcases hkv : findA KV r with _ | e'
    · rw [hkv, Option.none_or] at hre
      obtain ⟨h1, h2, h3⟩ := hA r e hre
      refine ⟨h1, h2, ?_⟩
      have hne : e.hall_code ≠ h.hall_code := by
        intro hc
        rw [hc, getGridD, hempty] at h3
        rw [show (some (emptyGrid h.rows h.cols)).getD []
            = emptyGrid h.rows h.cols from rfl] at h3
        rw [getCell_emptyGrid] at h3
        cases h3
      rw [getGridD, findA_updA_ne st.seats G hne]
      exact h3
    · rw [hkv] at hre
      rw [show (some e').or (findA st.allocs r) = some e' from rfl] at hre
      injection hre with hre2
      subst hre2
      rw [hKV] at hkv
      obtain ⟨q, hqmem, hqkey, hqval⟩ := findA_map_some
        (fun q => q.2.reg_no) (fun q => univEntry h q.1 q.2) pairs r e' hkv
      subst hqval
      subst hqkey
      have hqprs : (q.1, q.2.reg_no) ∈ prs := by
        rw [hprs]
        exact List.mem_map_of_mem _ hqmem
      have hlook : lookupPos prs q.1 = some q.2.reg_no :=
        lookupPos_of_mem prs hndprs (q.1, q.2.reg_no) hqprs
      refine ⟨by simp [univEntry], by simp [univEntry], ?_⟩
      have hucode : (univEntry h q.1 q.2).hall_code = h.hall_code := rfl
      have hurow : (univEntry h q.1 q.2).row - 1 = q.1.1 := by
        simp [univEntry]
      have hucol : (univEntry h q.1 q.2).col - 1 = q.1.2 := by
        simp [univEntry]
      rw [hucode, hurow, hucol, getGridD, findA_updA_self]
      rw [show (some G).getD [] = G from rfl]
      rw [hGcell q.1.1 q.1.2, getCell_emptyGrid, Option.or_none]
      rw [show ((q.1.1, q.1.2) : Nat × Nat) = q.1 from rfl]
      exact hlook
  · intro p hpmem r c x hcell
    rcases mem_updA_cases st.seats h.hall_code G p hE hpmem with
      ⟨hpold, hpne⟩ | hpeq
    · obtain ⟨e, he1, he2, he3, he4⟩ := hB p hpold r c x hcell
      refine ⟨e, ?_, he2, he3, he4⟩
      rw [hfindA' x]
      have hxnot : x ∉ KV.map Prod.fst := by
        rw [hKVkeys]
        intro hx
        rw [hpullD x hx] at he1
        cases he1
      rw [findA_eq_none_of_not_mem KV hxnot, Option.none_or]
      exact he1
    · rw [hpeq] at hcell ⊢
      dsimp only at hcell ⊢
      rw [hGcell r c, getCell_emptyGrid, Option.or_none] at hcell
      have hmem2 := lookupPos_mem prs (r, c) x hcell
      rw [hprs] at hmem2
      rcases List.mem_map.mp hmem2 with ⟨q, hqmem, hqeq⟩
      have hq1 : q.1 = (r, c) := congrArg Prod.fst hqeq
      have hq2 : q.2.reg_no = x := congrArg Prod.snd hqeq
      refine ⟨univEntry h q.1 q.2, ?_, rfl, ?_, ?_⟩
      · rw [hfindA' x]
        have hfkv : findA KV q.2.reg_no = some (univEntry h q.1 q.2) := by
          rw [hKV]
          exact findA_map_of_mem (fun q => q.2.reg_no)
            (fun q => univEntry h q.1 q.2) pairs
            (by rw [hpairssnd]; exact hnd1) q hqmem
        rw [← hq2, hfkv]
        rfl
      · rw [show (univEntry h q.1 q.2).row = q.1.1 + 1 from rfl, hq1]
      · rw [show (univEntry h q.1 q.2).col = q.1.2 + 1 from rfl, hq1]
  · simp only [List.map_append]
    exact hndrest2
  · intro x hx
    rw [hfindA' x]
    have h1 : findA st.allocs x = none := hrestD x (by
      simpa only [List.map_append] using hx)
    have h2 : findA KV x = none := by
      apply findA_eq_none_of_not_mem
      rw [hKVkeys]
      intro hx3
      exact hdisj hx3 (by simpa only [List.map_append] using hx)
    rw [h1, h2]
    rfl
  · exact keys_updA_nodup st.seats _ _ hE

theorem univHall_regs (tgts : List (String × Nat)) (st : UnivState) (h : Hall)
    (hempty : findA st.seats h.hall_code = some (emptyGrid h.rows h.cols)) :
    List.Perm
      (seatsRegs (univHall tgts st h).seats
        ++ ((univHall tgts st h).first ++ (univHall tgts st h).second).map
            Student.reg_no)
      (seatsRegs st.seats ++ (st.first ++ st.second).map Student.reg_no) := by
  rw [univHall_eq]
  by_cases h0 : (findA tgts h.hall_code).getD 0 = 0
  · rw [if_pos h0]
  rw [if_neg h0]
  set U := min (hallCap h) (min h.total_capacity
    ((findA tgts h.hall_code).getD 0)) with hU
  set pulled := pullRR U st.first st.second with hpulled
  by_cases hp : pulled.1 = []
  · rw [if_pos hp]
    dsimp only
    have hperm := pullRR_perm U st.first st.second
    rw [← hpulled, hp] at hperm
    simp only [List.nil_append] at hperm
    exact List.Perm.append_left _ (hperm.map _)
  rw [if_neg hp]
  dsimp only
  set pairs := (serpPositions h.rows h.cols).zip pulled.1 with hpairs
  have hfst : (placePairs h st.seats st.allocs pairs).1
      = updA st.seats h.hall_code (placeRegs (emptyGrid h.rows h.cols)
          (pairs.map (fun q => (q.1, q.2.reg_no)))) :=
    placePairs_fst h pairs st.seats st.allocs _ hempty
  rw [hfst]
  set prs := pairs.map (fun q => (q.1, q.2.reg_no)) with hprs
  have hcap : hallCap h = h.rows * h.cols := rfl
  have hlenpull := (pullRR_lengths U st.first st.second).1
  rw [← hpulled] at hlenpull
  have hserplen := serpPositions_length h.rows h.cols
  have hserpnd := serpPositions_nodup h.rows h.cols
  have hlen1 : pulled.1.length ≤ (serpPositions h.rows h.cols).length := by
    rw [hserplen]
    omega
  have hprsfst : prs.map Prod.fst
      = (serpPositions h.rows h.cols).take pulled.1.length := by
    have h1 : prs.map Prod.fst = pairs.map Prod.fst := by
      rw [hprs, List.map_map]
      rfl
    rw [h1, hpairs, zip_map_fst]
  have hndprs : (prs.map Prod.fst).Nodup := by
    rw [hprsfst]
    exact (List.take_sublist _ _).nodup hserpnd
  have hbounds : ∀ q ∈ prs, q.1.1 < (emptyGrid h.rows h.cols).length ∧
      q.1.2 < ((emptyGrid h.rows h.cols).getD q.1.1 []).length ∧
      getCell (emptyGrid h.rows h.cols) q.1.1 q.1.2 = none := by
    intro q hq
    have hq1 : q.1 ∈ serpPositions h.rows h.cols := by
      have h2 : q.1 ∈ prs.map Prod.fst := List.mem_map_of_mem Prod.fst hq
      rw [hprsfst] at h2
      exact (List.take_sublist _ _).subset h2
    rcases (mem_serpPositions h.rows h.cols q.1).mp hq1 with ⟨hr, hcc⟩
    refine ⟨by rw [emptyGrid_length]; exact hr, ?_, getCell_emptyGrid _ _ _ _⟩
    rw [emptyGrid_row h.rows h.cols q.1.1 hr]
    simpa using hcc
  obtain ⟨hGlen, hGrow, hGcell, hGperm⟩ :=
    placeRegs_spec prs (emptyGrid h.rows h.cols) hbounds hndprs
  have hupd := seatsRegs_updA_perm st.seats h.hall_code _
    (placeRegs (emptyGrid h.rows h.cols) prs) hempty
  have hperm := pullRR_perm U st.first st.second
  rw [← hpulled] at hperm
  have c4 : prs.map Prod.snd = pulled.1.map Student.reg_no := by
    have h1 : prs.map Prod.snd = (pairs.map Prod.snd).map Student.reg_no := by
      rw [hprs, List.map_map, List.map_map]
      rfl
    rw [h1, hpairs, zip_map_snd, List.take_of_length_le hlen1]
  refine List.perm_iff_count.mpr (fun a => ?_)
  have c1 := hupd.count_eq a
  have c2 := hGperm.count_eq a
  have c3 := (hperm.map Student.reg_no).count_eq a
  rw [c4] at c2
  simp only [List.count_append, List.map_append, gridRegs_emptyGrid,
    List.count_nil] at c1 c2 c3 ⊢
  omega

theorem univFold_inv (tgts : List (String × Nat)) :
    ∀ (hs : List Hall) (st : UnivState),
      (hs.map Hall.hall_code).Nodup →
      (∀ h ∈ hs, findA st.seats h.hall_code = some (emptyGrid h.rows h.cols)) →
      runInv st → runInv (hs.foldl (univHall tgts) st) := by
  intro hs
  induction hs with
  | nil => intro st _ _ hinv; exact hinv
  | cons h hs ih =>
      intro st hnd hempty hinv
      have hnd2 : (h.hall_code :: hs.map Hall.hall_code).Nodup := by
        simpa only [List.map_cons] using hnd
      simp only [List.foldl_cons]
      refine ih (univHall tgts st h) (List.nodup_cons.mp hnd2).2 ?_
        (univHall_inv tgts st h (hempty h (by simp)) hinv)
      intro h' hh'
      rw [univHall_findA_ne tgts st h h'.hall_code ?_]
      · exact hempty h' (List.mem_cons_of_mem h hh')
      · intro hc
        exact (List.nodup_cons.mp hnd2).1
          (hc ▸ List.mem_map_of_mem Hall.hall_code hh')

theorem univFold_regs (tgts : List (String × Nat)) :
    ∀ (hs : List Hall) (st : UnivState),
      (hs.map Hall.hall_code).Nodup →
      (∀ h ∈ hs, findA st.seats h.hall_code = some (emptyGrid h.rows h.cols)) →
      List.Perm
        (seatsRegs (hs.foldl (univHall tgts) st).seats
          ++ ((hs.foldl (univHall tgts) st).first
            ++ (hs.foldl (univHall tgts) st).second).map Student.reg_no)
        (seatsRegs st.seats ++ (st.first ++ st.second).map Student.reg_no) := by
  intro hs
  induction hs with
  | nil =>
      intro st _ _
      simp only [List.foldl_nil]
      exact List.Perm.refl _
  | cons h hs ih =>
      intro st hnd hempty
      have hnd2 : (h.hall_code :: hs.map Hall.hall_code).Nodup := by
        simpa only [List.map_cons] using hnd
      simp only [List.foldl_cons]
      refine (ih (univHall tgts st h) (List.nodup_cons.mp hnd2).2 ?_).trans
        (univHall_regs tgts st h (hempty h (by simp)))
      intro h' hh'
      rw [univHall_findA_ne tgts st h h'.hall_code ?_]
      · exact hempty h' (List.mem_cons_of_mem h hh')
      · intro hc
        exact (List.nodup_cons.mp hnd2).1
          (hc ▸ List.mem_map_of_mem Hall.hall_code hh')

end Univ

/-- C1 (amended): in the University variant, for every input with distinct
hall codes and distinct registration ids on which `allocate_seats` returns
successfully, the total number of occupied cells over all hall grids equals
the number of students, and each registration id occupies exactly one
(hall, row, col) cell.  Without distinct hall codes the claim fails: two
halls sharing a code share one stored grid and placements overwrite each
other (see the counterexample). -/
theorem C1_success_occupancy (students : List Univ.Student)
    (halls : List Univ.Hall) (st : Univ.UnivState)
    (hndh : (halls.map Univ.Hall.hall_code).Nodup)
    (hndr : (students.map Univ.Student.reg_no).Nodup)
    (hok : Univ.allocate_seats students halls = Except.ok st) :
    SeatAlloc.seatsOccupied st.seats = students.length ∧
    ∀ s ∈ students, SeatAlloc.regCellCount st.seats s.reg_no = 1 := by
  obtain ⟨hst, hf1, hf2⟩ := Univ.allocate_ok_run students halls st hok
  have hnd2 : ((Univ.hallsToUse students halls).map
      Univ.Hall.hall_code).Nodup := by
    have hsub : List.Sublist
        ((Univ.hallsToUse students halls).map Univ.Hall.hall_code)
        (halls.map Univ.Hall.hall_code) :=
      List.Sublist.map _ (List.filter_sublist halls)
    exact hsub.nodup hndh
  have hempty0 : ∀ h ∈ Univ.hallsToUse students halls,
      SeatAlloc.findA (Univ.initSeats halls) h.hall_code
        = some (SeatAlloc.emptyGrid h.rows h.cols) := by
    intro h hh
    exact Univ.findA_initSeats halls hndh h (List.mem_of_mem_filter hh)
  have hperm := Univ.univFold_regs
    (Univ.studentsPerHall (Univ.hallsToUse students halls) students.length)
    (Univ.hallsToUse students halls)
    { first := students.take ((students.length + 1) / 2),
      second := students.drop ((students.length + 1) / 2),
      seats := Univ.initSeats halls, allocs := [],
      courses := Univ.initCourses halls } hnd2 hempty0
  have hperm2 : List.Perm
      (SeatAlloc.seatsRegs (Univ.univRun students halls).seats
        ++ (((Univ.univRun students halls).first
          ++ (Univ.univRun students halls).second).map Univ.Student.reg_no))
      (SeatAlloc.seatsRegs (Univ.initSeats halls)
        ++ ((students.take ((students.length + 1) / 2)
          ++ students.drop ((students.length + 1) / 2)).map
            Univ.Student.reg_no)) := hperm
  rw [hf1, hf2, Univ.seatsRegs_initSeats halls, List.take_append_drop]
    at hperm2
  simp only [List.append_nil, List.map_nil, List.nil_append] at hperm2
  subst hst
  constructor
  · rw [SeatAlloc.seatsOccupied_eq, hperm2.length_eq, List.length_map]
  · intro s hs
    rw [SeatAlloc.regCellCount_eq, hperm2.count_eq]
    exact List.count_eq_one_of_mem hndr
      (List.mem_map_of_mem Univ.Student.reg_no hs)

/-- Witness for C1: the amended occupancy statement at the concrete two
students / one 1x2 hall success run. -/
theorem C1_success_occupancy_witness :
    SeatAlloc.seatsOccupied Inputs.okSt.seats = 2 ∧
    ∀ s ∈ Inputs.okS, SeatAlloc.regCellCount Inputs.okSt.seats s.reg_no = 1 :=
  C1_success_occupancy Inputs.okS Inputs.okH Inputs.okSt
    (by decide) (by decide) rfl

/-- C10 (amended): in the University variant, for every input with distinct
hall codes and distinct registration ids on which `allocate_seats` returns
successfully, the ledger and the grids agree: every ledger entry carries
1-based coordinates whose cell in its hall's grid holds exactly that student,
and every occupied cell of every stored grid has the matching ledger entry.
Without distinct hall codes the correspondence fails (see the
counterexample). -/
theorem C10_ledger_grid_consistency (students : List Univ.Student)
    (halls : List Univ.Hall) (st : Univ.UnivState)
    (hndh : (halls.map Univ.Hall.hall_code).Nodup)
    (hndr : (students.map Univ.Student.reg_no).Nodup)
    (hok : Univ.allocate_seats students halls = Except.ok st) :
    (∀ r e, SeatAlloc.findA st.allocs r = some e →
      1 ≤ e.row ∧ 1 ≤ e.col ∧
      SeatAlloc.getCell (SeatAlloc.getGridD st.seats e.hall_code)
        (e.row - 1) (e.col - 1) = some r) ∧
    (∀ code g, SeatAlloc.findA st.seats code = some g →
      ∀ r c x, SeatAlloc.getCell g r c = some x →
        ∃ e, SeatAlloc.findA st.allocs x = some e ∧ e.hall_code = code ∧
          e.row = r + 1 ∧ e.col = c + 1) := by
  obtain ⟨hst, hf1, hf2⟩ := Univ.allocate_ok_run students halls st hok
  have hnd2 : ((Univ.hallsToUse students halls).map
      Univ.Hall.hall_code).Nodup := by
    have hsub : List.Sublist
        ((Univ.hallsToUse students halls).map Univ.Hall.hall_code)
        (halls.map Univ.Hall.hall_code) :=
      List.Sublist.map _ (List.filter_sublist halls)
    exact hsub.nodup hndh
  have hempty0 : ∀ h ∈ Univ.hallsToUse students halls,
      SeatAlloc.findA (Univ.initSeats halls) h.hall_code
        = some (SeatAlloc.emptyGrid h.rows h.cols) := by
    intro h hh
    exact Univ.findA_initSeats halls hndh h (List.mem_of_mem_filter hh)
  have hinv0 : Univ.runInv
      { first := students.take ((students.length + 1) / 2),
        second := students.drop ((students.length + 1) / 2),
        seats := Univ.initSeats halls, allocs := [],
        courses := Univ.initCourses halls } := by
    refine ⟨⟨?_, ?_⟩, ?_, ?_, ?_⟩ <;> dsimp only
    · intro r e h
      simp [SeatAlloc.findA] at h
    · intro p hp r c x hcell
      have hnil := Univ.gridRegs_foldl_init halls []
        (by intro q hq; cases hq) p hp
      have hx := SeatAlloc.mem_gridRegs_of_getCell p.2 r c x hcell
      rw [hnil] at hx
      cases hx
    · rw [List.take_append_drop]
      exact hndr
    · intro x _
      rfl
    · exact Univ.keys_initSeats halls
  have hinv := Univ.univFold_inv
    (Univ.studentsPerHall (Univ.hallsToUse students halls) students.length)
    (Univ.hallsToUse students halls)
    { first := students.take ((students.length + 1) / 2),
      second := students.drop ((students.length + 1) / 2),
      seats := Univ.initSeats halls, allocs := [],
      courses := Univ.initCourses halls } hnd2 hempty0 hinv0
  have hinvrun : Univ.runInv (Univ.univRun students halls) := hinv
  obtain ⟨⟨hA, hB⟩, _, _, _⟩ := hinvrun
  subst hst
  refine ⟨hA, ?_⟩
  intro code g hfind r c x hcell
  obtain ⟨e, he1, he2, he3, he4⟩ :=
    hB (code, g) (SeatAlloc.findA_mem _ _ _ hfind) r c x hcell
  exact ⟨e, he1, he2, he3, he4⟩

/-- Witness for C10: the amended ledger-grid statement at the concrete two
students / one 1x2 hall success run. -/
theorem C10_ledger_grid_consistency_witness :
    (∀ r e, SeatAlloc.findA Inputs.okSt.allocs r = some e →
      1 ≤ e.row ∧ 1 ≤ e.col ∧
      SeatAlloc.getCell (SeatAlloc.getGridD Inputs.okSt.seats e.hall_code)
        (e.row - 1) (e.col - 1) = some r) ∧
    (∀ code g, SeatAlloc.findA Inputs.okSt.seats code = some g →
      ∀ r c x, SeatAlloc.getCell g r c = some x →
        ∃ e, SeatAlloc.findA Inputs.okSt.allocs x = some e ∧
          e.hall_code = code ∧ e.row = r + 1 ∧ e.col = c + 1) :=
  C10_ledger_grid_consistency Inputs.okS Inputs.okH Inputs.okSt
    (by decide) (by decide) rfl

namespace Exam1

open SeatAlloc

theorem pack211Go_succ (fuel : Nat) (current : List String) (usable : Nat)
    (acc : List Student) (rem : RemD) (idx : Nat) :
    pack211Go (fuel + 1) current usable acc rem idx
      = if acc.length < usable && anyRemaining rem current then
          match (findA rem
            (current.getD ([0, 0, 1, 2].getD (idx % 4) 0) "")).getD [] with
          | [] => pack211Go fuel current usable acc rem (idx + 1)
          | stu :: rest =>
              pack211Go fuel current usable (acc ++ [stu])
                (updA rem (current.getD ([0, 0, 1, 2].getD (idx % 4) 0) "")
                  rest) (idx + 1)
        else some (acc, rem) := rfl

theorem three_empty_contra (current : List String) (rem : RemD)
    (h3 : current.length = 3) (hany : anyRemaining rem current = true)
    (h0 : (findA rem (current.getD 0 "")).getD [] = [])
    (h1 : (findA rem (current.getD 1 "")).getD [] = [])
    (h2 : (findA rem (current.getD 2 "")).getD [] = []) : False := by
  rcases current with _ | ⟨a, _ | ⟨b, _ | ⟨d, rest⟩⟩⟩
  · simp at h3
  · simp at h3
  · simp at h3
  · have hrest : rest = [] := by
      simp only [List.length_cons] at h3
      exact List.eq_nil_of_length_eq_zero (by omega)
    subst hrest
    unfold anyRemaining at hany
    rw [List.any_eq_true] at hany
    obtain ⟨c, hc, hne⟩ := hany
    simp only [List.mem_cons, List.not_mem_nil, or_false] at hc
    have h0' : (findA rem a).getD [] = [] := h0
    have h1' : (findA rem b).getD [] = [] := h1
    have h2' : (findA rem d).getD [] = [] := h2
    rcases hc with rfl | rfl | rfl
    · rw [h0'] at hne
      simp at hne
    · rw [h1'] at hne
      simp at hne
    · rw [h2'] at hne
      simp at hne

theorem pack211Go_some_aux (current : List String) (usable : Nat)
    (h3 : current.length = 3) :
    ∀ (d fuel : Nat) (acc : List Student) (rem : RemD) (idx : Nat),
      usable - acc.length ≤ d → 4 * d + 4 ≤ fuel →
      (pack211Go fuel current usable acc rem idx).isSome = true := by
  intro d
  induction d with
  | zero =>
      intro fuel acc rem idx hd hfuel
      obtain ⟨f1, rfl⟩ : ∃ f, fuel = f + 1 := ⟨fuel - 1, by omega⟩
      rw [pack211Go_succ, if_neg ?_]
      · rfl
      · simp only [Bool.and_eq_true, decide_eq_true_eq]
        rintro ⟨hlt, _⟩
        omega
  | succ d ih =>
      intro fuel acc rem idx hd hfuel
      obtain ⟨f1, rfl⟩ : ∃ f, fuel = f + 1 := ⟨fuel - 1, by omega⟩
      rw [pack211Go_succ]
      by_cases hguard : (acc.length < usable && anyRemaining rem current) = true
      case neg =>
        rw [if_neg hguard]
        rfl
      rw [if_pos hguard]
      have hg2 := hguard
      simp only [Bool.and_eq_true, decide_eq_true_eq] at hg2
      obtain ⟨hlt, hany⟩ := hg2
      have hpop : ∀ (f : Nat) (acc2 : List Student) (rem2 : RemD)
          (stu : Student) (idx2 : Nat), acc2 = acc →
          4 * d + 4 ≤ f →
          (pack211Go f current usable (acc2 ++ [stu]) rem2 idx2).isSome
            = true := by
        intro f acc2 rem2 stu idx2 hacc hf
        subst hacc
        apply ih f (acc2 ++ [stu]) rem2 idx2 ?_ hf
        simp only [List.length_append, List.length_cons, List.length_nil]
        omega
      rcases he0 : (findA rem
          (current.getD ([0, 0, 1, 2].getD (idx % 4) 0) "")).getD []
        with _ | ⟨stu, rest⟩
      swap
      · dsimp only
        exact hpop f1 acc _ stu _ rfl (by omega)
      dsimp only
      obtain ⟨f2, rfl⟩ : ∃ f, f1 = f + 1 := ⟨f1 - 1, by omega⟩
      rw [pack211Go_succ, if_pos hguard]
      rcases he1 : (findA rem
          (current.getD ([0, 0, 1, 2].getD ((idx + 1) % 4) 0) "")).getD []
        with _ | ⟨stu, rest⟩
      swap
      · dsimp only
        exact hpop f2 acc _ stu _ rfl (by omega)
      dsimp only
      obtain ⟨f3, rfl⟩ : ∃ f, f2 = f + 1 := ⟨f2 - 1, by omega⟩
      rw [pack211Go_succ, if_pos hguard]
      rcases he2 : (findA rem
          (current.getD ([0, 0, 1, 2].getD ((idx + 1 + 1) % 4) 0) "")).getD []
        with _ | ⟨stu, rest⟩
      swap
      · dsimp only
        exact hpop f3 acc _ stu _ rfl (by omega)
      dsimp only
      obtain ⟨f4, rfl⟩ : ∃ f, f3 = f + 1 := ⟨f3 - 1, by omega⟩
      rw [pack211Go_succ, if_pos hguard]
      rcases he3 : (findA rem
          (current.getD
            ([0, 0, 1, 2].getD ((idx + 1 + 1 + 1) % 4) 0) "")).getD []
        with _ | ⟨stu, rest⟩
      swap
      · dsimp only
        exact hpop f4 acc _ stu _ rfl (by omega)
      dsimp only
      exfalso
      have hm : idx % 4 = 0 ∨ idx % 4 = 1 ∨ idx % 4 = 2 ∨ idx % 4 = 3 := by
        omega
      rcases hm with hm | hm | hm | hm
      · rw [show [0, 0, 1, 2].getD (idx % 4) 0 = 0 from by rw [hm]; rfl] at he0
        rw [show [0, 0, 1, 2].getD ((idx + 1 + 1) % 4) 0 = 1 from by
          rw [show (idx + 1 + 1) % 4 = 2 from by omega]; rfl] at he2
        rw [show [0, 0, 1, 2].getD ((idx + 1 + 1 + 1) % 4) 0 = 2 from by
          rw [show (idx + 1 + 1 + 1) % 4 = 3 from by omega]; rfl] at he3
        exact three_empty_contra current rem h3 hany he0 he2 he3
      · rw [show [0, 0, 1, 2].getD (idx % 4) 0 = 0 from by rw [hm]; rfl] at he0
        rw [show [0, 0, 1, 2].getD ((idx + 1) % 4) 0 = 1 from by
          rw [show (idx + 1) % 4 = 2 from by omega]; rfl] at he1
        rw [show [0, 0, 1, 2].getD ((idx + 1 + 1) % 4) 0 = 2 from by
          rw [show (idx + 1 + 1) % 4 = 3 from by omega]; rfl] at he2
        exact three_empty_contra current rem h3 hany he0 he1 he2
      · rw [show [0, 0, 1, 2].getD (idx % 4) 0 = 1 from by rw [hm]; rfl] at he0
        rw [show [0, 0, 1, 2].getD ((idx + 1) % 4) 0 = 2 from by
          rw [show (idx + 1) % 4 = 3 from by omega]; rfl] at he1
        rw [show [0, 0, 1, 2].getD ((idx + 1 + 1) % 4) 0 = 0 from by
          rw [show (idx + 1 + 1) % 4 = 0 from by omega]; rfl] at he2
        exact three_empty_contra current rem h3 hany he2 he0 he1
      · rw [show [0, 0, 1, 2].getD (idx % 4) 0 = 2 from by rw [hm]; rfl] at he0
        rw [show [0, 0, 1, 2].getD ((idx + 1) % 4) 0 = 0 from by
          rw [show (idx + 1) % 4 = 0 from by omega]; rfl] at he1
        rw [show [0, 0, 1, 2].getD ((idx + 1 + 1 + 1) % 4) 0 = 1 from by
          rw [show (idx + 1 + 1 + 1) % 4 = 2 from by omega]; rfl] at he3
        exact three_empty_contra current rem h3 hany he1 he3 he0

theorem rrInner_cons (usable : Nat) (c : String) (cs : List String)
    (p : List Student × RemD) :
    rrInner usable (c :: cs) p
      = rrInner usable cs
          (match (findA p.2 c).getD [] with
           | [] => p
           | stu :: rest =>
               if p.1.length < usable then (p.1 ++ [stu], updA p.2 c rest)
               else p) := rfl

theorem rrInner_mono (usable : Nat) : ∀ (current : List String)
    (p : List Student × RemD),
    p.1.length ≤ (rrInner usable current p).1.length := by
  intro current
  induction current with
  | nil => intro p; exact Nat.le_refl _
  | cons c cs ih =>
      intro p
      rw [rrInner_cons]
      rcases hfind : (findA p.2 c).getD [] with _ | ⟨stu, rest⟩
      · exact ih p
      · dsimp only
        by_cases hlt : p.1.length < usable
        · rw [if_pos hlt]
          refine Nat.le_trans ?_ (ih _)
          simp
        · rw [if_neg hlt]
          exact ih p

theorem rrInner_progress (usable : Nat) : ∀ (current : List String)
    (p : List Student × RemD), anyRemaining p.2 current = true →
    p.1.length < usable → p.1.length < (rrInner usable current p).1.length := by
  intro current
  induction current with
  | nil => intro p hany _; cases hany
  | cons c cs ih =>
      intro p hany hlt
      rw [rrInner_cons]
      rcases hfind : (findA p.2 c).getD [] with _ | ⟨stu, rest⟩
      · have hany2 : anyRemaining p.2 cs = true := by
          unfold anyRemaining at hany ⊢
          simp only [List.any_cons, Bool.or_eq_true] at hany
          rcases hany with hc | hcs
          · rw [hfind] at hc
            simp at hc
          · exact hcs
        exact ih p hany2 hlt
      · dsimp only
        rw [if_pos hlt]
        have := rrInner_mono usable cs (p.1 ++ [stu], updA p.2 c rest)
        simp only [List.length_append, List.length_cons, List.length_nil]
          at this
        omega

theorem packRRGo_succ (fuel : Nat) (current : List String) (usable : Nat)
    (p : List Student × RemD) :
    packRRGo (fuel + 1) current usable p
      = if p.1.length < usable && anyRemaining p.2 current then
          packRRGo fuel current usable (rrInner usable current p)
        else some p := rfl

theorem packRRGo_some (current : List String) (usable : Nat) :
    ∀ (fuel : Nat) (p : List Student × RemD),
      usable - p.1.length < fuel →
      (packRRGo fuel current usable p).isSome = true := by
  intro fuel
  induction fuel with
  | zero => intro p h; omega
  | succ f ih =>
      intro p h
      rw [packRRGo_succ]
      by_cases hguard : (p.1.length < usable && anyRemaining p.2 current)
          = true
      · rw [if_pos hguard]
        have hg2 := hguard
        simp only [Bool.and_eq_true, decide_eq_true_eq] at hg2
        obtain ⟨hlt, hany⟩ := hg2
        apply ih
        have := rrInner_progress usable current p hany hlt
        omega
      · rw [if_neg hguard]
        rfl

end Exam1

namespace CopyVar

open SeatAlloc

theorem innerSweep_cons (usable : Nat) (course : String) (rest : List String)
    (st : RRState) :
    innerSweep usable (course :: rest) st
      = if usable ≤ st.hall_students.length then st
        else
          match (findA st.remaining course).getD [] with
          | stu :: more =>
              innerSweep usable rest
                { st with hall_students := st.hall_students ++ [stu],
                          remaining := updA st.remaining course more }
          | [] =>
              match st.future_courses with
              | next :: future' =>
                  innerSweep usable rest
                    { st with
                      current_courses :=
                        (st.current_courses ++ [next]).erase course,
                      future_courses := future' }
              | [] =>
                  innerSweep usable rest
                    { st with current_courses :=
                        st.current_courses.erase course } := rfl

theorem innerSweep_T_le (usable : Nat) : ∀ (snap : List String)
    (st : RRState),
    (usable - (innerSweep usable snap st).hall_students.length)
      + 2 * (innerSweep usable snap st).future_courses.length
      + (innerSweep usable snap st).current_courses.length
    ≤ (usable - st.hall_students.length) + 2 * st.future_courses.length
      + st.current_courses.length := by
  intro snap
  induction snap with
  | nil => intro st; exact Nat.le_refl _
  | cons course rest ih =>
      intro st
      rw [innerSweep_cons]
      by_cases hbreak : usable ≤ st.hall_students.length
      · rw [if_pos hbreak]
      · rw [if_neg hbreak]
        rcases hfind : (findA st.remaining course).getD []
          with _ | ⟨stu, more⟩
        · rcases hfut : st.future_courses with _ | ⟨next, future'⟩
          · dsimp only
            refine Nat.le_trans (ih _) ?_
            dsimp only
            have h1 := (List.erase_sublist course st.current_courses).length_le
            omega
          · dsimp only
            refine Nat.le_trans (ih _) ?_
            dsimp only
            have h1 := (List.erase_sublist course
              (st.current_courses ++ [next])).length_le
            simp only [List.length_append, List.length_cons, List.length_nil]
              at h1
            simp only [List.length_cons]
            omega
        · dsimp only
          refine Nat.le_trans (ih _) ?_
          dsimp only
          simp only [List.length_append, List.length_cons, List.length_nil]
          omega

theorem innerSweep_T_lt (usable : Nat) (st : RRState)
    (hlt : st.hall_students.length < usable)
    (hne : st.current_courses ≠ []) :
    (usable - (innerSweep usable st.current_courses st).hall_students.length)
      + 2 * (innerSweep usable st.current_courses st).future_courses.length
      + (innerSweep usable st.current_courses st).current_courses.length
    < (usable - st.hall_students.length) + 2 * st.future_courses.length
      + st.current_courses.length := by
  rcases hcur : st.current_courses with _ | ⟨c, rest⟩
  · exact absurd hcur hne
  rw [innerSweep_cons, if_neg (by omega)]
  rcases hfind : (findA st.remaining c).getD [] with _ | ⟨stu, more⟩
  · rcases hfut : st.future_courses with _ | ⟨next, future'⟩
    · dsimp only
      refine Nat.lt_of_le_of_lt (innerSweep_T_le usable rest _) ?_
      dsimp only
      rw [hcur, List.erase_cons_head]
      simp only [List.length_cons]
      omega
    · dsimp only
      refine Nat.lt_of_le_of_lt (innerSweep_T_le usable rest _) ?_
      dsimp only
      rw [hcur]
      rw [show ((c :: rest) ++ [next]) = c :: (rest ++ [next]) from rfl,
        List.erase_cons_head]
      simp only [List.length_cons, List.length_append, List.length_nil]
      omega
  · dsimp only
    refine Nat.lt_of_le_of_lt (innerSweep_T_le usable rest _) ?_
    dsimp only
    rw [hcur]
    simp only [List.length_append, List.length_cons, List.length_nil]
    omega

theorem packReplaceGo_succ (usable fuel : Nat) (st : RRState) :
    packReplaceGo usable (fuel + 1) st
      = if st.hall_students.length < usable then
          if (innerSweep usable st.current_courses st).current_courses = []
          then some (innerSweep usable st.current_courses st)
          else packReplaceGo usable fuel
            (innerSweep usable st.current_courses st)
        else some st := rfl

theorem packReplaceGo_some (usable : Nat) : ∀ (fuel : Nat) (st : RRState),
    (usable - st.hall_students.length) + 2 * st.future_courses.length
      + st.current_courses.length < fuel →
    (packReplaceGo usable fuel st).isSome = true := by
  intro fuel
  induction fuel with
  | zero => intro st h; omega
  | succ f ih =>
      intro st h
      rw [packReplaceGo_succ]
      by_cases hlt : st.hall_students.length < usable
      case neg =>
        rw [if_neg hlt]
        rfl
      rw [if_pos hlt]
      by_cases hcur0 : (innerSweep usable st.current_courses st).current_courses
          = []
      · rw [if_pos hcur0]
        rfl
      · rw [if_neg hcur0]
        apply ih
        by_cases hne : st.current_courses = []
        · exfalso
          rw [hne] at hcur0
          exact hcur0 hne
        · have := innerSweep_T_lt usable st hlt hne
          omega

end CopyVar

/-- C9: all three packing loops terminate on every input their variant runs
them on: the Exam1 2:1:1 loop (a three-course window pops a student within
every four ticks of the weighted cycle, so `4 * usable + 4` ticks suffice),
the Exam1 fallback round-robin loop (each sweep of a live window seats at
least one student, so `usable + 1` sweeps suffice), and the copy variant's
round-robin loop with course replacement (each sweep either seats a student
or strictly shrinks the combined current-plus-future course supply).  The
fuel in each embedded loop is never exhausted, so the run always ends after
finitely many steps. -/
theorem C9_packing_terminates :
    (∀ (current : List String) (usable : Nat) (rem : Exam1.RemD),
      current.length = 3 →
      (Exam1.pack211Go (4 * usable + 4) current usable [] rem 0).isSome
        = true) ∧
    (∀ (current : List String) (usable : Nat) (rem : Exam1.RemD),
      (Exam1.packRRGo (usable + 1) current usable ([], rem)).isSome = true) ∧
    (∀ (usable : Nat) (st : CopyVar.RRState),
      (CopyVar.packReplaceGo usable
        ((usable - st.hall_students.length) + 2 * st.future_courses.length
          + st.current_courses.length + 1) st).isSome = true) := by
  refine ⟨?_, ?_, ?_⟩
  · intro current usable rem h3
    apply Exam1.pack211Go_some_aux current usable h3 usable (4 * usable + 4)
      [] rem 0
    · simp
    · omega
  · intro current usable rem
    apply Exam1.packRRGo_some current usable (usable + 1) ([], rem)
    simp
  · intro usable st
    apply CopyVar.packReplaceGo_some
    omega

/-- Witness for C9: the termination statement applied to a concrete
three-course window with one student left, a one-course round-robin window,
and a copy-variant state with one current and one future course. -/
theorem C9_packing_terminates_witness :
    (["a", "b", "c"] : List String).length = 3 ∧
    (Exam1.pack211Go (4 * 1 + 4) ["a", "b", "c"] 1 []
      [("a", [Inputs.eS "r1" "a"])] 0).isSome = true ∧
    (Exam1.packRRGo (1 + 1) ["a"] 1
      ([], [("a", [Inputs.eS "r1" "a"])])).isSome = true ∧
    (CopyVar.packReplaceGo 1 ((1 - 0) + 2 * 1 + 1 + 1)
      { hall_students := [], remaining := [], current_courses := ["a"],
        future_courses := ["b"] }).isSome = true :=
  ⟨rfl,
   C9_packing_terminates.1 ["a", "b", "c"] 1 [("a", [Inputs.eS "r1" "a"])] rfl,
   C9_packing_terminates.2.1 ["a"] 1 [("a", [Inputs.eS "r1" "a"])],
   C9_packing_terminates.2.2 1
     { hall_students := [], remaining := [], current_courses := ["a"],
       future_courses := ["b"] }⟩
